import Mathlib

/-!
# WhatevrMe site: request dispatcher, note store and template inclusion

A shallow embedding of `whatevrme_site/notes.go` and `whatevrme_site/webserver.go`.

* Go strings are byte sequences; a byte is represented by the character with the
  same code, so `len` is `List.length` and slicing is `take`/`drop`.
* The operating system, the JSON/gzip codecs, the template parser and executor and
  `http.ServeContent` are library code: they are parameters of the model
  (`OS`, `Codec`, `Engine`), never fixed to one behaviour.
* Sources of entropy (`crypto/rand`, `time.Now`, `math/rand`) are explicit inputs.
-/

namespace WhatevrMe

/-! ## Definitions -/

/-- A Go `string`: a sequence of bytes, each written as the character of the same code. -/
abbrev GoString := List Char

/-- A Go `error` value, identified with its text. -/
abbrev GoError := GoString

/-! ### `strings` and `path` (standard library, modelled on bytes) -/

/-- `strings.Contains(s, substr)`. -/
def stringsContains (s substr : GoString) : Bool :=
  s.tails.any (fun t => substr.isPrefixOf t)

/-- `strings.HasPrefix(s, pre)`. -/
def stringsHasPrefix (s pre : GoString) : Bool :=
  pre.isPrefixOf s

/-- `strings.Trim(s, cutset)`: drop the leading and trailing bytes that are in `cutset`. -/
def stringsTrim (s cutset : GoString) : GoString :=
  ((s.dropWhile (fun c => cutset.contains c)).reverse.dropWhile
    (fun c => cutset.contains c)).reverse

/-- `strings.Split(s, sep)` for a one-byte separator: the pieces between the separators,
one more than there are separators. -/
def stringsSplit (sep : Char) : GoString → List GoString
  | [] => [[]]
  | c :: cs =>
    if c = sep then [] :: stringsSplit sep cs
    else
      match stringsSplit sep cs with
      | [] => [[c]]
      | h :: t => (c :: h) :: t

/-- `strings.Join(elems, sep)`. -/
def stringsJoin (sep : GoString) : List GoString → GoString
  | [] => []
  | [x] => x
  | x :: y :: rest => x ++ sep ++ stringsJoin sep (y :: rest)

/-- The element pass of `path.Clean`: empty and `.` elements are dropped, a `..` element
removes the element before it when there is one to remove, is dropped at the root of a
rooted path and is kept at the front of an unrooted one. `out` holds the elements kept so
far, last one first. -/
def cleanElems (rooted : Bool) : List GoString → List GoString → List GoString
  | out, [] => out.reverse
  | out, e :: es =>
    if e = [] ∨ e = ['.'] then cleanElems rooted out es
    else if e = ['.', '.'] then
      match out with
      | top :: below =>
        if top = ['.', '.'] then cleanElems rooted (e :: out) es
        else cleanElems rooted below es
      | [] => if rooted then cleanElems rooted [] es else cleanElems rooted [e] es
    else cleanElems rooted (e :: out) es

/-- `path.Clean(p)`: the shortest path equivalent to `p` by purely lexical processing. -/
def pathClean (p : GoString) : GoString :=
  match p with
  | [] => ['.']
  | '/' :: rest => '/' :: stringsJoin ['/'] (cleanElems true [] (stringsSplit '/' rest))
  | _ =>
    match cleanElems false [] (stringsSplit '/' p) with
    | [] => ['.']
    | es => stringsJoin ['/'] es

/-- `filepath.Join(dir, p)` on a slash-separated system: empty elements are ignored and the
result is cleaned; the empty string when both are empty. -/
def filepathJoin (dir p : GoString) : GoString :=
  if dir = [] then (if p = [] then [] else pathClean p)
  else if p = [] then pathClean dir
  else pathClean (dir ++ '/' :: p)

/-- `filepath.Dir(p)`: all but the last element of `p`, cleaned. -/
def filepathDir (p : GoString) : GoString :=
  pathClean (p.reverse.dropWhile (fun c => c != '/')).reverse

/-- `path.Ext(p)`: the suffix beginning at the final dot in the final element of `p`; empty
when there is no dot. -/
def pathExt (p : GoString) : GoString :=
  let last := p.reverse.takeWhile (fun c => c != '/')
  if last.contains '.' then (last.takeWhile (fun c => c != '.') ++ ['.']).reverse else []

/-! ### `notes.go` -/

/-- One byte of the character class `[a-zA-Z0-9_-]`. -/
def isNoteIDByte (c : Char) : Bool :=
  ('a' ≤ c && c ≤ 'z') || ('A' ≤ c && c ≤ 'Z') || ('0' ≤ c && c ≤ '9') || c == '_' || c == '-'

/-- `NOTE_ID_PATTERN.MatchString(id)` for the pattern `^[a-zA-Z0-9_-]+$`: at least one byte,
and every byte in the class (a byte outside ASCII never is). -/
def NOTE_ID_PATTERN (id : GoString) : Bool :=
  !id.isEmpty && id.all isNoteIDByte

/-- `CheckValidNoteID` checks an id for valid chars and length. -/
def CheckValidNoteID (id : GoString) : Except GoError Unit :=
  if !NOTE_ID_PATTERN id then
    .error "invalid characters in note id".toList
  else if id.length < 4 then
    .error "note id is too short".toList
  else
    .ok ()

/-- `NoteIDToPath` returns the path-prefixed path for a note id:
`id[0:1] + "/" + id[1:2] + "/" + id`. -/
def NoteIDToPath (id : GoString) : Except GoError GoString :=
  match CheckValidNoteID id with
  | .error e => .error e
  | .ok _ => .ok (id.take 1 ++ "/".toList ++ (id.drop 1).take 1 ++ "/".toList ++ id)

/-- The alphabet of `base64.URLEncoding`. -/
def encodeURL : GoString :=
  "ABCDEFGHIJKLMNOPQRSTUVWXYZabcdefghijklmnopqrstuvwxyz0123456789-_".toList

/-- The character for a 6-bit value in the URL alphabet. -/
def encodeURLAt (v : Nat) : Char :=
  encodeURL.getD (v % 64) 'A'

/-- `base64.RawURLEncoding.EncodeToString(b)`: three bytes give four characters; a tail
of one byte gives two characters and a tail of two bytes gives three, with no padding. -/
def rawURLEncodeToString : List Nat → GoString
  | [] => []
  | [a] => [encodeURLAt (a / 4), encodeURLAt (a % 4 * 16)]
  | [a, b] =>
    [encodeURLAt (a / 4), encodeURLAt (a % 4 * 16 + b / 16), encodeURLAt (b % 16 * 4)]
  | a :: b :: c :: rest =>
    encodeURLAt (a / 4) :: encodeURLAt (a % 4 * 16 + b / 16) ::
      encodeURLAt (b % 16 * 4 + c / 64) :: encodeURLAt (c % 64) :: rawURLEncodeToString rest

/-- `NewNoteID` returns a unique note ID (urlbase64 of random bytes). The argument is the
32-byte buffer after `crypto/rand.Read` has filled it. -/
def NewNoteID (b : List Nat) : GoString :=
  rawURLEncodeToString b

/-! ### The operating system and the codecs (library code, kept as parameters) -/

/-- What reading an opened file to its end delivers: the bytes read, and the read error that
ended the stream when it was not end-of-file. -/
structure ReadStream where
  data : GoString
  err : Option GoError
deriving DecidableEq

/-- The calls of package `os` the note store makes, over a file-system state `σ`.
Nothing is assumed about them: every call may fail. -/
structure OS (σ : Type) where
  /-- The call `os.Stat(name)`, its `FileInfo` dropped: the code only tests the error. -/
  Stat : σ → GoString → Except GoError Unit
  /-- The call `os.Open(name)`. -/
  Open : σ → GoString → Except GoError ReadStream
  /-- The call `os.MkdirAll(dir, 0700)`; the code ignores its error. -/
  MkdirAll : σ → GoString → σ
  /-- The call `os.OpenFile(name, O_WRONLY|O_CREATE|O_TRUNC, 0600)`. -/
  OpenFile : σ → GoString → Except GoError σ
  /-- Writing `data` through the open file and closing it: the state after, and the write
  error that surfaced through the encoder, if one did. -/
  Write : σ → GoString → GoString → σ × Option GoError
  /-- The call `os.Remove(name)`. -/
  Remove : σ → GoString → σ × Option GoError

/-- The JSON and gzip codecs over the `Note` struct `ν` (a `float64` timestamp and a byte
slice, kept abstract). -/
structure Codec (ν : Type) where
  /-- Decoding a request body: `json.NewDecoder(r.Body).Decode(&note)`. -/
  Decode : GoString → Except GoError ν
  /-- JSON text of a note: what `json.NewEncoder(gw).Encode(note)` marshals. -/
  Marshal : ν → Except GoError GoString
  /-- The gzip stream of a byte sequence. -/
  Gzip : GoString → GoString
  /-- Reading a note back: `gzip.NewReader` followed by `json.Decoder.Decode`. -/
  Gunzip : ReadStream → Except GoError ν

/-- NotePad is a bunch of notes stored in a folder, each note is gzipped JSON. -/
structure NotePad where
  StoreDir : GoString
deriving DecidableEq

/-- `NoteExists` returns true if a note with this ID exists on the disk. -/
def NotePad.NoteExists {σ : Type} (os : OS σ) (np : NotePad) (st : σ) (id : GoString) : Bool :=
  match NoteIDToPath id with
  | .error _ => false
  | .ok p =>
    match os.Stat st (filepathJoin np.StoreDir p) with
    | .error _ => false
    | .ok _ => true

/-- `WriteNote` writes the JSON marshaled version of note, gzipped, to the appropriate file.
Returns the file-system state after the call and the error, if any. The deferred
`gw.Flush`, `gw.Close` and `f.Close` run on every path once the file is open; when
marshaling fails they leave an empty gzip stream in the truncated file. -/
def NotePad.WriteNote {σ ν : Type} (os : OS σ) (cd : Codec ν) (np : NotePad) (st : σ)
    (id : GoString) (note : ν) : σ × Option GoError :=
  match NoteIDToPath id with
  | .error e => (st, some e)
  | .ok p =>
    let file := filepathJoin np.StoreDir p
    let st1 := os.MkdirAll st (filepathDir file)
    match os.OpenFile st1 file with
    | .error e => (st1, some e)
    | .ok st2 =>
      match cd.Marshal note with
      | .error e => ((os.Write st2 file (cd.Gzip [])).1, some e)
      | .ok js => os.Write st2 file (cd.Gzip js)

/-- `OpenNoteRaw` opens the stored bytes of a note. -/
def NotePad.OpenNoteRaw {σ : Type} (os : OS σ) (np : NotePad) (st : σ) (id : GoString) :
    Except GoError ReadStream :=
  match NoteIDToPath id with
  | .error e => .error e
  | .ok p => os.Open st (filepathJoin np.StoreDir p)

/-- `ReadNote` opens a note, gunzips it and decodes the JSON. -/
def NotePad.ReadNote {σ ν : Type} (os : OS σ) (cd : Codec ν) (np : NotePad) (st : σ)
    (id : GoString) : Except GoError ν :=
  match np.OpenNoteRaw os st id with
  | .error e => .error e
  | .ok r => cd.Gunzip r

/-- `DeleteNote` removes the file of a note. -/
def NotePad.DeleteNote {σ : Type} (os : OS σ) (np : NotePad) (st : σ) (id : GoString) :
    σ × Option GoError :=
  match NoteIDToPath id with
  | .error e => (st, some e)
  | .ok p => os.Remove st (filepathJoin np.StoreDir p)

/-! ### `http.ResponseWriter`, `http.Error`, `HTTPError` -/

/-- The pass of `textproto.CanonicalMIMEHeaderKey` over a key: the first letter and every
letter after a hyphen in upper case, the rest in lower case. -/
def canonicalKeyFrom : Bool → GoString → GoString
  | _, [] => []
  | up, c :: cs => (if up then c.toUpper else c.toLower) :: canonicalKeyFrom (c == '-') cs

/-- `textproto.CanonicalMIMEHeaderKey(k)`. -/
def CanonicalMIMEHeaderKey (k : GoString) : GoString :=
  canonicalKeyFrom true k

/-- An `http.Header` with one value per key, keys in canonical form. -/
abbrev Header := List (GoString × GoString)

/-- `h.Set(key, value)`. -/
def Header.Set (h : Header) (key value : GoString) : Header :=
  (CanonicalMIMEHeaderKey key, value) ::
    h.filter (fun kv => kv.1 != CanonicalMIMEHeaderKey key)

/-- `h.Get(key)`, `none` when the key is absent. -/
def Header.Get (h : Header) (key : GoString) : Option GoString :=
  (h.find? (fun kv => kv.1 == CanonicalMIMEHeaderKey key)).map Prod.snd

/-- The state of an `http.ResponseWriter`, as a recorder of what the handler does with it
(the way `httptest.ResponseRecorder` is one): the header map the handler edits, the status
and headers that went out with the first `WriteHeader` (explicit or implied by the first
`Write`), and the body bytes written. What a server does with the record afterwards
(dropping the body of a HEAD request or of a 1xx, 204 or 304 response) is not part of it. -/
structure ResponseWriter where
  header : Header
  sent : Option (Nat × Header)
  body : GoString
deriving DecidableEq

/-- The writer a handler is given: nothing set, nothing sent. -/
def ResponseWriter.fresh : ResponseWriter :=
  { header := [], sent := none, body := [] }

/-- `w.Header().Set(key, value)`. -/
def ResponseWriter.SetHeader (w : ResponseWriter) (key value : GoString) : ResponseWriter :=
  { w with header := w.header.Set key value }

/-- `w.WriteHeader(code)`: the first call sends the status and the headers as they stand;
later calls are ignored. The code is recorded as given (the callers pass 200, 201, 204,
404 and 500; a server panics on a code outside 100..999). -/
def ResponseWriter.WriteHeader (w : ResponseWriter) (code : Nat) : ResponseWriter :=
  match w.sent with
  | some _ => w
  | none => { w with sent := some (code, w.header) }

/-- `w.Write(b)`: implies `WriteHeader(200)` when nothing was sent yet. -/
def ResponseWriter.Write (w : ResponseWriter) (b : GoString) : ResponseWriter :=
  let w1 := w.WriteHeader 200
  { w1 with body := w1.body ++ b }

/-- The status the client receives once the handler has returned (200 when the handler
never wrote a header). -/
def ResponseWriter.status (w : ResponseWriter) : Nat :=
  match w.sent with
  | some (code, _) => code
  | none => 200

/-- The headers the client receives once the handler has returned. -/
def ResponseWriter.sentHeader (w : ResponseWriter) : Header :=
  match w.sent with
  | some (_, h) => h
  | none => w.header

/-- `io.Copy(w, r)`: the bytes of the stream are written (no `Write` call for an empty
stream), and the stream's read error is returned. -/
def ioCopy (w : ResponseWriter) (r : ReadStream) : ResponseWriter × Option GoError :=
  (if r.data = [] then w else w.Write r.data, r.err)

/-- `http.Error(w, error, code)`. -/
def httpError (w : ResponseWriter) (error : GoString) (code : Nat) : ResponseWriter :=
  (((w.SetHeader "Content-Type".toList "text/plain; charset=utf-8".toList).SetHeader
    "X-Content-Type-Options".toList "nosniff".toList).WriteHeader code).Write (error ++ "\n".toList)

/-- `http.NotFound(w, r)`. -/
def httpNotFound (w : ResponseWriter) : ResponseWriter :=
  httpError w "404 page not found".toList 404

/-- The entropy one request consumes: the clock and `math/rand` value `HTTPError` mixes
into its id, and the buffer `crypto/rand.Read` fills for `NewNoteID`. -/
structure Entropy where
  now : Nat
  rnd : Nat
  noteBytes : List Nat
deriving DecidableEq

/-- The id of `HTTPError`: `fmt.Sprintf("%x", time.Now().Unix()^mathrand.Int63())`, both
operands being non-negative 63-bit values. -/
def errorID (ent : Entropy) : GoString :=
  Nat.toDigits 16 ((ent.now % 2 ^ 63) ^^^ (ent.rnd % 2 ^ 63))

/-- The verb `%q` of `fmt` on a string of printable ASCII: double quotes around it, the
double quote and the backslash escaped by a backslash. -/
def fmtQ (s : GoString) : GoString :=
  '"' :: (s.flatMap (fun c => if c = '"' ∨ c = '\\' then ['\\', c] else [c])) ++ ['"']

/-- One line `HTTPError` writes to the log: the id, the caller's line in `webserver.go`
(from `runtime.Caller(1)`) and the internal error. -/
structure LogEntry where
  id : GoString
  line : Nat
  err : GoError
deriving DecidableEq

/-- `HTTPError` reads and reports an http error - does not expose anything to the outside
world except a unique ID, which can be matched up with the appropriate log statement which
has the details. Returns the writer after the call and the log line. -/
def HTTPError (w : ResponseWriter) (ent : Entropy) (line : Nat) (err : Option GoError)
    (publicMessage : GoString) (code : Nat) : ResponseWriter × LogEntry :=
  let err := match err with
    | none => publicMessage
    | some e => e
  let id := errorID ent
  (httpError (w.SetHeader "x-error-id".toList id)
      ("Error serving request (id=".toList ++ fmtQ id ++ ") ".toList ++ publicMessage) code,
    { id := id, line := line, err := err })

/-! ### Templates: `text/template/parse` trees and the template set -/

/-- A `parse.Node` as `TmplIncludeNode` sees it. A branch node holds two `*ListNode`
pointers, either of which may be nil. `other` is every node shape the walk ignores (text,
action, comment, a nil node, ...); `blank` records whether `parse.IsEmptyTree` counts it as
empty. -/
inductive Node where
  | template (Name : GoString)
  | list (Nodes : List Node)
  | ifNode (list elseList : Option (List Node))
  | range (list elseList : Option (List Node))
  | withNode (list elseList : Option (List Node))
  | other (blank : Bool)

mutual
/-- `parse.IsEmptyTree(n)`: whether the tree is empty of everything but space and comments. -/
def IsEmptyTree : Node → Bool
  | .template _ => false
  | .list nodes => IsEmptyTrees nodes
  | .ifNode _ _ => false
  | .range _ _ => false
  | .withNode _ _ => false
  | .other blank => blank
/-- The loop of `parse.IsEmptyTree` over the nodes of a list node. -/
def IsEmptyTrees : List Node → Bool
  | [] => true
  | n :: ns => IsEmptyTree n && IsEmptyTrees ns
end

/-- What parsing one template source yields: the tree of the template itself and the
trees of the `define` blocks found in the source. -/
structure Parsed where
  body : List Node
  defs : List (GoString × List Node)

/-- The template set behind a `*template.Template` (its name space): the associated
templates in the order they were added, each with the root of its tree (`none` while
`Tree` is nil, as it is between `New` and `Parse`). -/
abbrev Registry := List (GoString × Option (List Node))

/-- The names of the templates `t.Templates()` lists. -/
def Registry.names (reg : Registry) : List GoString :=
  reg.map Prod.fst

/-- The template of a given name: `none` when there is none, `some none` when its tree is
nil. -/
def Registry.lookup (reg : Registry) (name : GoString) : Option (Option (List Node)) :=
  (reg.find? (fun e => e.1 == name)).map Prod.snd

/-- Replace the tree of the template called `name`. -/
def Registry.setTree (reg : Registry) (name : GoString) (t : Option (List Node)) : Registry :=
  reg.map (fun e => if e.1 == name then (e.1, t) else e)

/-- `t.New(name)`: a template of that name with no tree joins the set; one that was there
is emptied. -/
def Registry.New (reg : Registry) (name : GoString) : Registry :=
  if reg.names.contains name then reg.setTree name none else reg ++ [(name, none)]

/-- One parsed tree entering the set (`AddParseTree`, then the copy into the html set):
a new name is added; a template that has a tree keeps it when the new tree is empty and
takes the new one otherwise. -/
def Registry.define (reg : Registry) (name : GoString) (tree : List Node) : Registry :=
  match reg.lookup name with
  | none => reg ++ [(name, some tree)]
  | some none => reg.setTree name (some tree)
  | some (some _) => if IsEmptyTrees tree then reg else reg.setTree name (some tree)

/-- `t2.Parse(text)` on the set, for `t2` named `name`, once the text has parsed: the
tree of `name` and every `define` block enter the set. -/
def Registry.Parse (reg : Registry) (name : GoString) (p : Parsed) : Registry :=
  p.defs.foldl (fun r d => r.define d.1 d.2) (reg.define name p.body)

/-! ### `net/http` collaborators -/

/-- The `os.FileInfo` fields the server reads. -/
structure FileInfo where
  IsDir : Bool
  ModTime : Nat
deriving DecidableEq

/-- An opened `http.File`: what `Stat` returns and what `ioutil.ReadAll` returns. -/
structure File where
  Stat : Except GoError FileInfo
  data : Except GoError GoString

/-- An `http.FileSystem`: its `Open`. -/
abbrev FileSystem := GoString → Except GoError File

/-- The request fields the server reads. -/
structure Request where
  Method : GoString
  Path : GoString
  Body : GoString
deriving DecidableEq

/-- The library behind view rendering and static files, kept as parameters. -/
structure Engine where
  /-- Parsing the text of the template called `name` (`Template.Parse`). -/
  Parse : GoString → GoString → Except GoError Parsed
  /-- The call `t.ExecuteTemplate(w, name, ctx)` with the context's note id: the output
  written and the error that stopped it, if any. -/
  Execute : Registry → GoString → Option GoString → GoString × Option GoError
  /-- The call `mime.TypeByExtension(ext)`. -/
  TypeByExtension : GoString → GoString
  /-- The call `http.ServeContent(w, r, name, modtime, f)`. -/
  ServeContent : Request → GoString → FileInfo → File → ResponseWriter → ResponseWriter

/-- The library code the server runs on. -/
structure Lib (σ ν : Type) where
  os : OS σ
  codec : Codec ν
  engine : Engine

/-- The `WebServer` struct. -/
structure WebServer where
  NotePad : NotePad
  ViewsFS : FileSystem
  IncludesFS : FileSystem
  StaticFS : FileSystem

/-! ### Template inclusion: `TmplIncludeAll` and `TmplIncludeNode` -/

/-- How a walk ended: it ran on to its end, it returned an error, or the model's fuel for
nested `TmplIncludeAll` calls ran out. -/
inductive Flow where
  | next
  | fail (err : GoError)
  | fuel
deriving DecidableEq

/-- The state a walk threads: the template set, and the names passed to `fs.Open` so far,
in order. -/
structure TState where
  reg : Registry
  fetched : List GoString

/-- A walk's end and the state it left. -/
structure Result where
  flow : Flow
  st : TState

mutual
/-- `TmplIncludeNode(fs, t, node)`. `all` is the call `TmplIncludeAll(fs, t)` made after a
template was included. -/
def TmplIncludeNode (E : Engine) (fs : FileSystem) (all : TState → Result) (s : TState) :
    Node → Result
  | .template name =>
    -- if template is already defined, do nothing
    if s.reg.names.contains name then ⟨.next, s⟩
    else
      let s1 : TState := { reg := s.reg.New name, fetched := s.fetched ++ [name] }
      match fs name with
      | .error e => ⟨.fail e, s1⟩
      | .ok f =>
        match f.data with
        | .error e => ⟨.fail e, s1⟩
        | .ok b =>
          match E.Parse name b with
          | .error e => ⟨.fail e, s1⟩
          | .ok p =>
            -- start over again
            all { s1 with reg := s1.reg.Parse name p }
  | .list nodes => TmplIncludeNodes E fs all s nodes
  | .ifNode l e =>
    match TmplIncludeList E fs all s l with
    | ⟨.next, s1⟩ => TmplIncludeList E fs all s1 e
    | r => r
  | .range l e =>
    match TmplIncludeList E fs all s l with
    | ⟨.next, s1⟩ => TmplIncludeList E fs all s1 e
    | r => r
  | .withNode l e =>
    match TmplIncludeList E fs all s l with
    | ⟨.next, s1⟩ => TmplIncludeList E fs all s1 e
    | r => r
  | .other _ => ⟨.next, s⟩
/-- The loop of the `*parse.ListNode` case over `node.Nodes`. -/
def TmplIncludeNodes (E : Engine) (fs : FileSystem) (all : TState → Result) (s : TState) :
    List Node → Result
  | [] => ⟨.next, s⟩
  | n :: ns =>
    match TmplIncludeNode E fs all s n with
    | ⟨.next, s1⟩ => TmplIncludeNodes E fs all s1 ns
    | r => r
/-- `TmplIncludeNode` on a `*parse.ListNode` that may be nil (a branch's `List` or
`ElseList`). -/
def TmplIncludeList (E : Engine) (fs : FileSystem) (all : TState → Result) (s : TState) :
    Option (List Node) → Result
  | none => ⟨.next, s⟩
  | some nodes => TmplIncludeNodes E fs all s nodes
end

/-- The loop of `TmplIncludeAll` over `tlist`, the templates listed when the call began:
each one's tree is read when the loop reaches it, and one with no tree is skipped. -/
def TmplIncludeAll.loop (visit : TState → List Node → Result) : List GoString → TState → Result
  | [], s => ⟨.next, s⟩
  | name :: rest, s =>
    match s.reg.lookup name with
    | some (some root) =>
      match visit s root with
      | ⟨.next, s1⟩ => TmplIncludeAll.loop visit rest s1
      | r => r
    | _ => TmplIncludeAll.loop visit rest s

/-- `TmplIncludeAll(fs, t)`. `order` is the order in which `t.Templates()` lists the set
(a Go map iteration: any order), given as a function of the names in the order they were
added; every call lists a set larger than the one before, so one function can give each
call an order of its own. `fuel` bounds the depth of nested calls. -/
def TmplIncludeAll (E : Engine) (fs : FileSystem) (order : List GoString → List GoString) :
    Nat → TState → Result
  | 0, s => ⟨.fuel, s⟩
  | fuel + 1, s =>
    TmplIncludeAll.loop
      (fun s1 root => TmplIncludeNode E fs (TmplIncludeAll E fs order fuel) s1 (.list root))
      (order s.reg.names) s

/-! ### The server: `handleAPICalls` and `ServeHTTP` -/

/-- A call of a `NotePad` method, as recorded in a request's trace. -/
inductive StoreOp where
  | NoteExists (id : GoString)
  | WriteNote (id : GoString)
  | OpenNoteRaw (id : GoString)
  | DeleteNote (id : GoString)
deriving DecidableEq

/-- What serving one request leaves behind: the response writer, the file-system state,
the lines `HTTPError` logged and the `NotePad` calls made, in order. -/
structure Served (σ : Type) where
  w : ResponseWriter
  store : σ
  log : List LogEntry
  ops : List StoreOp

/-- The response body of the create and update routes. -/
def idJSON (id : GoString) : GoString :=
  "\x7b\"id\":\"".toList ++ id ++ "\"\x7d".toList

/-- The `get` case of `handleAPICalls` (lines 140-159). -/
def handleAPICalls.get {σ ν : Type} (L : Lib σ ν) (ws : WebServer) (ent : Entropy)
    (w : ResponseWriter) (st : σ) (id : GoString) : Served σ :=
  match ws.NotePad.OpenNoteRaw L.os st id with
  | .error e =>
    let (w1, l) := HTTPError w ent 146 (some e) "error getting note".toList 404
    ⟨w1, st, [l], [.OpenNoteRaw id]⟩
  | .ok nr =>
    let w1 := (w.SetHeader "content-type".toList "application/json".toList).SetHeader
      "content-encoding".toList "gzip".toList
    match ioCopy w1 nr with
    | (w2, some e) =>
      let (w3, l) := HTTPError w2 ent 157 (some e) "internal error".toList 500
      ⟨w3, st, [l], [.OpenNoteRaw id]⟩
    | (w2, none) => ⟨w2, st, [], [.OpenNoteRaw id]⟩

/-- The `create` case of `handleAPICalls` (lines 161-183). -/
def handleAPICalls.create {σ ν : Type} (L : Lib σ ν) (ws : WebServer) (ent : Entropy)
    (r : Request) (w : ResponseWriter) (st : σ) : Served σ :=
  match L.codec.Decode r.Body with
  | .error e =>
    let (w1, l) := HTTPError w ent 169 (some e) "error decoding".toList 500
    ⟨w1, st, [l], []⟩
  | .ok note =>
    let id := NewNoteID ent.noteBytes
    match ws.NotePad.WriteNote L.os L.codec st id note with
    | (st1, some e) =>
      let (w1, l) := HTTPError w ent 176 (some e) "error writing".toList 500
      ⟨w1, st1, [l], [.WriteNote id]⟩
    | (st1, none) =>
      let w1 := (w.SetHeader "location".toList ("/api/note/".toList ++ id)).SetHeader
        "content-type".toList "application/json".toList
      ⟨(w1.WriteHeader 201).Write (idJSON id), st1, [], [.WriteNote id]⟩

/-- The `update` case of `handleAPICalls` (lines 185-207). -/
def handleAPICalls.update {σ ν : Type} (L : Lib σ ν) (ws : WebServer) (ent : Entropy)
    (r : Request) (w : ResponseWriter) (st : σ) (id : GoString) : Served σ :=
  match L.codec.Decode r.Body with
  | .error e =>
    let (w1, l) := HTTPError w ent 195 (some e) "error decoding".toList 500
    ⟨w1, st, [l], []⟩
  | .ok note =>
    match ws.NotePad.WriteNote L.os L.codec st id note with
    | (st1, some e) =>
      let (w1, l) := HTTPError w ent 201 (some e) "error writing".toList 500
      ⟨w1, st1, [l], [.WriteNote id]⟩
    | (st1, none) =>
      let w1 := w.SetHeader "content-type".toList "application/json".toList
      ⟨(w1.WriteHeader 200).Write (idJSON id), st1, [], [.WriteNote id]⟩

/-- The `delete` case of `handleAPICalls` (lines 209-224). -/
def handleAPICalls.delete {σ ν : Type} (L : Lib σ ν) (ws : WebServer) (ent : Entropy)
    (w : ResponseWriter) (st : σ) (id : GoString) : Served σ :=
  if !ws.NotePad.NoteExists L.os st id then
    ⟨httpNotFound w, st, [], [.NoteExists id]⟩
  else
    match ws.NotePad.DeleteNote L.os st id with
    | (st1, some e) =>
      let (w1, l) := HTTPError w ent 220 (some e) "internal error".toList 500
      ⟨w1, st1, [l], [.NoteExists id, .DeleteNote id]⟩
    | (st1, none) => ⟨w.WriteHeader 204, st1, [], [.NoteExists id, .DeleteNote id]⟩

/-- The path parts `handleAPICalls` switches on:
`strings.Split(strings.Trim(path.Clean("/" + r.URL.Path), "/"), "/")`. -/
def pathParts (r : Request) : List GoString :=
  stringsSplit '/' (stringsTrim (pathClean ('/' :: r.Path)) "/".toList)

/-- `handleAPICalls(w, r)`: the switch over the path parts and the method. -/
def handleAPICalls {σ ν : Type} (L : Lib σ ν) (ws : WebServer) (ent : Entropy)
    (r : Request) (w : ResponseWriter) (st : σ) : Served σ :=
  let pparts := pathParts r
  if pparts.length == 3 && pparts.getD 0 [] == "api".toList && pparts.getD 1 [] == "note".toList
      && r.Method == "GET".toList then
    handleAPICalls.get L ws ent w st (pparts.getD 2 [])
  else if pparts.length == 2 && pparts.getD 0 [] == "api".toList
      && pparts.getD 1 [] == "note".toList && r.Method == "POST".toList then
    handleAPICalls.create L ws ent r w st
  else if pparts.length == 3 && pparts.getD 0 [] == "api".toList
      && pparts.getD 1 [] == "note".toList
      && (r.Method == "POST".toList || r.Method == "PUT".toList) then
    handleAPICalls.update L ws ent r w st (pparts.getD 2 [])
  else if pparts.length == 3 && pparts.getD 0 [] == "api".toList
      && pparts.getD 1 [] == "note".toList && r.Method == "DELETE".toList then
    handleAPICalls.delete L ws ent w st (pparts.getD 2 [])
  else
    ⟨httpNotFound w, st, [], []⟩

/-- `GuessMIMEType` is a thin wrapper around `mime.TypeByExtension()`, but with some common
sense defaults. -/
def GuessMIMEType (E : Engine) (p : GoString) : GoString :=
  let pext := pathExt p
  if pext = ".css".toList then "text/css".toList
  else if pext = ".js".toList then "application/javascript".toList
  else if pext = ".html".toList then "text/html".toList
  else E.TypeByExtension pext

/-- The shortlink probe of `ServeHTTP` (lines 31-49): the effective path, the note id put
in the context, and the store calls made. -/
def ServeHTTP.probe {σ ν : Type} (L : Lib σ ν) (ws : WebServer) (r : Request) (st : σ) :
    GoString × Option GoString × List StoreOp :=
  let p := pathClean ('/' :: r.Path)
  -- if this looks like either a note id or short id
  if p.length ≥ 5 && !stringsContains p ".".toList && !stringsContains (p.drop 1) "/".toList then
    let id := p.drop 1
    if ws.NotePad.NoteExists L.os st id then
      ("/note.html".toList, some id, [.NoteExists id])
    else (p, none, [.NoteExists id])
  else (p, none, [])

/-- How the view step of `ServeHTTP` ended: it answered the request, it fell through to
the static step, or the fuel of template inclusion ran out. -/
inductive ViewStep where
  | answered (w : ResponseWriter) (log : List LogEntry)
  | fallthrough
  | fuel

/-- The view step of `ServeHTTP` (lines 62-103). -/
def ServeHTTP.view (E : Engine) (ws : WebServer) (order : List GoString → List GoString)
    (fuel : Nat) (ent : Entropy) (w : ResponseWriter) (p : GoString) (ctx : Option GoString) :
    ViewStep :=
  match ws.ViewsFS p with
  | .error _ => .fallthrough
  | .ok f =>
    match f.Stat with
    | .error e =>
      let (w1, l) := HTTPError w ent 69 (some e) "internal error".toList 500
      .answered w1 [l]
    | .ok info =>
      -- ignore dirs
      if info.IsDir then .fallthrough
      else
        match f.data with
        | .error e =>
          let (w1, l) := HTTPError w ent 77 (some e) "internal error".toList 500
          .answered w1 [l]
        | .ok b =>
          match E.Parse "__page__".toList b with
          | .error e =>
            let (w1, l) := HTTPError w ent 83 (some e) "internal error".toList 500
            .answered w1 [l]
          | .ok parsed =>
            let t : TState :=
              { reg := (Registry.New [] "__page__".toList).Parse "__page__".toList parsed,
                fetched := [] }
            match TmplIncludeAll E ws.IncludesFS order fuel t with
            | ⟨.fuel, _⟩ => .fuel
            | ⟨.fail e, _⟩ =>
              let (w1, l) := HTTPError w ent 89 (some e) "internal error".toList 500
              .answered w1 [l]
            | ⟨.next, t1⟩ =>
              let w1 := w.SetHeader "content-type".toList "text/html; charset=UTF-8".toList
              match E.Execute t1.reg "__page__".toList ctx with
              | (out, some e) =>
                let (w2, l) :=
                  HTTPError (if out = [] then w1 else w1.Write out) ent 97 (some e)
                    "internal error".toList 500
                .answered w2 [l]
              | (out, none) => .answered (if out = [] then w1 else w1.Write out) []

/-- The static step of `ServeHTTP` and the final 404 (lines 105-129). -/
def ServeHTTP.static (E : Engine) (ws : WebServer) (ent : Entropy) (r : Request)
    (w : ResponseWriter) (p : GoString) : ResponseWriter × List LogEntry :=
  match ws.StaticFS p with
  | .error _ => (httpNotFound w, [])
  | .ok f =>
    match f.Stat with
    | .error e =>
      let (w1, l) := HTTPError w ent 111 (some e) "internal error".toList 500
      (w1, [l])
    | .ok info =>
      -- ignore dirs
      if info.IsDir then (httpNotFound w, [])
      else
        -- give it the old college try on the mime type detection
        let ct := GuessMIMEType E p
        let w1 := if ct != [] then w.SetHeader "content-type".toList ct else w
        (E.ServeContent r p info f w1, [])

/-- `ServeHTTP(w, r)`. `none` when the fuel of template inclusion ran out. -/
def ServeHTTP {σ ν : Type} (L : Lib σ ν) (ws : WebServer) (order : List GoString → List GoString)
    (fuel : Nat) (ent : Entropy) (r : Request) (w : ResponseWriter) (st : σ) :
    Option (Served σ) :=
  match ServeHTTP.probe L ws r st with
  | (p, ctx, ops) =>
    -- api calls go in handleAPICalls
    if stringsHasPrefix p "/api/".toList then
      let s := handleAPICalls L ws ent r w st
      some { s with ops := ops ++ s.ops }
    else
      -- path hack(s)
      let p := if p = "/".toList then "/index.html".toList else p
      -- check for view template
      match ServeHTTP.view L.engine ws order fuel ent w p ctx with
      | .fuel => none
      | .answered w1 log => some ⟨w1, st, log, ops⟩
      | .fallthrough =>
        -- check for static file, otherwise 404
        let (w1, log) := ServeHTTP.static L.engine ws ent r w p
        some ⟨w1, st, log, ops⟩

/-! ### Auxiliary notions for reasoning about template inclusion -/

mutual
/-- The names of the template references in a node, in the order the walk of
`TmplIncludeNode` meets them. -/
def Node.refs : Node → List GoString
  | .template name => [name]
  | .list nodes => refsOfNodes nodes
  | .ifNode l e => refsOfList l ++ refsOfList e
  | .range l e => refsOfList l ++ refsOfList e
  | .withNode l e => refsOfList l ++ refsOfList e
  | .other _ => []
/-- The references in a sequence of nodes, in order. -/
def refsOfNodes : List Node → List GoString
  | [] => []
  | n :: ns => n.refs ++ refsOfNodes ns
/-- The references in a list node that may be nil. -/
def refsOfList : Option (List Node) → List GoString
  | none => []
  | some nodes => refsOfNodes nodes
end

mutual
/-- A node mentions a name: it is a named-template-reference to it, or it is a sequence,
a conditional, an iteration or a scoped rebind with a mention in a member or in either
branch. No other node shape mentions anything. -/
inductive Node.Mentions : Node → GoString → Prop
  | template (name : GoString) : Node.Mentions (.template name) name
  | list {nodes : List Node} {name : GoString} :
      NodesMention nodes name → Node.Mentions (.list nodes) name
  | ifList {l : List Node} {e : Option (List Node)} {name : GoString} :
      NodesMention l name → Node.Mentions (.ifNode (some l) e) name
  | ifElse {l : Option (List Node)} {e : List Node} {name : GoString} :
      NodesMention e name → Node.Mentions (.ifNode l (some e)) name
  | rangeList {l : List Node} {e : Option (List Node)} {name : GoString} :
      NodesMention l name → Node.Mentions (.range (some l) e) name
  | rangeElse {l : Option (List Node)} {e : List Node} {name : GoString} :
      NodesMention e name → Node.Mentions (.range l (some e)) name
  | withList {l : List Node} {e : Option (List Node)} {name : GoString} :
      NodesMention l name → Node.Mentions (.withNode (some l) e) name
  | withElse {l : Option (List Node)} {e : List Node} {name : GoString} :
      NodesMention e name → Node.Mentions (.withNode l (some e)) name
/-- A sequence of nodes mentions a name when one of its members does. -/
inductive NodesMention : List Node → GoString → Prop
  | head {n : Node} {ns : List Node} {name : GoString} :
      Node.Mentions n name → NodesMention (n :: ns) name
  | tail {n : Node} {ns : List Node} {name : GoString} :
      NodesMention ns name → NodesMention (n :: ns) name
end

/-- The template case of `TmplIncludeNode`, on a name. -/
def includeName (E : Engine) (fs : FileSystem) (all : TState → Result) (s : TState)
    (name : GoString) : Result :=
  TmplIncludeNode E fs all s (.template name)

/-- The walk of `TmplIncludeNode` as a pass over the references it meets, in order. -/
def walkRefs (E : Engine) (fs : FileSystem) (all : TState → Result) :
    TState → List GoString → Result
  | s, [] => ⟨.next, s⟩
  | s, name :: rest =>
    match includeName E fs all s name with
    | ⟨.next, s1⟩ => walkRefs E fs all s1 rest
    | r => r

/-- The tree an include's source parses to, when the source can be opened, read and
parsed. -/
def fetchBody (E : Engine) (fs : FileSystem) (name : GoString) : Option (List Node) :=
  match fs name with
  | .error _ => none
  | .ok f =>
    match f.data with
    | .error _ => none
    | .ok b =>
      match E.Parse name b with
      | .error _ => none
      | .ok p => some p.body

/-- Fetching an include fails with error `e`: at `Open`, at `ReadAll` or at `Parse`. -/
def FetchError (E : Engine) (fs : FileSystem) (name : GoString) (e : GoError) : Prop :=
  fs name = .error e ∨ (∃ f, fs name = .ok f ∧ f.data = .error e) ∨
    (∃ f b, fs name = .ok f ∧ f.data = .ok b ∧ E.Parse name b = .error e)

/-- The tree a name stands for in a run that starts from the set `reg`: the tree the set
holds for a name registered at the start, the tree the include's source parses to for
any other name. -/
def treeOf (E : Engine) (fs : FileSystem) (reg : Registry) (name : GoString) :
    Option (List Node) :=
  match reg.lookup name with
  | some t => t
  | none => fetchBody E fs name

/-- The names initially registered, and every name reachable from them through mentions
in the trees they stand for. -/
inductive Reach (E : Engine) (fs : FileSystem) (reg : Registry) : GoString → Prop
  | init {name : GoString} : name ∈ reg.names → Reach E fs reg name
  | step {m name : GoString} {root : List Node} :
      Reach E fs reg m → treeOf E fs reg m = some root → NodesMention root name →
      Reach E fs reg name

/-- The fetch log is in order: no name occurs twice, and every fetched name is
registered. -/
def TState.LogOk (s : TState) : Prop :=
  s.fetched.Nodup ∧ ∀ n ∈ s.fetched, n ∈ s.reg.names

/-- How many of the offered names are not registered yet. -/
def pending (offered : List GoString) (s : TState) : Nat :=
  (offered.filter (fun n => !s.reg.names.contains n)).length

/-- A state of a run that started from the set `reg`, seen between inclusions: the
names of `reg` are still registered, every registered name is reachable, every
registered name holds the tree it stands for, and every name added since the start has a
source that parses. -/
def Tracks (E : Engine) (fs : FileSystem) (reg : Registry) (s : TState) : Prop :=
  (∀ n ∈ reg.names, n ∈ s.reg.names) ∧
  (∀ n ∈ s.reg.names, Reach E fs reg n) ∧
  (∀ n ∈ s.reg.names, s.reg.lookup n = some (treeOf E fs reg n)) ∧
  (∀ n ∈ s.reg.names, n ∉ reg.names → (fetchBody E fs n).isSome = true)

/-- Every reference in the tree the name `n` stands for is registered in `s`. -/
def ClosedAt (E : Engine) (fs : FileSystem) (reg : Registry) (s : TState) (n : GoString) :
    Prop :=
  ∀ root, treeOf E fs reg n = some root → ∀ m ∈ refsOfNodes root, m ∈ s.reg.names

/-- What a piece of a run does to a tracked state: names are kept; when it runs on, the
state is tracked again and every name it added is closed; when it fails, the error is the
fetch error of a reachable name that was not registered at the start. -/
def Follows (E : Engine) (fs : FileSystem) (reg : Registry) (s : TState) (r : Result) :
    Prop :=
  (∀ n ∈ s.reg.names, n ∈ r.st.reg.names) ∧
  (Tracks E fs reg s →
    (r.flow = .next → Tracks E fs reg r.st ∧
      ∀ n ∈ r.st.reg.names, n ∉ s.reg.names → ClosedAt E fs reg r.st n) ∧
    (∀ e, r.flow = .fail e →
      ∃ n, Reach E fs reg n ∧ n ∉ reg.names ∧ FetchError E fs n e))

/-- No include source carries `define` blocks: parsing one yields its own tree only. -/
def NoNestedDefinitions (E : Engine) (fs : FileSystem) : Prop :=
  ∀ name f b p, fs name = .ok f → f.data = .ok b → E.Parse name b = .ok p → p.defs = []

/-- The includes collaborator offers finitely many names: only names of `offered` open. -/
def OffersOnly (fs : FileSystem) (offered : List GoString) : Prop :=
  ∀ name f, fs name = .ok f → name ∈ offered

/-- A path matches no file of a file system: `Open` fails, or what it opens is a
directory. -/
def FileSystem.Misses (fs : FileSystem) (p : GoString) : Prop :=
  (∃ e, fs p = .error e) ∨ (∃ f info, fs p = .ok f ∧ f.Stat = .ok info ∧ info.IsDir = true)

/-- What a file system holds at a path: a directory, or a regular file with its bytes. -/
inductive DirEntry where
  | dir
  | file (data : GoString)
deriving DecidableEq

/-- Store I/O does not fail, on a file system with directories. `look st p` is what the
state `st` holds at the path `p`. The calls agree with it, and a call the state permits
succeeds: `Stat` finds what is there; `Open` reads a regular file whole and fails where
nothing is; `MkdirAll` on a directory that is there changes nothing; `OpenFile` creates or
truncates a file when the directory it lies in is there and the path is not itself a
directory; what is written to a regular file is written in full; a regular file can be
removed, and is gone afterwards. No call on a file removes a directory. Nothing is asked of
`OpenFile` where the directory is missing, of `Write` or `Remove` on a path that holds no
regular file, nor of `MkdirAll` where the directory is not there yet (its error is ignored
by the code, so whether it did its work shows only in what `look` finds afterwards). -/
structure OS.Reliable {σ : Type} (os : OS σ) (look : σ → GoString → Option DirEntry) :
    Prop where
  stat_some : ∀ st p e, look st p = some e → os.Stat st p = .ok ()
  stat_none : ∀ st p, look st p = none → ∃ e, os.Stat st p = .error e
  open_file : ∀ st p d, look st p = some (.file d) → os.Open st p = .ok ⟨d, none⟩
  open_none : ∀ st p, look st p = none → ∃ e, os.Open st p = .error e
  mkdirAll : ∀ st d q, look st d = some .dir → look (os.MkdirAll st d) q = look st q
  openFile : ∀ st p, look st (filepathDir p) = some .dir → look st p ≠ some .dir →
    ∃ st1, os.OpenFile st p = .ok st1 ∧ look st1 p = some (.file []) ∧
      ∀ q, look st q = some .dir → look st1 q = some .dir
  write : ∀ st p x d, look st p = some (.file x) →
    (os.Write st p d).2 = none ∧ look (os.Write st p d).1 p = some (.file d) ∧
      ∀ q, look st q = some .dir → look (os.Write st p d).1 q = some .dir
  remove : ∀ st p d, look st p = some (.file d) →
    (os.Remove st p).2 = none ∧ look (os.Remove st p).1 p = none

/-! ### Concrete collaborators, used to run the model on examples -/

/-- An in-memory file system: the files by path, newest first. -/
abbrev MemFS := List (GoString × GoString)

/-- An operating system over `MemFS` on which every call that can succeed does. -/
def memOS : OS MemFS where
  Stat st p := if (st.lookup p).isSome then .ok () else .error "no such file or directory".toList
  Open st p :=
    match st.lookup p with
    | some d => .ok ⟨d, none⟩
    | none => .error "no such file or directory".toList
  MkdirAll st _ := st
  OpenFile st p := .ok ((p, []) :: st.filter (fun e => e.1 != p))
  Write st p d := ((p, d) :: st.filter (fun e => e.1 != p), none)
  Remove st p :=
    if (st.lookup p).isSome then (st.filter (fun e => e.1 != p), none)
    else (st, some "no such file or directory".toList)

/-- The same files on a read-only mount: reading works, every change is refused. -/
def readOnlyOS : OS MemFS where
  Stat := memOS.Stat
  Open := memOS.Open
  MkdirAll st _ := st
  OpenFile _ _ := .error "read-only file system".toList
  Write st _ _ := (st, some "read-only file system".toList)
  Remove st _ := (st, some "read-only file system".toList)

/-- The same files on a disk whose reads break off: `Open` succeeds, and reading the file
stops after its first three bytes with an error. -/
def brokenReadOS : OS MemFS :=
  { memOS with
    Open := fun st p =>
      match st.lookup p with
      | some d => .ok ⟨d.take 3, some "input/output error".toList⟩
      | none => .error "no such file or directory".toList }

/-- A disk with directories: the entries by path, newest first. -/
abbrev Disk := List (GoString × DirEntry)

/-- What a disk holds at a path. The root and the working directory are always there. -/
def Disk.look (st : Disk) (p : GoString) : Option DirEntry :=
  if p = "/".toList ∨ p = ".".toList then some .dir else st.lookup p

/-- The work of `os.MkdirAll` on a disk: nothing to do where a directory is, nothing done
where a file is in the way; otherwise the parent is made first and then the directory
itself, if the parent is there. `fuel` bounds the number of parents. -/
def Disk.mkdirAll : Nat → Disk → GoString → Disk
  | 0, st, _ => st
  | fuel + 1, st, d =>
    match st.look d with
    | some _ => st
    | none =>
      let st1 := Disk.mkdirAll fuel st (filepathDir d)
      if st1.look (filepathDir d) = some .dir then (d, .dir) :: st1 else st1

/-- Whether a disk holds an entry directly under the directory `p`. -/
def Disk.hasChild (st : Disk) (p : GoString) : Bool :=
  st.any (fun e => e.1 != p && filepathDir e.1 == p && (st.look e.1).isSome)

/-- An operating system over `Disk`, on which a call fails only where the state of the disk
makes it fail: opening a file for writing needs the directory it lies in, a directory cannot
be opened for writing, and a directory that is not empty cannot be removed. -/
def diskOS : OS Disk where
  Stat st p :=
    if (st.look p).isSome then .ok () else .error "no such file or directory".toList
  Open st p :=
    match st.look p with
    | some (.file d) => .ok ⟨d, none⟩
    | some .dir => .ok ⟨[], some "is a directory".toList⟩
    | none => .error "no such file or directory".toList
  MkdirAll st d := st.mkdirAll (d.length + 1) d
  OpenFile st p :=
    if st.look (filepathDir p) = some .dir then
      match st.look p with
      | some .dir => .error "is a directory".toList
      | _ => .ok ((p, .file []) :: st)
    else .error "no such file or directory".toList
  Write st p d :=
    match st.look p with
    | some (.file _) => ((p, .file d) :: st, none)
    | _ => (st, some "bad file descriptor".toList)
  Remove st p :=
    match st.look p with
    | some (.file _) => (st.filter (fun e => e.1 != p), none)
    | some .dir =>
      if p = "/".toList ∨ p = ".".toList ∨ st.hasChild p then
        (st, some "directory not empty".toList)
      else (st.filter (fun e => e.1 != p), none)
    | none => (st, some "no such file or directory".toList)

/-- A toy codec: a note is its JSON text, gzip puts a tag in front. -/
def demoCodec : Codec GoString where
  Decode b := if b = [] then .error "EOF".toList else .ok b
  Marshal n := .ok (n ++ "\n".toList)
  Gzip d := "gz:".toList ++ d
  Gunzip r :=
    match r.err with
    | some e => .error e
    | none => .ok (r.data.drop 3)

/-- A directory served as an `http.FileSystem`: regular files by name. -/
def dirFS (files : List (GoString × GoString)) : FileSystem := fun name =>
  match files.lookup name with
  | some d => .ok ⟨.ok ⟨false, 0⟩, .ok d⟩
  | none => .error "file does not exist".toList

/-- The nodes of a piece of toy template text: an upper-case letter `X` is
`{{template "x"}}`, any other character is text. -/
def demoNodes (text : GoString) : List Node :=
  text.map (fun c => if c.isUpper then Node.template [c.toLower] else Node.other (c == ' '))

/-- A toy template syntax: the text up to the first `#` is the body; every later piece
between `#`s is a `define` block, named by its first character, with the rest as its
body. -/
def demoParse (text : GoString) : Parsed :=
  match stringsSplit '#' text with
  | [] => { body := [], defs := [] }
  | b :: ds =>
    { body := demoNodes b,
      defs := ds.filterMap (fun d =>
        match d with
        | [] => none
        | n :: body => some ([n], demoNodes body)) }

/-- A toy engine over `demoParse`; execution prints the names of the set. -/
def demoEngine : Engine where
  Parse _ text := .ok (demoParse text)
  Execute reg _ _ := (stringsJoin ",".toList reg.names, none)
  TypeByExtension _ := []
  ServeContent _ _ _ f w :=
    match f.data with
    | .ok d => w.Write d
    | .error _ => w

/-- The toy library on the in-memory file system. -/
def demoLib : Lib MemFS GoString :=
  { os := memOS, codec := demoCodec, engine := demoEngine }

/-- The toy library on the disk whose reads break off. -/
def brokenReadLib : Lib MemFS GoString :=
  { os := brokenReadOS, codec := demoCodec, engine := demoEngine }

/-- The toy library on the disk with directories. -/
def diskLib : Lib Disk GoString :=
  { os := diskOS, codec := demoCodec, engine := demoEngine }

/-- The toy library on the read-only file system. -/
def readOnlyLib : Lib MemFS GoString :=
  { os := readOnlyOS, codec := demoCodec, engine := demoEngine }

/-- A server with one view, no includes and no static files. -/
def demoServer : WebServer :=
  { NotePad := { StoreDir := "/var/data".toList },
    ViewsFS := dirFS [("/note.html".toList, "note".toList)],
    IncludesFS := dirFS [],
    StaticFS := dirFS [] }

/-- Includes that refer to themselves and to each other: `a` includes `a` and `b`, and
`b` includes `a`. -/
def cyclicIncludes : FileSystem :=
  dirFS [("a".toList, "xAyB".toList), ("b".toList, "A B".toList)]

/-- The set of a page that includes `a`. -/
def cyclicPage : Registry :=
  (Registry.New [] "__page__".toList).Parse "__page__".toList (demoParse "hello A".toList)

/-- Includes where the source of `a` defines the template `m` (with the body `ok`); there
is no file `m`. -/
def definingIncludes : FileSystem :=
  dirFS [("a".toList, "text#mok".toList)]

/-- The set of a page with two `define` blocks: `x` includes `a`, and `y` includes `m`. -/
def twoBlockPage : Registry :=
  (Registry.New [] "__page__".toList).Parse "__page__".toList (demoParse "#xA#yM".toList)

/-- A server whose index page includes `a` and then `m`, over `definingIncludes`. -/
def definingServer : WebServer :=
  { NotePad := { StoreDir := "/var/data".toList },
    ViewsFS := dirFS [("/index.html".toList, "AM".toList)],
    IncludesFS := definingIncludes,
    StaticFS := dirFS [] }

/-- A server whose index page includes `a`, with no includes at all. -/
def brokenServer : WebServer :=
  { NotePad := { StoreDir := "/var/data".toList },
    ViewsFS := dirFS [("/index.html".toList, "hello A".toList)],
    IncludesFS := dirFS [],
    StaticFS := dirFS [] }

/-- The set of the index page of `brokenServer`. -/
def brokenPage : Registry :=
  (Registry.New [] "__page__".toList).Parse "__page__".toList (demoParse "hello A".toList)

/-- A toy engine in which the text of a template is the name of the one template it
includes. -/
def chainEngine : Engine :=
  { demoEngine with Parse := fun _ text => .ok { body := [Node.template text], defs := [] } }

/-- An includes collaborator that offers infinitely many names: there is no file `m`, and
the file of any other name `n` holds `n` with an `x` appended, so that `x` includes `xx`,
which includes `xxx`, and so on. -/
def endlessIncludes : FileSystem := fun name =>
  if name = "m".toList then .error "file does not exist".toList
  else .ok ⟨.ok ⟨false, 0⟩, .ok (name ++ ['x'])⟩

/-- The set of a page that includes `x` and then `m`. -/
def endlessPage : Registry :=
  [("__page__".toList, some [Node.template "x".toList, Node.template "m".toList])]

/-- A store holding the note `abcd`. -/
def demoStore : MemFS :=
  [("/var/data/a/b/abcd".toList, "gz:\x7b\x7d".toList)]

/-- A request's entropy, fixed. -/
def demoEntropy : Entropy :=
  { now := 1700000000, rnd := 12345, noteBytes := List.range 32 }

/-- The id `NewNoteID` mints from the random bytes of `demoEntropy`. -/
def demoID : GoString :=
  "AAECAwQFBgcICQoLDA0ODxAREhMUFRYXGBkaGxwdHh8".toList

/-- A disk that already holds a note under `demoID`, in the directories of the store. -/
def heldDisk : Disk :=
  [("/var/data/A/A/AAECAwQFBgcICQoLDA0ODxAREhMUFRYXGBkaGxwdHh8".toList,
      .file "gz:earlier note\n".toList),
    ("/var/data/A/A".toList, .dir), ("/var/data/A".toList, .dir),
    ("/var/data".toList, .dir), ("/var".toList, .dir)]

/-! ## Theorems -/

/-! ### Strings and identifiers -/

theorem stringsContains_singleton (s : GoString) (c : Char) :
    stringsContains s [c] = true ↔ c ∈ s := by
  induction s with
  | nil => simp [stringsContains, List.isPrefixOf]
  | cons a t ih =>
    have h : stringsContains (a :: t) [c] = ((c == a) || stringsContains t [c]) := by
      simp [stringsContains, List.isPrefixOf]
    rw [h, Bool.or_eq_true, ih, List.mem_cons, beq_iff_eq]

theorem stringsSplit_no_sep (sep : Char) (s : GoString) (h : sep ∉ s) :
    stringsSplit sep s = [s] := by
  induction s with
  | nil => rfl
  | cons a t ih =>
    have ha : ¬ a = sep := fun e => h (e ▸ List.mem_cons_self _ _)
    have ht : sep ∉ t := fun e => h (List.mem_cons_of_mem _ e)
    simp [stringsSplit, ha, ih ht]

theorem isNoteIDByte_encodeURLAt (v : Nat) : isNoteIDByte (encodeURLAt v) = true := by
  have h : ∀ i : Fin 64, isNoteIDByte (encodeURL.getD i.val 'A') = true := by decide
  exact h ⟨v % 64, Nat.mod_lt _ (by decide)⟩

theorem rawURLEncodeToString_length (b : List Nat) :
    (rawURLEncodeToString b).length = (4 * b.length + 2) / 3 := by
  induction b using rawURLEncodeToString.induct with
  | case1 => rfl
  | case2 a => simp [rawURLEncodeToString]
  | case3 a b => simp [rawURLEncodeToString]
  | case4 a b c rest ih =>
    simp only [rawURLEncodeToString, List.length_cons, ih]
    omega

theorem rawURLEncodeToString_all (b : List Nat) :
    ∀ c ∈ rawURLEncodeToString b, isNoteIDByte c = true := by
  induction b using rawURLEncodeToString.induct with
  | case1 => simp [rawURLEncodeToString]
  | case2 a => simp [rawURLEncodeToString, isNoteIDByte_encodeURLAt]
  | case3 a b => simp [rawURLEncodeToString, isNoteIDByte_encodeURLAt]
  | case4 a b c rest ih =>
    intro x hx
    simp only [rawURLEncodeToString, List.mem_cons] at hx
    rcases hx with h | h | h | h | h
    · rw [h]; exact isNoteIDByte_encodeURLAt _
    · rw [h]; exact isNoteIDByte_encodeURLAt _
    · rw [h]; exact isNoteIDByte_encodeURLAt _
    · rw [h]; exact isNoteIDByte_encodeURLAt _
    · exact ih x h

theorem NOTE_ID_PATTERN_iff (id : GoString) :
    NOTE_ID_PATTERN id = true ↔ id ≠ [] ∧ ∀ c ∈ id, isNoteIDByte c = true := by
  cases id <;> simp [NOTE_ID_PATTERN]

theorem CheckValidNoteID_ok_iff (id : GoString) :
    CheckValidNoteID id = .ok () ↔ NOTE_ID_PATTERN id = true ∧ 4 ≤ id.length := by
  unfold CheckValidNoteID
  cases h : NOTE_ID_PATTERN id
  · simp
  · by_cases h4 : id.length < 4
    · simp [h4]
    · simp [h4]; omega

theorem CheckValidNoteID_error (id : GoString)
    (h : NOTE_ID_PATTERN id = false ∨ id.length < 4) : ∃ e, CheckValidNoteID id = .error e := by
  unfold CheckValidNoteID
  cases hp : NOTE_ID_PATTERN id
  · exact ⟨"invalid characters in note id".toList, by simp⟩
  · rcases h with h | h
    · simp [hp] at h
    · exact ⟨"note id is too short".toList, by simp [h]⟩

theorem NoteIDToPath_error (id : GoString)
    (h : NOTE_ID_PATTERN id = false ∨ id.length < 4) : ∃ e, NoteIDToPath id = .error e := by
  obtain ⟨e, he⟩ := CheckValidNoteID_error id h
  exact ⟨e, by simp [NoteIDToPath, he]⟩

theorem NoteIDToPath_ok (id : GoString) (h : CheckValidNoteID id = .ok ()) :
    NoteIDToPath id = .ok (id.take 1 ++ "/".toList ++ (id.drop 1).take 1 ++ "/".toList ++ id) := by
  simp [NoteIDToPath, h]

theorem isNoteIDByte_not_slash : isNoteIDByte '/' = false := by decide

theorem isNoteIDByte_not_dot : isNoteIDByte '.' = false := by decide

theorem NewNoteID_ok (b : List Nat) (hb : b.length = 32) :
    CheckValidNoteID (NewNoteID b) = .ok () := by
  have hl : (NewNoteID b).length = 43 := by
    simp [NewNoteID, rawURLEncodeToString_length, hb]
  rw [CheckValidNoteID_ok_iff, NOTE_ID_PATTERN_iff]
  refine ⟨⟨?_, rawURLEncodeToString_all b⟩, by omega⟩
  intro h
  rw [h] at hl
  simp at hl

/-! ### The response writer -/

theorem canonical_location : CanonicalMIMEHeaderKey "location".toList = "Location".toList := by
  decide

theorem canonical_content_type :
    CanonicalMIMEHeaderKey "content-type".toList = "Content-Type".toList := by
  decide

theorem canonical_x_error_id :
    CanonicalMIMEHeaderKey "x-error-id".toList = "X-Error-Id".toList := by
  decide

theorem stringsSplit_location (id : GoString) (h : '/' ∉ id) :
    stringsSplit '/' ("/api/note/".toList ++ id) = [[], "api".toList, "note".toList, id] := by
  simp [stringsSplit, stringsSplit_no_sep '/' id h]

theorem not_mem_of_isNoteIDByte (id : GoString) (c : Char) (hc : isNoteIDByte c = false)
    (h : ∀ x ∈ id, isNoteIDByte x = true) : c ∉ id := by
  intro hm
  rw [h c hm] at hc
  exact Bool.noConfusion hc

/-- C10: every identifier minted for `POST /api/note` matches the identifier pattern. For
every 32-byte buffer, `NewNoteID` returns 43 characters of `[A-Za-z0-9_-]`, which
`CheckValidNoteID` accepts; and when the create route succeeds, its `location` header is
`/api/note/` followed by that identifier, which is the last `/`-separated piece of the
header, matches the pattern and has at least 4 characters. -/
theorem NewNoteID_matches_pattern (b : List Nat) (hb : b.length = 32) :
    (NewNoteID b).length = 43 ∧
    (∀ c ∈ NewNoteID b, isNoteIDByte c = true) ∧
    CheckValidNoteID (NewNoteID b) = .ok () ∧
    ∀ {σ ν : Type} (L : Lib σ ν) (ws : WebServer) (ent : Entropy) (r : Request) (st st1 : σ)
      (note : ν), ent.noteBytes = b → L.codec.Decode r.Body = .ok note →
      ws.NotePad.WriteNote L.os L.codec st (NewNoteID b) note = (st1, none) →
      ∃ loc,
        (handleAPICalls.create L ws ent r ResponseWriter.fresh st).w.sentHeader.Get
          "location".toList = some loc ∧
        loc = "/api/note/".toList ++ NewNoteID b ∧
        (stringsSplit '/' loc).getLast? = some (NewNoteID b) ∧
        NOTE_ID_PATTERN (NewNoteID b) = true ∧ 4 ≤ (NewNoteID b).length := by
  have hok := NewNoteID_ok b hb
  have hlen : (NewNoteID b).length = 43 := by
    simp [NewNoteID, rawURLEncodeToString_length, hb]
  have hall : ∀ c ∈ NewNoteID b, isNoteIDByte c = true := rawURLEncodeToString_all b
  refine ⟨hlen, hall, hok, ?_⟩
  intro σ ν L ws ent r st st1 note hent hdec hwr
  have hpat := ((CheckValidNoteID_ok_iff _).1 hok).1
  refine ⟨"/api/note/".toList ++ NewNoteID b, ?_, rfl, ?_, hpat, by omega⟩
  · simp only [handleAPICalls.create, hdec, hent, hwr]
    simp [ResponseWriter.fresh, ResponseWriter.SetHeader, ResponseWriter.WriteHeader,
      ResponseWriter.Write, ResponseWriter.sentHeader, Header.Set, Header.Get,
      canonical_location, canonical_content_type]
    decide
  · rw [stringsSplit_location _ (not_mem_of_isNoteIDByte _ '/' isNoteIDByte_not_slash hall)]
    rfl

/-- The bytes 0..31 make a 43-character identifier that `CheckValidNoteID` accepts. -/
theorem NewNoteID_matches_pattern_witness :
    (List.range 32).length = 32 ∧ (NewNoteID (List.range 32)).length = 43 ∧
    CheckValidNoteID (NewNoteID (List.range 32)) = .ok () :=
  ⟨by decide, (NewNoteID_matches_pattern (List.range 32) (by decide)).1,
    (NewNoteID_matches_pattern (List.range 32) (by decide)).2.2.1⟩

/-! ### The note store rejects ill-formed identifiers -/

theorem NoteExists_invalid {σ : Type} (os : OS σ) (np : NotePad) (st : σ) (id : GoString)
    (h : NOTE_ID_PATTERN id = false ∨ id.length < 4) : np.NoteExists os st id = false := by
  obtain ⟨e, he⟩ := NoteIDToPath_error id h
  simp [NotePad.NoteExists, he]

theorem probe_def {σ ν : Type} (L : Lib σ ν) (ws : WebServer) (r : Request) (st : σ) :
    ServeHTTP.probe L ws r st =
      if (decide ((pathClean ('/' :: r.Path)).length ≥ 5)
          && !stringsContains (pathClean ('/' :: r.Path)) ".".toList
          && !stringsContains ((pathClean ('/' :: r.Path)).drop 1) "/".toList) = true then
        if ws.NotePad.NoteExists L.os st ((pathClean ('/' :: r.Path)).drop 1) = true then
          ("/note.html".toList, some ((pathClean ('/' :: r.Path)).drop 1),
            [.NoteExists ((pathClean ('/' :: r.Path)).drop 1)])
        else (pathClean ('/' :: r.Path), none, [.NoteExists ((pathClean ('/' :: r.Path)).drop 1)])
      else (pathClean ('/' :: r.Path), none, []) := rfl

theorem probe_cond_iff (p : GoString) :
    (decide (p.length ≥ 5) && !stringsContains p ".".toList
      && !stringsContains (p.drop 1) "/".toList) = true ↔
    5 ≤ p.length ∧ '.' ∉ p ∧ '/' ∉ p.drop 1 := by
  have hdot : stringsContains p ".".toList = true ↔ '.' ∈ p := stringsContains_singleton p '.'
  have hsl : stringsContains (p.drop 1) "/".toList = true ↔ '/' ∈ p.drop 1 :=
    stringsContains_singleton (p.drop 1) '/'
  rw [Bool.and_eq_true, Bool.and_eq_true, decide_eq_true_eq, Bool.not_eq_true',
    Bool.not_eq_true', ← Bool.not_eq_true, ← Bool.not_eq_true, hdot, hsl]
  constructor
  · rintro ⟨⟨a, b⟩, c⟩; exact ⟨a, b, c⟩
  · rintro ⟨a, b, c⟩; exact ⟨⟨a, b⟩, c⟩

theorem probe_of_not_exists {σ ν : Type} (L : Lib σ ν) (ws : WebServer) (r : Request) (st : σ)
    (h : ws.NotePad.NoteExists L.os st ((pathClean ('/' :: r.Path)).drop 1) = false) :
    (ServeHTTP.probe L ws r st).1 = pathClean ('/' :: r.Path) ∧
    (ServeHTTP.probe L ws r st).2.1 = none := by
  rw [probe_def, h]
  split
  · rw [if_neg (by simp)]
    exact ⟨rfl, rfl⟩
  · exact ⟨rfl, rfl⟩

/-- C3: for every identifier that fails the pattern `^[a-zA-Z0-9_-]+$` or is shorter than 4
characters, every store operation fails whatever the store holds (`NoteIDToPath`,
`WriteNote`, `ReadNote`, `OpenNoteRaw` and `DeleteNote` return an error and leave the file
system as it was; `NoteExists` returns false), and the shortlink probe of `ServeHTTP`
leaves the path of any request whose candidate identifier is that string unchanged and
attaches no note id. -/
theorem invalid_id_every_operation_fails {σ ν : Type} (L : Lib σ ν) (ws : WebServer) (st : σ)
    (id : GoString) (note : ν) (h : NOTE_ID_PATTERN id = false ∨ id.length < 4) :
    (∃ e, NoteIDToPath id = .error e) ∧
    (∃ e, ws.NotePad.WriteNote L.os L.codec st id note = (st, some e)) ∧
    (∃ e, ws.NotePad.ReadNote L.os L.codec st id = .error e) ∧
    (∃ e, ws.NotePad.OpenNoteRaw L.os st id = .error e) ∧
    (∃ e, ws.NotePad.DeleteNote L.os st id = (st, some e)) ∧
    ws.NotePad.NoteExists L.os st id = false ∧
    ∀ r : Request, (pathClean ('/' :: r.Path)).drop 1 = id →
      (ServeHTTP.probe L ws r st).1 = pathClean ('/' :: r.Path) ∧
      (ServeHTTP.probe L ws r st).2.1 = none := by
  obtain ⟨e, he⟩ := NoteIDToPath_error id h
  refine ⟨⟨e, he⟩, ⟨e, by simp [NotePad.WriteNote, he]⟩,
    ⟨e, by simp [NotePad.ReadNote, NotePad.OpenNoteRaw, he]⟩,
    ⟨e, by simp [NotePad.OpenNoteRaw, he]⟩, ⟨e, by simp [NotePad.DeleteNote, he]⟩,
    NoteExists_invalid L.os ws.NotePad st id h, ?_⟩
  intro r hr
  apply probe_of_not_exists
  rw [hr]
  exact NoteExists_invalid L.os ws.NotePad st id h

/-- The identifier `ab.de` is not found even when a file sits at the path it would have. -/
theorem invalid_id_every_operation_fails_witness :
    (NOTE_ID_PATTERN "ab.de".toList = false ∨ "ab.de".toList.length < 4) ∧
    demoServer.NotePad.NoteExists demoLib.os [("/var/data/a/b/ab.de".toList, [])]
      "ab.de".toList = false :=
  ⟨Or.inl (by decide),
    (invalid_id_every_operation_fails demoLib demoServer
      [("/var/data/a/b/ab.de".toList, [])] "ab.de".toList [] (Or.inl (by decide))).2.2.2.2.2.1⟩

/-! ### The shortlink probe -/

theorem probe_cases {σ ν : Type} (L : Lib σ ν) (ws : WebServer) (r : Request) (st : σ) :
    (5 ≤ (pathClean ('/' :: r.Path)).length ∧ '.' ∉ pathClean ('/' :: r.Path) ∧
        '/' ∉ (pathClean ('/' :: r.Path)).drop 1 ∧
        ws.NotePad.NoteExists L.os st ((pathClean ('/' :: r.Path)).drop 1) = true ∧
        (ServeHTTP.probe L ws r st).1 = "/note.html".toList ∧
        (ServeHTTP.probe L ws r st).2.1 = some ((pathClean ('/' :: r.Path)).drop 1)) ∨
    (¬ (5 ≤ (pathClean ('/' :: r.Path)).length ∧ '.' ∉ pathClean ('/' :: r.Path) ∧
        '/' ∉ (pathClean ('/' :: r.Path)).drop 1 ∧
        ws.NotePad.NoteExists L.os st ((pathClean ('/' :: r.Path)).drop 1) = true) ∧
        (ServeHTTP.probe L ws r st).1 = pathClean ('/' :: r.Path) ∧
        (ServeHTTP.probe L ws r st).2.1 = none) := by
  by_cases hc : 5 ≤ (pathClean ('/' :: r.Path)).length ∧ '.' ∉ pathClean ('/' :: r.Path) ∧
      '/' ∉ (pathClean ('/' :: r.Path)).drop 1
  · cases he : ws.NotePad.NoteExists L.os st ((pathClean ('/' :: r.Path)).drop 1)
    · right
      exact ⟨fun h => Bool.noConfusion h.2.2.2, probe_of_not_exists L ws r st he⟩
    · left
      refine ⟨hc.1, hc.2.1, hc.2.2, rfl, ?_⟩
      rw [probe_def, if_pos ((probe_cond_iff _).2 hc), if_pos he]
      exact ⟨rfl, rfl⟩
  · right
    refine ⟨fun h => hc ⟨h.1, h.2.1, h.2.2.1⟩, ?_⟩
    rw [probe_def, if_neg (fun h => hc ((probe_cond_iff _).1 h))]
    exact ⟨rfl, rfl⟩

/-- C2: in `ServeHTTP`, for every request path, the effective path becomes `/note.html`
with the note id (the cleaned path minus its leading `/`) attached to the context if and
only if the cleaned path has at least 5 characters, contains no `.`, contains no `/` after
the leading one, and `NoteExists` reports that id; in every other case (in particular when
the cleaned path contains a dot, and when the candidate does not exist) the path is left as
cleaned and no id is attached. -/
theorem shortlink_probe_iff {σ ν : Type} (L : Lib σ ν) (ws : WebServer) (r : Request) (st : σ) :
    (((ServeHTTP.probe L ws r st).1 = "/note.html".toList ∧
        (ServeHTTP.probe L ws r st).2.1 = some ((pathClean ('/' :: r.Path)).drop 1)) ↔
      (5 ≤ (pathClean ('/' :: r.Path)).length ∧ '.' ∉ pathClean ('/' :: r.Path) ∧
        '/' ∉ (pathClean ('/' :: r.Path)).drop 1 ∧
        ws.NotePad.NoteExists L.os st ((pathClean ('/' :: r.Path)).drop 1) = true)) ∧
    (¬ (5 ≤ (pathClean ('/' :: r.Path)).length ∧ '.' ∉ pathClean ('/' :: r.Path) ∧
        '/' ∉ (pathClean ('/' :: r.Path)).drop 1 ∧
        ws.NotePad.NoteExists L.os st ((pathClean ('/' :: r.Path)).drop 1) = true) →
      (ServeHTTP.probe L ws r st).1 = pathClean ('/' :: r.Path) ∧
        (ServeHTTP.probe L ws r st).2.1 = none) ∧
    ('.' ∈ pathClean ('/' :: r.Path) →
      (ServeHTTP.probe L ws r st).1 = pathClean ('/' :: r.Path) ∧
        (ServeHTTP.probe L ws r st).2.1 = none) ∧
    (pathClean ('/' :: r.Path) = "/report.csv".toList →
      (ServeHTTP.probe L ws r st) = ("/report.csv".toList, none, [])) := by
  have hc := probe_cases L ws r st
  refine ⟨⟨?_, ?_⟩, ?_, ?_, ?_⟩
  · intro h
    rcases hc with hc | hc
    · exact ⟨hc.1, hc.2.1, hc.2.2.1, hc.2.2.2.1⟩
    · rw [hc.2.2] at h
      exact absurd h.2 (by simp)
  · intro h
    rcases hc with hc | hc
    · exact hc.2.2.2.2
    · exact absurd h hc.1
  · intro h
    rcases hc with hc | hc
    · exact absurd ⟨hc.1, hc.2.1, hc.2.2.1, hc.2.2.2.1⟩ h
    · exact hc.2
  · intro h
    rcases hc with hc | hc
    · exact absurd h hc.2.1
    · exact hc.2
  · intro h
    rw [probe_def, h, if_neg (by decide)]

/-- The path `/abcd` is rewritten when the note `abcd` exists and left alone when it does not. -/
theorem shortlink_probe_iff_witness :
    ServeHTTP.probe demoLib demoServer ⟨"GET".toList, "/abcd".toList, []⟩ demoStore =
      ("/note.html".toList, some "abcd".toList, [.NoteExists "abcd".toList]) ∧
    (ServeHTTP.probe demoLib demoServer ⟨"GET".toList, "/abcd".toList, []⟩ []).1 =
      "/abcd".toList :=
  ⟨by decide,
    ((shortlink_probe_iff demoLib demoServer ⟨"GET".toList, "/abcd".toList, []⟩ []).2.1
      (fun h => absurd h.2.2.2 (by decide))).1⟩

/-- A raw request path with a `.` element is cleaned before the probe looks at it:
`/abcd/.` is probed as `/abcd`. -/
theorem probe_cleans_before_testing :
    ServeHTTP.probe demoLib demoServer ⟨"GET".toList, "/abcd/.".toList, []⟩ demoStore =
      ("/note.html".toList, some "abcd".toList, [.NoteExists "abcd".toList]) := by
  decide

/-! ### `HTTPError` -/

theorem toDigitsCore_all (fuel n : Nat) (ds : List Char) (P : Char → Prop)
    (hd : ∀ k, P (Nat.digitChar (k % 16))) (hds : ∀ c ∈ ds, P c) :
    ∀ c ∈ Nat.toDigitsCore 16 fuel n ds, P c := by
  induction fuel generalizing n ds with
  | zero => simpa [Nat.toDigitsCore] using hds
  | succ f ih =>
    simp only [Nat.toDigitsCore]
    split
    · intro c hc
      rcases List.mem_cons.1 hc with h | h
      · rw [h]; exact hd n
      · exact hds c h
    · apply ih
      intro c hc
      rcases List.mem_cons.1 hc with h | h
      · rw [h]; exact hd n
      · exact hds c h

theorem errorID_plain (ent : Entropy) : ∀ c ∈ errorID ent, ¬ (c = '"' ∨ c = '\\') := by
  apply toDigitsCore_all
  · intro k
    have h : ∀ i : Fin 16, ¬ (Nat.digitChar i.val = '"' ∨ Nat.digitChar i.val = '\\') := by
      decide
    exact h ⟨k % 16, Nat.mod_lt _ (by decide)⟩
  · simp

theorem fmtQ_plain (s : GoString) (h : ∀ c ∈ s, ¬ (c = '"' ∨ c = '\\')) :
    fmtQ s = '"' :: s ++ ['"'] := by
  have : s.flatMap (fun c => if c = '"' ∨ c = '\\' then ['\\', c] else [c]) = s := by
    induction s with
    | nil => rfl
    | cons a t ih =>
      rw [List.flatMap_cons, ih (fun c hc => h c (List.mem_cons_of_mem _ hc)),
        if_neg (h a (List.mem_cons_self _ _))]
      rfl
  simp [fmtQ, this]

theorem httpError_fresh_headers (h : Header) (error : GoString) (code : Nat) :
    (httpError { header := h, sent := none, body := [] } error code).status = code ∧
    (httpError { header := h, sent := none, body := [] } error code).body = error ++ "\n".toList ∧
    (httpError { header := h, sent := none, body := [] } error code).sentHeader =
      (h.Set "Content-Type".toList "text/plain; charset=utf-8".toList).Set
        "X-Content-Type-Options".toList "nosniff".toList := by
  simp [httpError, ResponseWriter.SetHeader, ResponseWriter.WriteHeader, ResponseWriter.Write,
    ResponseWriter.status, ResponseWriter.sentHeader]

theorem header_get_x_error_id (id : GoString) :
    Header.Get ((Header.Set (Header.Set (Header.Set [] "x-error-id".toList id)
      "Content-Type".toList "text/plain; charset=utf-8".toList)
      "X-Content-Type-Options".toList "nosniff".toList)) "x-error-id".toList = some id := by
  have h1 : CanonicalMIMEHeaderKey "Content-Type".toList = "Content-Type".toList := by decide
  have h2 : CanonicalMIMEHeaderKey "X-Content-Type-Options".toList =
      "X-Content-Type-Options".toList := by decide
  simp only [Header.Set, Header.Get, canonical_x_error_id, h1, h2]
  simp [List.filter, List.find?]

theorem HTTPError_fresh_error_id (ent : Entropy) (line : Nat) (err : Option GoError)
    (publicMessage : GoString) (code : Nat) :
    (HTTPError ResponseWriter.fresh ent line err publicMessage code).1.sentHeader.Get
      "x-error-id".toList = some (errorID ent) := by
  have h := (httpError_fresh_headers (Header.Set [] "x-error-id".toList (errorID ent))
    ("Error serving request (id=".toList ++ fmtQ (errorID ent) ++ ") ".toList ++ publicMessage)
    code).2.2
  show (httpError _ _ _).sentHeader.Get _ = _
  simp only [ResponseWriter.fresh, ResponseWriter.SetHeader]
  rw [h]
  exact header_get_x_error_id _

theorem HTTPError_fresh_body (ent : Entropy) (line : Nat) (err : Option GoError)
    (publicMessage : GoString) (code : Nat) :
    (HTTPError ResponseWriter.fresh ent line err publicMessage code).1.body =
      "Error serving request (id=\"".toList ++ errorID ent ++ "\") ".toList ++ publicMessage
        ++ "\n".toList := by
  have h := (httpError_fresh_headers (Header.Set [] "x-error-id".toList (errorID ent))
    ("Error serving request (id=".toList ++ fmtQ (errorID ent) ++ ") ".toList ++ publicMessage)
    code).2.1
  have hq := fmtQ_plain (errorID ent) (errorID_plain ent)
  show (httpError _ _ _).body = _
  simp only [ResponseWriter.fresh, ResponseWriter.SetHeader]
  rw [h, hq]
  simp

theorem canonical_nosniff :
    CanonicalMIMEHeaderKey "X-Content-Type-Options".toList = "X-Content-Type-Options".toList := by
  decide

theorem canonical_Content_Type :
    CanonicalMIMEHeaderKey "Content-Type".toList = "Content-Type".toList := by
  decide

/-- The headers `HTTPError` sets, on any header map: `x-error-id` is the id given. -/
theorem header_get_x_error_id_any (h : Header) (id : GoString) :
    Header.Get ((Header.Set (Header.Set (Header.Set h "x-error-id".toList id)
      "Content-Type".toList "text/plain; charset=utf-8".toList)
      "X-Content-Type-Options".toList "nosniff".toList)) "x-error-id".toList = some id := by
  simp only [Header.Set, Header.Get, canonical_x_error_id, canonical_Content_Type,
    canonical_nosniff]
  simp [List.filter, List.find?]

/-- What `http.Error` leaves on any writer: the text and a newline after what was written
before; the status and the headers of the first `WriteHeader`, which is this one only when
nothing was sent before. -/
theorem httpError_any (w : ResponseWriter) (error : GoString) (code : Nat) :
    (httpError w error code).body = w.body ++ (error ++ "\n".toList) ∧
    (httpError w error code).status = (match w.sent with
      | none => code
      | some sent => sent.1) ∧
    (httpError w error code).sentHeader = (match w.sent with
      | none => (w.header.Set "Content-Type".toList "text/plain; charset=utf-8".toList).Set
          "X-Content-Type-Options".toList "nosniff".toList
      | some sent => sent.2) := by
  obtain ⟨h, sent, body⟩ := w
  cases sent with
  | none =>
    simp [httpError, ResponseWriter.SetHeader, ResponseWriter.WriteHeader, ResponseWriter.Write,
      ResponseWriter.status, ResponseWriter.sentHeader]
  | some x =>
    obtain ⟨c, hs⟩ := x
    simp [httpError, ResponseWriter.SetHeader, ResponseWriter.WriteHeader, ResponseWriter.Write,
      ResponseWriter.status, ResponseWriter.sentHeader]

/-- C8: `HTTPError` never sends internal error text to the client. For every writer, public
message, status code and correlation token (whatever the clock and the random source gave),
the writer it leaves is the same for any two internal errors and call sites, and what it
adds to the body is exactly `Error serving request (id="<token>") <public message>` and a
newline. The status and the headers the client gets are those of the first `WriteHeader`:
when nothing was sent before the call, the status is the code given and `x-error-id` carries
the token of the body; when output was already sent, the earlier status and headers stand.
On a fresh writer the status is the code, the body is the wrapper alone and `x-error-id`
carries its token. -/
theorem HTTPError_never_sends_internal_error (w : ResponseWriter) (ent : Entropy)
    (line₁ line₂ : Nat) (err₁ err₂ : Option GoError) (publicMessage : GoString) (code : Nat) :
    (HTTPError w ent line₁ err₁ publicMessage code).1 =
      (HTTPError w ent line₂ err₂ publicMessage code).1 ∧
    (HTTPError w ent line₁ err₁ publicMessage code).1.body =
      w.body ++ ("Error serving request (id=\"".toList ++ errorID ent ++ "\") ".toList
        ++ publicMessage ++ "\n".toList) ∧
    (HTTPError w ent line₁ err₁ publicMessage code).1.status = (match w.sent with
      | none => code
      | some sent => sent.1) ∧
    (HTTPError w ent line₁ err₁ publicMessage code).1.sentHeader.Get "x-error-id".toList =
      (match w.sent with
      | none => some (errorID ent)
      | some sent => sent.2.Get "x-error-id".toList) ∧
    (HTTPError ResponseWriter.fresh ent line₁ err₁ publicMessage code).1.status = code ∧
    (HTTPError ResponseWriter.fresh ent line₁ err₁ publicMessage code).1.body =
      "Error serving request (id=\"".toList ++ errorID ent ++ "\") ".toList ++ publicMessage
        ++ "\n".toList ∧
    (HTTPError ResponseWriter.fresh ent line₁ err₁ publicMessage code).1.sentHeader.Get
      "x-error-id".toList = some (errorID ent) := by
  have hq := fmtQ_plain (errorID ent) (errorID_plain ent)
  have hany : ∀ v : ResponseWriter,
      (HTTPError v ent line₁ err₁ publicMessage code).1.body =
        v.body ++ ("Error serving request (id=\"".toList ++ errorID ent ++ "\") ".toList
          ++ publicMessage ++ "\n".toList) ∧
      (HTTPError v ent line₁ err₁ publicMessage code).1.status = (match v.sent with
        | none => code
        | some sent => sent.1) ∧
      (HTTPError v ent line₁ err₁ publicMessage code).1.sentHeader.Get "x-error-id".toList =
        (match v.sent with
        | none => some (errorID ent)
        | some sent => sent.2.Get "x-error-id".toList) := by
    intro v
    have h := httpError_any (v.SetHeader "x-error-id".toList (errorID ent))
      ("Error serving request (id=".toList ++ fmtQ (errorID ent) ++ ") ".toList ++ publicMessage)
      code
    refine ⟨?_, ?_, ?_⟩
    · show (httpError _ _ _).body = _
      rw [h.1, hq]
      simp [ResponseWriter.SetHeader]
    · show (httpError _ _ _).status = _
      rw [h.2.1]
      rfl
    · show (httpError _ _ _).sentHeader.Get _ = _
      rw [h.2.2]
      obtain ⟨hd, sent, body⟩ := v
      cases sent with
      | none => exact header_get_x_error_id_any hd (errorID ent)
      | some x => rfl
  have hf := hany ResponseWriter.fresh
  refine ⟨rfl, (hany w).1, (hany w).2.1, (hany w).2.2, hf.2.1, ?_, hf.2.2⟩
  rw [hf.1]
  simp [ResponseWriter.fresh]

/-- C8 as stated fails where `HTTPError` is called after output was sent, as at line 157.
On a disk whose reads break off, `GET /api/note/abcd` for the existing note writes the
first bytes of the note, which sends the status 200, and then calls `HTTPError` with the
code 500: the client gets the status 200, a body that is not the wrapper alone, and no
`x-error-id` header. -/
theorem HTTPError_after_output_sent :
    (handleAPICalls brokenReadLib demoServer demoEntropy
      ⟨"GET".toList, "/api/note/abcd".toList, []⟩ ResponseWriter.fresh demoStore).w =
      (HTTPError
        (((ResponseWriter.fresh.SetHeader "content-type".toList "application/json".toList).SetHeader
          "content-encoding".toList "gzip".toList).Write "gz:".toList)
        demoEntropy 157 (some "input/output error".toList) "internal error".toList 500).1 ∧
    (handleAPICalls brokenReadLib demoServer demoEntropy
      ⟨"GET".toList, "/api/note/abcd".toList, []⟩ ResponseWriter.fresh demoStore).w.status
        = 200 ∧
    (handleAPICalls brokenReadLib demoServer demoEntropy
      ⟨"GET".toList, "/api/note/abcd".toList, []⟩ ResponseWriter.fresh demoStore).w.body =
        "gz:Error serving request (id=\"6553c139\") internal error\n".toList ∧
    (handleAPICalls brokenReadLib demoServer demoEntropy
      ⟨"GET".toList, "/api/note/abcd".toList, []⟩ ResponseWriter.fresh demoStore).w.sentHeader.Get
        "x-error-id".toList = none ∧
    (handleAPICalls brokenReadLib demoServer demoEntropy
      ⟨"GET".toList, "/api/note/abcd".toList, []⟩ ResponseWriter.fresh demoStore).w.body ≠
        "Error serving request (id=\"6553c139\") internal error\n".toList ∧
    (handleAPICalls brokenReadLib demoServer demoEntropy
      ⟨"GET".toList, "/api/note/abcd".toList, []⟩ ResponseWriter.fresh demoStore).log =
        [⟨errorID demoEntropy, 157, "input/output error".toList⟩] := by
  decide

/-- The log line is where the internal error goes. -/
theorem HTTPError_logs_error (w : ResponseWriter) (ent : Entropy) (line : Nat) (e : GoError)
    (publicMessage : GoString) (code : Nat) :
    (HTTPError w ent line (some e) publicMessage code).2 =
      { id := errorID ent, line := line, err := e } := rfl

/-! ### The API sub-router -/

theorem parts3_iff (pp : List GoString) (a b : GoString) :
    (pp.length == 3 && pp.getD 0 [] == a && pp.getD 1 [] == b) = true ↔
      pp = [a, b, pp.getD 2 []] := by
  match pp with
  | [] => simp
  | [_] => simp
  | [_, _] => simp
  | [x, y, z] =>
    simp only [List.length_cons, List.length_nil, List.getD_cons_zero, List.getD_cons_succ,
      Bool.and_eq_true, beq_iff_eq, List.cons.injEq, and_true]
    constructor
    · rintro ⟨⟨_, h1⟩, h2⟩; exact ⟨h1, h2⟩
    · rintro ⟨h1, h2⟩; exact ⟨⟨trivial, h1⟩, h2⟩
  | _ :: _ :: _ :: _ :: _ => simp

theorem parts2_iff (pp : List GoString) (a b : GoString) :
    (pp.length == 2 && pp.getD 0 [] == a && pp.getD 1 [] == b) = true ↔ pp = [a, b] := by
  match pp with
  | [] => simp
  | [_] => simp
  | [x, y] =>
    simp only [List.length_cons, List.length_nil, List.getD_cons_zero, List.getD_cons_succ,
      Bool.and_eq_true, beq_iff_eq, List.cons.injEq, and_true]
    constructor
    · rintro ⟨⟨_, h1⟩, h2⟩; exact ⟨h1, h2⟩
    · rintro ⟨h1, h2⟩; exact ⟨⟨trivial, h1⟩, h2⟩
  | _ :: _ :: _ :: _ => simp

theorem handleAPICalls_def {σ ν : Type} (L : Lib σ ν) (ws : WebServer) (ent : Entropy)
    (r : Request) (w : ResponseWriter) (st : σ) :
    handleAPICalls L ws ent r w st =
      if pathParts r = ["api".toList, "note".toList, (pathParts r).getD 2 []]
          ∧ r.Method = "GET".toList then
        handleAPICalls.get L ws ent w st ((pathParts r).getD 2 [])
      else if pathParts r = ["api".toList, "note".toList] ∧ r.Method = "POST".toList then
        handleAPICalls.create L ws ent r w st
      else if pathParts r = ["api".toList, "note".toList, (pathParts r).getD 2 []]
          ∧ (r.Method = "POST".toList ∨ r.Method = "PUT".toList) then
        handleAPICalls.update L ws ent r w st ((pathParts r).getD 2 [])
      else if pathParts r = ["api".toList, "note".toList, (pathParts r).getD 2 []]
          ∧ r.Method = "DELETE".toList then
        handleAPICalls.delete L ws ent w st ((pathParts r).getD 2 [])
      else ⟨httpNotFound w, st, [], []⟩ := by
  have h3 := parts3_iff (pathParts r) "api".toList "note".toList
  have h2 := parts2_iff (pathParts r) "api".toList "note".toList
  unfold handleAPICalls
  simp only [Bool.and_eq_true, Bool.or_eq_true, beq_iff_eq] at h3 h2 ⊢
  simp only [h3, h2]

/-- The route table of `handleAPICalls`, by path parts and method. -/
theorem handleAPICalls_table {σ ν : Type} (L : Lib σ ν) (ws : WebServer) (ent : Entropy)
    (r : Request) (w : ResponseWriter) (st : σ) :
    (∀ id, pathParts r = ["api".toList, "note".toList, id] → r.Method = "GET".toList →
      handleAPICalls L ws ent r w st = handleAPICalls.get L ws ent w st id) ∧
    (pathParts r = ["api".toList, "note".toList] → r.Method = "POST".toList →
      handleAPICalls L ws ent r w st = handleAPICalls.create L ws ent r w st) ∧
    (∀ id, pathParts r = ["api".toList, "note".toList, id] →
      (r.Method = "POST".toList ∨ r.Method = "PUT".toList) →
      handleAPICalls L ws ent r w st = handleAPICalls.update L ws ent r w st id) ∧
    (∀ id, pathParts r = ["api".toList, "note".toList, id] → r.Method = "DELETE".toList →
      handleAPICalls L ws ent r w st = handleAPICalls.delete L ws ent w st id) ∧
    (¬ (∃ id, pathParts r = ["api".toList, "note".toList, id] ∧
          (r.Method = "GET".toList ∨ r.Method = "POST".toList ∨ r.Method = "PUT".toList ∨
            r.Method = "DELETE".toList)) →
      ¬ (pathParts r = ["api".toList, "note".toList] ∧ r.Method = "POST".toList) →
      handleAPICalls L ws ent r w st = ⟨httpNotFound w, st, [], []⟩) := by
  rw [handleAPICalls_def]
  refine ⟨?_, ?_, ?_, ?_, ?_⟩
  · intro id hp hm
    rw [hp, hm]
    simp
  · intro hp hm
    rw [hp, hm]
    simp
  · intro id hp hm
    rw [hp]
    rcases hm with hm | hm <;> rw [hm] <;> simp
  · intro id hp hm
    rw [hp, hm]
    simp
  · intro h1 h2
    rw [if_neg (fun h => h1 ⟨_, h.1, Or.inl h.2⟩), if_neg h2,
      if_neg (fun h => h1 ⟨_, h.1, h.2.elim (fun x => Or.inr (Or.inl x))
        (fun x => Or.inr (Or.inr (Or.inl x)))⟩),
      if_neg (fun h => h1 ⟨_, h.1, Or.inr (Or.inr (Or.inr h.2))⟩)]

theorem httpNotFound_fresh :
    (httpNotFound ResponseWriter.fresh).status = 404 ∧
    (httpNotFound ResponseWriter.fresh).body = "404 page not found\n".toList ∧
    (httpNotFound ResponseWriter.fresh).sentHeader.Get "x-error-id".toList = none := by
  decide

theorem HTTPError_fresh_status (ent : Entropy) (line : Nat) (err : Option GoError)
    (msg : GoString) (code : Nat) :
    (HTTPError ResponseWriter.fresh ent line err msg code).1.status = code :=
  (httpError_fresh_headers _ _ _).1

theorem create_ok {σ ν : Type} (L : Lib σ ν) (ws : WebServer) (ent : Entropy) (r : Request)
    (st st1 : σ) (note : ν) (hd : L.codec.Decode r.Body = .ok note)
    (hw : ws.NotePad.WriteNote L.os L.codec st (NewNoteID ent.noteBytes) note = (st1, none)) :
    (handleAPICalls.create L ws ent r ResponseWriter.fresh st).w.status = 201 ∧
    (handleAPICalls.create L ws ent r ResponseWriter.fresh st).store = st1 ∧
    (handleAPICalls.create L ws ent r ResponseWriter.fresh st).log = [] ∧
    (handleAPICalls.create L ws ent r ResponseWriter.fresh st).ops =
      [.WriteNote (NewNoteID ent.noteBytes)] := by
  have h : handleAPICalls.create L ws ent r ResponseWriter.fresh st =
      ⟨(((ResponseWriter.fresh.SetHeader "location".toList
          ("/api/note/".toList ++ NewNoteID ent.noteBytes)).SetHeader "content-type".toList
          "application/json".toList).WriteHeader 201).Write (idJSON (NewNoteID ent.noteBytes)),
        st1, [], [.WriteNote (NewNoteID ent.noteBytes)]⟩ := by
    simp only [handleAPICalls.create, hd, hw]
  rw [h]
  exact ⟨rfl, rfl, rfl, rfl⟩

theorem update_ok {σ ν : Type} (L : Lib σ ν) (ws : WebServer) (ent : Entropy) (r : Request)
    (st st1 : σ) (id : GoString) (note : ν) (hd : L.codec.Decode r.Body = .ok note)
    (hw : ws.NotePad.WriteNote L.os L.codec st id note = (st1, none)) :
    (handleAPICalls.update L ws ent r ResponseWriter.fresh st id).w.status = 200 ∧
    (handleAPICalls.update L ws ent r ResponseWriter.fresh st id).store = st1 ∧
    (handleAPICalls.update L ws ent r ResponseWriter.fresh st id).log = [] ∧
    (handleAPICalls.update L ws ent r ResponseWriter.fresh st id).ops = [.WriteNote id] := by
  have h : handleAPICalls.update L ws ent r ResponseWriter.fresh st id =
      ⟨((ResponseWriter.fresh.SetHeader "content-type".toList
          "application/json".toList).WriteHeader 200).Write (idJSON id),
        st1, [], [.WriteNote id]⟩ := by
    simp only [handleAPICalls.update, hd, hw]
  rw [h]
  exact ⟨rfl, rfl, rfl, rfl⟩

theorem delete_absent {σ ν : Type} (L : Lib σ ν) (ws : WebServer) (ent : Entropy)
    (w : ResponseWriter) (st : σ) (id : GoString)
    (h : ws.NotePad.NoteExists L.os st id = false) :
    handleAPICalls.delete L ws ent w st id = ⟨httpNotFound w, st, [], [.NoteExists id]⟩ := by
  simp [handleAPICalls.delete, h]

theorem delete_ok {σ ν : Type} (L : Lib σ ν) (ws : WebServer) (ent : Entropy)
    (w : ResponseWriter) (st st1 : σ) (id : GoString)
    (h : ws.NotePad.NoteExists L.os st id = true)
    (hd : ws.NotePad.DeleteNote L.os st id = (st1, none)) :
    handleAPICalls.delete L ws ent w st id =
      ⟨w.WriteHeader 204, st1, [], [.NoteExists id, .DeleteNote id]⟩ := by
  simp [handleAPICalls.delete, h, hd]

theorem delete_fails {σ ν : Type} (L : Lib σ ν) (ws : WebServer) (ent : Entropy)
    (w : ResponseWriter) (st st1 : σ) (id : GoString) (e : GoError)
    (h : ws.NotePad.NoteExists L.os st id = true)
    (hd : ws.NotePad.DeleteNote L.os st id = (st1, some e)) :
    handleAPICalls.delete L ws ent w st id =
      ⟨(HTTPError w ent 220 (some e) "internal error".toList 500).1, st1,
        [(HTTPError w ent 220 (some e) "internal error".toList 500).2],
        [.NoteExists id, .DeleteNote id]⟩ := by
  simp [handleAPICalls.delete, h, hd]

theorem get_ops {σ ν : Type} (L : Lib σ ν) (ws : WebServer) (ent : Entropy)
    (w : ResponseWriter) (st : σ) (id : GoString) :
    (handleAPICalls.get L ws ent w st id).ops = [.OpenNoteRaw id] ∧
    (handleAPICalls.get L ws ent w st id).store = st := by
  unfold handleAPICalls.get
  cases ws.NotePad.OpenNoteRaw L.os st id with
  | error e => exact ⟨rfl, rfl⟩
  | ok nr =>
    cases h : nr.err with
    | none => simp [ioCopy, h]
    | some e => simp [ioCopy, h]

/-- C1 (as the code has it): `handleAPICalls` classifies every request by method and by the
`/`-separated parts of the cleaned path. Parts `[api, note, id]` with GET is the raw-read
route (one `OpenNoteRaw id`, the store untouched); parts `[api, note]` with POST is the
create route (201 when the body decodes and the write succeeds); parts `[api, note, id]`
with POST or PUT is the create-or-replace route under that id (200 on success); parts
`[api, note, id]` with DELETE is the delete route (404 and no delete when the note is
absent; when it is present, 204 if `DeleteNote` succeeds and 500 if it fails); every other
combination of method and parts responds 404, performs no store operation and leaves the
store as it was. -/
theorem handleAPICalls_classifies {σ ν : Type} (L : Lib σ ν) (ws : WebServer) (ent : Entropy)
    (r : Request) (st : σ) :
    (∀ id, pathParts r = ["api".toList, "note".toList, id] → r.Method = "GET".toList →
      handleAPICalls L ws ent r ResponseWriter.fresh st =
        handleAPICalls.get L ws ent ResponseWriter.fresh st id ∧
      (handleAPICalls L ws ent r ResponseWriter.fresh st).ops = [.OpenNoteRaw id] ∧
      (handleAPICalls L ws ent r ResponseWriter.fresh st).store = st) ∧
    (pathParts r = ["api".toList, "note".toList] → r.Method = "POST".toList →
      handleAPICalls L ws ent r ResponseWriter.fresh st =
        handleAPICalls.create L ws ent r ResponseWriter.fresh st ∧
      ∀ note st1, L.codec.Decode r.Body = .ok note →
        ws.NotePad.WriteNote L.os L.codec st (NewNoteID ent.noteBytes) note = (st1, none) →
        (handleAPICalls L ws ent r ResponseWriter.fresh st).w.status = 201 ∧
        (handleAPICalls L ws ent r ResponseWriter.fresh st).ops =
          [.WriteNote (NewNoteID ent.noteBytes)]) ∧
    (∀ id, pathParts r = ["api".toList, "note".toList, id] →
      (r.Method = "POST".toList ∨ r.Method = "PUT".toList) →
      handleAPICalls L ws ent r ResponseWriter.fresh st =
        handleAPICalls.update L ws ent r ResponseWriter.fresh st id ∧
      ∀ note st1, L.codec.Decode r.Body = .ok note →
        ws.NotePad.WriteNote L.os L.codec st id note = (st1, none) →
        (handleAPICalls L ws ent r ResponseWriter.fresh st).w.status = 200 ∧
        (handleAPICalls L ws ent r ResponseWriter.fresh st).ops = [.WriteNote id]) ∧
    (∀ id, pathParts r = ["api".toList, "note".toList, id] → r.Method = "DELETE".toList →
      handleAPICalls L ws ent r ResponseWriter.fresh st =
        handleAPICalls.delete L ws ent ResponseWriter.fresh st id ∧
      (ws.NotePad.NoteExists L.os st id = false →
        (handleAPICalls L ws ent r ResponseWriter.fresh st).w.status = 404 ∧
        (handleAPICalls L ws ent r ResponseWriter.fresh st).store = st ∧
        (handleAPICalls L ws ent r ResponseWriter.fresh st).ops = [.NoteExists id]) ∧
      (ws.NotePad.NoteExists L.os st id = true →
        (∀ st1, ws.NotePad.DeleteNote L.os st id = (st1, none) →
          (handleAPICalls L ws ent r ResponseWriter.fresh st).w.status = 204 ∧
          (handleAPICalls L ws ent r ResponseWriter.fresh st).store = st1) ∧
        (∀ st1 e, ws.NotePad.DeleteNote L.os st id = (st1, some e) →
          (handleAPICalls L ws ent r ResponseWriter.fresh st).w.status = 500))) ∧
    (¬ (∃ id, pathParts r = ["api".toList, "note".toList, id] ∧
          (r.Method = "GET".toList ∨ r.Method = "POST".toList ∨ r.Method = "PUT".toList ∨
            r.Method = "DELETE".toList)) →
      ¬ (pathParts r = ["api".toList, "note".toList] ∧ r.Method = "POST".toList) →
      (handleAPICalls L ws ent r ResponseWriter.fresh st).w.status = 404 ∧
      (handleAPICalls L ws ent r ResponseWriter.fresh st).ops = [] ∧
      (handleAPICalls L ws ent r ResponseWriter.fresh st).log = [] ∧
      (handleAPICalls L ws ent r ResponseWriter.fresh st).store = st) := by
  obtain ⟨hget, hcreate, hupdate, hdelete, hother⟩ :=
    handleAPICalls_table L ws ent r ResponseWriter.fresh st
  refine ⟨?_, ?_, ?_, ?_, ?_⟩
  · intro id hp hm
    rw [hget id hp hm]
    exact ⟨rfl, get_ops L ws ent _ st id⟩
  · intro hp hm
    rw [hcreate hp hm]
    refine ⟨rfl, ?_⟩
    intro note st1 hd hw
    have h := create_ok L ws ent r st st1 note hd hw
    exact ⟨h.1, h.2.2.2⟩
  · intro id hp hm
    rw [hupdate id hp hm]
    refine ⟨rfl, ?_⟩
    intro note st1 hd hw
    have h := update_ok L ws ent r st st1 id note hd hw
    exact ⟨h.1, h.2.2.2⟩
  · intro id hp hm
    rw [hdelete id hp hm]
    refine ⟨rfl, ?_, ?_⟩
    · intro h
      rw [delete_absent L ws ent _ st id h]
      exact ⟨httpNotFound_fresh.1, rfl, rfl⟩
    · intro h
      refine ⟨?_, ?_⟩
      · intro st1 hd
        rw [delete_ok L ws ent _ st st1 id h hd]
        exact ⟨rfl, rfl⟩
      · intro st1 e hd
        rw [delete_fails L ws ent _ st st1 id e h hd]
        exact HTTPError_fresh_status ent 220 (some e) _ 500
  · intro h1 h2
    rw [hother h1 h2]
    exact ⟨httpNotFound_fresh.1, rfl, rfl, rfl⟩

/-- On the in-memory store, `DELETE /api/note/abcd` for the existing note answers 204 and empties the store. -/
theorem handleAPICalls_classifies_witness :
    (handleAPICalls demoLib demoServer demoEntropy
      ⟨"DELETE".toList, "/api/note/abcd".toList, []⟩ ResponseWriter.fresh demoStore).w.status
        = 204 ∧
    (handleAPICalls demoLib demoServer demoEntropy
      ⟨"DELETE".toList, "/api/note/abcd".toList, []⟩ ResponseWriter.fresh demoStore).store
        = [] :=
  ((handleAPICalls_classifies demoLib demoServer demoEntropy
    ⟨"DELETE".toList, "/api/note/abcd".toList, []⟩ demoStore).2.2.2.1 "abcd".toList
      (by decide) (by decide)).2.2 (by decide) |>.1 [] (by decide)

/-- C1 as stated fails: the delete route does not answer 204 for every note that is
present. On a store that refuses the removal (a read-only mount), `DELETE /api/note/abcd`
for the existing note `abcd` answers 500. -/
theorem delete_present_not_always_204 :
    pathParts ⟨"DELETE".toList, "/api/note/abcd".toList, []⟩ =
      ["api".toList, "note".toList, "abcd".toList] ∧
    demoServer.NotePad.NoteExists readOnlyLib.os demoStore "abcd".toList = true ∧
    (handleAPICalls readOnlyLib demoServer demoEntropy
      ⟨"DELETE".toList, "/api/note/abcd".toList, []⟩ ResponseWriter.fresh demoStore).w.status
        = 500 := by
  decide

/-! ### Not-found responses -/

theorem view_fallthrough (E : Engine) (ws : WebServer) (order : List GoString → List GoString)
    (fuel : Nat) (ent : Entropy) (w : ResponseWriter) (p : GoString) (ctx : Option GoString)
    (h : ws.ViewsFS.Misses p) : ServeHTTP.view E ws order fuel ent w p ctx = .fallthrough := by
  unfold ServeHTTP.view
  rcases h with ⟨e, he⟩ | ⟨f, info, hf, hs, hd⟩
  · rw [he]
  · rw [hf]
    simp only [hs, hd, if_true]

theorem static_not_found (E : Engine) (ws : WebServer) (ent : Entropy) (r : Request)
    (w : ResponseWriter) (p : GoString) (h : ws.StaticFS.Misses p) :
    ServeHTTP.static E ws ent r w p = (httpNotFound w, []) := by
  unfold ServeHTTP.static
  rcases h with ⟨e, he⟩ | ⟨f, info, hf, hs, hd⟩
  · rw [he]
  · rw [hf]
    simp only [hs, hd, if_true]

theorem ServeHTTP_not_found {σ ν : Type} (L : Lib σ ν) (ws : WebServer)
    (order : List GoString → List GoString) (fuel : Nat) (ent : Entropy) (r : Request)
    (w : ResponseWriter) (st : σ)
    (hapi : stringsHasPrefix (ServeHTTP.probe L ws r st).1 "/api/".toList = false)
    (hv : ws.ViewsFS.Misses (if (ServeHTTP.probe L ws r st).1 = "/".toList then
      "/index.html".toList else (ServeHTTP.probe L ws r st).1))
    (hs : ws.StaticFS.Misses (if (ServeHTTP.probe L ws r st).1 = "/".toList then
      "/index.html".toList else (ServeHTTP.probe L ws r st).1)) :
    ServeHTTP L ws order fuel ent r w st =
      some ⟨httpNotFound w, st, [], (ServeHTTP.probe L ws r st).2.2⟩ := by
  unfold ServeHTTP
  rcases hp : ServeHTTP.probe L ws r st with ⟨p, ctx, ops⟩
  rw [hp] at hapi hv hs
  simp only [hapi, Bool.false_eq_true, if_false]
  rw [view_fallthrough L.engine ws order fuel ent w _ ctx hv,
    static_not_found L.engine ws ent r w _ hs]

theorem get_missing {σ ν : Type} (L : Lib σ ν) (ws : WebServer) (ent : Entropy)
    (w : ResponseWriter) (st : σ) (id : GoString) (e : GoError)
    (h : ws.NotePad.OpenNoteRaw L.os st id = .error e) :
    handleAPICalls.get L ws ent w st id =
      ⟨(HTTPError w ent 146 (some e) "error getting note".toList 404).1, st,
        [(HTTPError w ent 146 (some e) "error getting note".toList 404).2],
        [.OpenNoteRaw id]⟩ := by
  simp [handleAPICalls.get, h]

/-- C7 (as the code has it): a DELETE on `/api/note/{id}` whose note is absent, a request
matching no API route, and a path matching neither a view nor a static file are answered
404 by `http.NotFound`: nothing is logged, there is no `x-error-id` header and the body is
the fixed text `404 page not found`. A GET on `/api/note/{id}` whose note cannot be opened
is answered 404 too, but through `HTTPError`: one line is logged, the `x-error-id` header
carries the correlation token, and the body holds the token and the public message. -/
theorem not_found_responses {σ ν : Type} (L : Lib σ ν) (ws : WebServer)
    (order : List GoString → List GoString) (fuel : Nat) (ent : Entropy) (r : Request) (st : σ) :
    (∀ id, pathParts r = ["api".toList, "note".toList, id] → r.Method = "DELETE".toList →
      ws.NotePad.NoteExists L.os st id = false →
      (handleAPICalls L ws ent r ResponseWriter.fresh st).w.status = 404 ∧
      (handleAPICalls L ws ent r ResponseWriter.fresh st).log = [] ∧
      (handleAPICalls L ws ent r ResponseWriter.fresh st).w.sentHeader.Get
        "x-error-id".toList = none ∧
      (handleAPICalls L ws ent r ResponseWriter.fresh st).w.body =
        "404 page not found\n".toList) ∧
    (¬ (∃ id, pathParts r = ["api".toList, "note".toList, id] ∧
          (r.Method = "GET".toList ∨ r.Method = "POST".toList ∨ r.Method = "PUT".toList ∨
            r.Method = "DELETE".toList)) →
      ¬ (pathParts r = ["api".toList, "note".toList] ∧ r.Method = "POST".toList) →
      (handleAPICalls L ws ent r ResponseWriter.fresh st).w.status = 404 ∧
      (handleAPICalls L ws ent r ResponseWriter.fresh st).log = [] ∧
      (handleAPICalls L ws ent r ResponseWriter.fresh st).w.sentHeader.Get
        "x-error-id".toList = none ∧
      (handleAPICalls L ws ent r ResponseWriter.fresh st).w.body =
        "404 page not found\n".toList) ∧
    (stringsHasPrefix (ServeHTTP.probe L ws r st).1 "/api/".toList = false →
      ws.ViewsFS.Misses (if (ServeHTTP.probe L ws r st).1 = "/".toList then
        "/index.html".toList else (ServeHTTP.probe L ws r st).1) →
      ws.StaticFS.Misses (if (ServeHTTP.probe L ws r st).1 = "/".toList then
        "/index.html".toList else (ServeHTTP.probe L ws r st).1) →
      ∃ s, ServeHTTP L ws order fuel ent r ResponseWriter.fresh st = some s ∧
        s.w.status = 404 ∧ s.log = [] ∧ s.w.sentHeader.Get "x-error-id".toList = none ∧
        s.w.body = "404 page not found\n".toList) ∧
    (∀ id e, pathParts r = ["api".toList, "note".toList, id] → r.Method = "GET".toList →
      ws.NotePad.OpenNoteRaw L.os st id = .error e →
      (handleAPICalls L ws ent r ResponseWriter.fresh st).w.status = 404 ∧
      (handleAPICalls L ws ent r ResponseWriter.fresh st).log =
        [{ id := errorID ent, line := 146, err := e }] ∧
      (handleAPICalls L ws ent r ResponseWriter.fresh st).w.sentHeader.Get
        "x-error-id".toList = some (errorID ent) ∧
      (handleAPICalls L ws ent r ResponseWriter.fresh st).w.body =
        "Error serving request (id=\"".toList ++ errorID ent ++ "\") ".toList
          ++ "error getting note".toList ++ "\n".toList) := by
  obtain ⟨hget, -, -, hdelete, hother⟩ :=
    handleAPICalls_table L ws ent r ResponseWriter.fresh st
  have hnf := httpNotFound_fresh
  refine ⟨?_, ?_, ?_, ?_⟩
  · intro id hp hm hex
    rw [hdelete id hp hm, delete_absent L ws ent _ st id hex]
    exact ⟨hnf.1, rfl, hnf.2.2, hnf.2.1⟩
  · intro h1 h2
    rw [hother h1 h2]
    exact ⟨hnf.1, rfl, hnf.2.2, hnf.2.1⟩
  · intro hapi hv hs
    exact ⟨_, ServeHTTP_not_found L ws order fuel ent r _ st hapi hv hs,
      hnf.1, rfl, hnf.2.2, hnf.2.1⟩
  · intro id e hp hm hopen
    rw [hget id hp hm, get_missing L ws ent _ st id e hopen]
    exact ⟨HTTPError_fresh_status ent 146 (some e) _ 404, rfl,
      HTTPError_fresh_error_id ent 146 (some e) _ 404,
      HTTPError_fresh_body ent 146 (some e) _ 404⟩

/-- On the in-memory store, `DELETE /api/note/wxyz` for a note that is not there answers 404 and logs nothing. -/
theorem not_found_responses_witness :
    (handleAPICalls demoLib demoServer demoEntropy
      ⟨"DELETE".toList, "/api/note/wxyz".toList, []⟩ ResponseWriter.fresh demoStore).w.status
        = 404 ∧
    (handleAPICalls demoLib demoServer demoEntropy
      ⟨"DELETE".toList, "/api/note/wxyz".toList, []⟩ ResponseWriter.fresh demoStore).log
        = [] :=
  have h := (not_found_responses demoLib demoServer id 0 demoEntropy
    ⟨"DELETE".toList, "/api/note/wxyz".toList, []⟩ demoStore).1 "wxyz".toList
      (by decide) (by decide) (by decide)
  ⟨h.1, h.2.1⟩

/-- C7 as stated fails for the GET route: `GET /api/note/abcd` on a store without that note
answers 404 through `HTTPError`, so the response carries an `x-error-id` header, the body
holds the token, and a line is logged. -/
theorem get_missing_note_carries_error_id :
    demoServer.NotePad.NoteExists demoLib.os [] "abcd".toList = false ∧
    (handleAPICalls demoLib demoServer demoEntropy
      ⟨"GET".toList, "/api/note/abcd".toList, []⟩ ResponseWriter.fresh []).w.status = 404 ∧
    (handleAPICalls demoLib demoServer demoEntropy
      ⟨"GET".toList, "/api/note/abcd".toList, []⟩ ResponseWriter.fresh []).w.sentHeader.Get
        "x-error-id".toList = some (errorID demoEntropy) ∧
    (handleAPICalls demoLib demoServer demoEntropy
      ⟨"GET".toList, "/api/note/abcd".toList, []⟩ ResponseWriter.fresh []).w.body =
        "Error serving request (id=\"6553c139\") error getting note\n".toList ∧
    (handleAPICalls demoLib demoServer demoEntropy
      ⟨"GET".toList, "/api/note/abcd".toList, []⟩ ResponseWriter.fresh []).log.length = 1 := by
  decide

/-! ### The note lifecycle through the server -/

theorem rtrim_concat (l : GoString) (x : Char) (cutset : GoString)
    (h : cutset.contains x = false) :
    ((l ++ [x]).reverse.dropWhile (fun c => cutset.contains c)).reverse = l ++ [x] := by
  rw [List.reverse_append, List.reverse_singleton, List.singleton_append,
    List.dropWhile_cons_of_neg (by rw [h]; exact Bool.false_ne_true)]
  simp

theorem valid_id_shape (id : GoString) (h : CheckValidNoteID id = .ok ()) :
    id ≠ [] ∧ '/' ∉ id ∧ '.' ∉ id ∧ ∃ init x, id = init ++ [x] ∧ x ≠ '/' := by
  obtain ⟨hp, -⟩ := (CheckValidNoteID_ok_iff id).1 h
  obtain ⟨hne, hall⟩ := (NOTE_ID_PATTERN_iff id).1 hp
  refine ⟨hne, not_mem_of_isNoteIDByte id '/' isNoteIDByte_not_slash hall,
    not_mem_of_isNoteIDByte id '.' isNoteIDByte_not_dot hall, id.dropLast, id.getLast hne,
    (List.dropLast_append_getLast hne).symm, ?_⟩
  intro hx
  have := hall _ (List.getLast_mem hne)
  rw [hx] at this
  exact absurd this (by decide)

theorem pathClean_api_note_id (id : GoString) (h : CheckValidNoteID id = .ok ()) :
    pathClean ('/' :: ("/api/note/".toList ++ id)) = "/api/note/".toList ++ id := by
  obtain ⟨hne, hsl, hdot, -⟩ := valid_id_shape id h
  have h1 : ¬ id = ['.'] := fun e => hdot (e ▸ List.mem_cons_self _ _)
  have h2 : ¬ id = ['.', '.'] := fun e => hdot (e ▸ List.mem_cons_self _ _)
  show '/' :: stringsJoin ['/'] (cleanElems true [] (stringsSplit '/' ("/api/note/".toList ++ id)))
    = _
  rw [stringsSplit_location id hsl]
  simp [cleanElems, stringsJoin, hne, h1, h2]

theorem pathParts_api_note_id (m body id : GoString) (h : CheckValidNoteID id = .ok ()) :
    pathParts ⟨m, "/api/note/".toList ++ id, body⟩ =
      ["api".toList, "note".toList, id] := by
  obtain ⟨hne, hsl, hdot, init, x, hid, hx⟩ := valid_id_shape id h
  unfold pathParts
  rw [pathClean_api_note_id id h]
  have ht : stringsTrim ("/api/note/".toList ++ id) "/".toList = "api/note/".toList ++ id := by
    have hc : List.contains "/".toList x = false := by
      simp [hx]
    have := rtrim_concat ("api/note/".toList ++ init) x "/".toList hc
    rw [List.append_assoc, ← hid] at this
    unfold stringsTrim
    rw [← this]
    rfl
  rw [ht]
  have := stringsSplit_no_sep '/' id hsl
  simp [stringsSplit, this]

theorem probe_api_note_id {σ ν : Type} (L : Lib σ ν) (ws : WebServer) (st : σ)
    (m body id : GoString) (h : CheckValidNoteID id = .ok ()) :
    ServeHTTP.probe L ws ⟨m, "/api/note/".toList ++ id, body⟩ st =
      ("/api/note/".toList ++ id, none, []) := by
  rw [probe_def, pathClean_api_note_id id h, if_neg]
  rw [probe_cond_iff]
  intro hc
  exact hc.2.2 (by simp)

theorem ServeHTTP_api_note_id {σ ν : Type} (L : Lib σ ν) (ws : WebServer)
    (order : List GoString → List GoString) (fuel : Nat) (ent : Entropy) (st : σ)
    (m body id : GoString) (h : CheckValidNoteID id = .ok ()) :
    ∃ s, ServeHTTP L ws order fuel ent ⟨m, "/api/note/".toList ++ id, body⟩
        ResponseWriter.fresh st = some s ∧
      s.w = (handleAPICalls L ws ent ⟨m, "/api/note/".toList ++ id, body⟩
        ResponseWriter.fresh st).w ∧
      s.store = (handleAPICalls L ws ent ⟨m, "/api/note/".toList ++ id, body⟩
        ResponseWriter.fresh st).store := by
  unfold ServeHTTP
  rw [probe_api_note_id L ws st m body id h]
  have hp : stringsHasPrefix ("/api/note/".toList ++ id) "/api/".toList = true := by
    simp [stringsHasPrefix, List.isPrefixOf]
  simp only [hp, if_true]
  exact ⟨_, rfl, rfl, rfl⟩

theorem ServeHTTP_api_note {σ ν : Type} (L : Lib σ ν) (ws : WebServer)
    (order : List GoString → List GoString) (fuel : Nat) (ent : Entropy) (st : σ)
    (m body : GoString) :
    ∃ s, ServeHTTP L ws order fuel ent ⟨m, "/api/note".toList, body⟩
        ResponseWriter.fresh st = some s ∧
      s.w = (handleAPICalls L ws ent ⟨m, "/api/note".toList, body⟩
        ResponseWriter.fresh st).w ∧
      s.store = (handleAPICalls L ws ent ⟨m, "/api/note".toList, body⟩
        ResponseWriter.fresh st).store := by
  have hprobe : ServeHTTP.probe L ws ⟨m, "/api/note".toList, body⟩ st =
      ("/api/note".toList, none, []) := by
    have hc : pathClean ('/' :: "/api/note".toList) = "/api/note".toList := by decide
    rw [probe_def]
    show (if (decide ((pathClean ('/' :: "/api/note".toList)).length ≥ 5)
          && !stringsContains (pathClean ('/' :: "/api/note".toList)) ".".toList
          && !stringsContains ((pathClean ('/' :: "/api/note".toList)).drop 1) "/".toList) = true
        then _ else _) = _
    rw [if_neg (by decide), hc]
  unfold ServeHTTP
  rw [hprobe]
  exact ⟨_, rfl, rfl, rfl⟩

theorem pathParts_api_note (m body : GoString) :
    pathParts ⟨m, "/api/note".toList, body⟩ = ["api".toList, "note".toList] := by
  have h : stringsSplit '/' (stringsTrim (pathClean ('/' :: "/api/note".toList)) "/".toList) =
      ["api".toList, "note".toList] := by decide
  exact h

theorem create_location {σ ν : Type} (L : Lib σ ν) (ws : WebServer) (ent : Entropy) (r : Request)
    (st st1 : σ) (note : ν) (hd : L.codec.Decode r.Body = .ok note)
    (hw : ws.NotePad.WriteNote L.os L.codec st (NewNoteID ent.noteBytes) note = (st1, none)) :
    (handleAPICalls.create L ws ent r ResponseWriter.fresh st).w.sentHeader.Get
      "location".toList = some ("/api/note/".toList ++ NewNoteID ent.noteBytes) := by
  simp only [handleAPICalls.create, hd, hw]
  simp [ResponseWriter.fresh, ResponseWriter.SetHeader, ResponseWriter.WriteHeader,
    ResponseWriter.Write, ResponseWriter.sentHeader, Header.Set, Header.Get,
    canonical_location, canonical_content_type]
  decide

theorem get_found {σ ν : Type} (L : Lib σ ν) (ws : WebServer) (ent : Entropy) (st : σ)
    (id d : GoString) (h : ws.NotePad.OpenNoteRaw L.os st id = .ok ⟨d, none⟩) :
    (handleAPICalls.get L ws ent ResponseWriter.fresh st id).w.status = 200 ∧
    (handleAPICalls.get L ws ent ResponseWriter.fresh st id).w.body = d ∧
    (handleAPICalls.get L ws ent ResponseWriter.fresh st id).log = [] := by
  by_cases hd : d = []
  · simp [handleAPICalls.get, h, ioCopy, hd, ResponseWriter.status, ResponseWriter.SetHeader,
      ResponseWriter.fresh]
  · simp [handleAPICalls.get, h, ioCopy, hd, ResponseWriter.status, ResponseWriter.SetHeader,
      ResponseWriter.fresh, ResponseWriter.Write, ResponseWriter.WriteHeader]

theorem lookup_filter_ne {β : Type} (p : GoString) (st : List (GoString × β)) :
    List.lookup p (st.filter (fun e => e.1 != p)) = none := by
  induction st with
  | nil => rfl
  | cons a t ih =>
    obtain ⟨k, v⟩ := a
    by_cases ha : k = p
    · simp [List.filter, ha, ih]
    · have h1 : (k != p) = true := by simpa using ha
      have h2 : (p == k) = false := by
        simp only [beq_eq_false_iff_ne, ne_eq]
        exact fun e => ha e.symm
      simp [List.filter, h1, List.lookup, h2, ih]

theorem Disk.look_root (st : Disk) (p : GoString) (h : st.look p ≠ some .dir) :
    ¬ (p = "/".toList ∨ p = ".".toList) := by
  intro hp
  exact h (by simp only [Disk.look, if_pos hp])

theorem Disk.look_cons (st : Disk) (p q : GoString) (e : DirEntry)
    (hp : ¬ (p = "/".toList ∨ p = ".".toList)) :
    Disk.look ((p, e) :: st) p = some e ∧
    (st.look p ≠ some .dir → st.look q = some .dir → Disk.look ((p, e) :: st) q = some .dir) := by
  constructor
  · simp only [Disk.look, if_neg hp]
    simp [List.lookup]
  · intro hnd hq
    by_cases hqr : q = "/".toList ∨ q = ".".toList
    · simp only [Disk.look, if_pos hqr]
    · by_cases hqp : q = p
      · exact absurd (hqp ▸ hq) hnd
      · have h2 : (q == p) = false := by simpa using hqp
        simp only [Disk.look, if_neg hqr] at hq ⊢
        simp [List.lookup, h2, hq]

/-- The disk with directories is a file system on which store I/O does not fail. -/
theorem diskOS_reliable : diskOS.Reliable Disk.look where
  stat_some st p e h := by simp [diskOS, h]
  stat_none st p h := by simp [diskOS, h]
  open_file st p d h := by simp [diskOS, h]
  open_none st p h := by simp [diskOS, h]
  mkdirAll st d q h := by
    show Disk.look (Disk.mkdirAll (d.length + 1) st d) q = _
    simp [Disk.mkdirAll, h]
  openFile st p hd hnd := by
    have hp := Disk.look_root st p hnd
    have hok : diskOS.OpenFile st p = .ok ((p, .file []) :: st) := by
      show (if st.look (filepathDir p) = some .dir then _ else _) = _
      rw [if_pos hd]
      cases hl : st.look p with
      | none => rfl
      | some e =>
        cases e with
        | dir => exact absurd hl hnd
        | file x => rfl
    exact ⟨_, hok, (Disk.look_cons st p p _ hp).1,
      fun q hq => (Disk.look_cons st p q _ hp).2 hnd hq⟩
  write st p x d h := by
    have hnd : st.look p ≠ some .dir := by rw [h]; exact fun e => by cases e
    have hp := Disk.look_root st p hnd
    have hw : diskOS.Write st p d = ((p, .file d) :: st, none) := by
      show (match st.look p with
        | some (.file _) => _
        | _ => _) = _
      rw [h]
    rw [hw]
    exact ⟨rfl, (Disk.look_cons st p p _ hp).1,
      fun q hq => (Disk.look_cons st p q _ hp).2 hnd hq⟩
  remove st p d h := by
    have hnd : st.look p ≠ some .dir := by rw [h]; exact fun e => by cases e
    have hp := Disk.look_root st p hnd
    have hr : diskOS.Remove st p = (st.filter (fun e => e.1 != p), none) := by
      show (match st.look p with
        | some (.file _) => _
        | some .dir => _
        | none => _) = _
      rw [h]
    rw [hr]
    refine ⟨rfl, ?_⟩
    simp only [Disk.look, if_neg hp]
    exact lookup_filter_ne p st

/-- On an empty disk the file of a note cannot be opened for writing before its directory
was made: `MkdirAll` is what makes `WriteNote` work there. -/
theorem diskOS_needs_directory :
    (diskOS.OpenFile [] ("/var/data/A/A/".toList ++ demoID)).toOption = none ∧
    (diskOS.OpenFile (diskOS.MkdirAll [] "/var/data/A/A".toList)
      ("/var/data/A/A/".toList ++ demoID)).toOption =
        some (("/var/data/A/A/".toList ++ demoID, DirEntry.file []) ::
          [("/var/data/A/A".toList, .dir), ("/var/data/A".toList, .dir),
            ("/var/data".toList, .dir), ("/var".toList, .dir)]) := by
  decide

/-- `WriteNote` on a reliable file system, where `MkdirAll` left the directory of the note
in place and no directory sits at the path of the note: no error, the file holds the gzip
of the JSON text, and the directory is still there. -/
theorem WriteNote_reliable {σ ν : Type} (os : OS σ) (look : σ → GoString → Option DirEntry)
    (cd : Codec ν) (np : NotePad) (st : σ) (id : GoString) (note : ν) (js p : GoString)
    (hrel : os.Reliable look) (hp : NoteIDToPath id = .ok p) (hm : cd.Marshal note = .ok js)
    (hmk : look (os.MkdirAll st (filepathDir (filepathJoin np.StoreDir p)))
      (filepathDir (filepathJoin np.StoreDir p)) = some .dir)
    (hnd : look (os.MkdirAll st (filepathDir (filepathJoin np.StoreDir p)))
      (filepathJoin np.StoreDir p) ≠ some .dir) :
    (np.WriteNote os cd st id note).2 = none ∧
    look (np.WriteNote os cd st id note).1 (filepathJoin np.StoreDir p) =
      some (.file (cd.Gzip js)) ∧
    look (np.WriteNote os cd st id note).1 (filepathDir (filepathJoin np.StoreDir p)) =
      some .dir := by
  obtain ⟨st2, h2, hf2, hd2⟩ := hrel.openFile _ (filepathJoin np.StoreDir p) hmk hnd
  have hw := hrel.write st2 (filepathJoin np.StoreDir p) [] (cd.Gzip js) hf2
  simp only [NotePad.WriteNote, hp, h2, hm]
  exact ⟨hw.1, hw.2.1, hw.2.2 _ (hd2 _ hmk)⟩

/-- C9: the note lifecycle of the API test, for every store state and every well-formed
Note payload, on a file system with directories whose I/O does not fail (`OS.Reliable`),
where `MkdirAll` leaves the directory of the note in place and no directory sits at the
path of the note. Through `ServeHTTP`: `POST /api/note` answers 201 with a `location` header
naming the id minted from the random bytes of the request, whether or not the store already
holds a note under it; `GET /api/note/{id}` on that id then answers 200;
`POST /api/note/{id}` with a new payload answers 200; `DELETE /api/note/{id}` answers 204;
and a following `GET /api/note/{id}` answers 404. Each request runs on the store the one
before it left. -/
theorem note_lifecycle {σ ν : Type} (L : Lib σ ν) (look : σ → GoString → Option DirEntry)
    (ws : WebServer) (order : List GoString → List GoString) (fuel : Nat)
    (e1 e2 e3 e4 e5 : Entropy) (body1 body2 js1 js2 p : GoString) (note1 note2 : ν) (st0 : σ)
    (hrel : L.os.Reliable look) (hb : e1.noteBytes.length = 32)
    (hp : NoteIDToPath (NewNoteID e1.noteBytes) = .ok p)
    (hmk : look (L.os.MkdirAll st0 (filepathDir (filepathJoin ws.NotePad.StoreDir p)))
      (filepathDir (filepathJoin ws.NotePad.StoreDir p)) = some .dir)
    (hnd : look (L.os.MkdirAll st0 (filepathDir (filepathJoin ws.NotePad.StoreDir p)))
      (filepathJoin ws.NotePad.StoreDir p) ≠ some .dir)
    (hd1 : L.codec.Decode body1 = .ok note1) (hm1 : L.codec.Marshal note1 = .ok js1)
    (hd2 : L.codec.Decode body2 = .ok note2) (hm2 : L.codec.Marshal note2 = .ok js2) :
    ∃ s1 s2 s3 s4 s5 : Served σ,
      ServeHTTP L ws order fuel e1 ⟨"POST".toList, "/api/note".toList, body1⟩
        ResponseWriter.fresh st0 = some s1 ∧
      s1.w.status = 201 ∧
      s1.w.sentHeader.Get "location".toList =
        some ("/api/note/".toList ++ NewNoteID e1.noteBytes) ∧
      ServeHTTP L ws order fuel e2
        ⟨"GET".toList, "/api/note/".toList ++ NewNoteID e1.noteBytes, []⟩
        ResponseWriter.fresh s1.store = some s2 ∧
      s2.w.status = 200 ∧
      ServeHTTP L ws order fuel e3
        ⟨"POST".toList, "/api/note/".toList ++ NewNoteID e1.noteBytes, body2⟩
        ResponseWriter.fresh s2.store = some s3 ∧
      s3.w.status = 200 ∧
      ServeHTTP L ws order fuel e4
        ⟨"DELETE".toList, "/api/note/".toList ++ NewNoteID e1.noteBytes, []⟩
        ResponseWriter.fresh s3.store = some s4 ∧
      s4.w.status = 204 ∧
      ServeHTTP L ws order fuel e5
        ⟨"GET".toList, "/api/note/".toList ++ NewNoteID e1.noteBytes, []⟩
        ResponseWriter.fresh s4.store = some s5 ∧
      s5.w.status = 404 := by
  have hv := NewNoteID_ok e1.noteBytes hb
  generalize hid : NewNoteID e1.noteBytes = id at hv hp ⊢
  generalize hfile : filepathJoin ws.NotePad.StoreDir p = file at hmk hnd
  -- create
  obtain ⟨s1, hs1, hw1, hst1⟩ := ServeHTTP_api_note L ws order fuel e1 st0 "POST".toList body1
  have hc := (handleAPICalls_table L ws e1 ⟨"POST".toList, "/api/note".toList, body1⟩
    ResponseWriter.fresh st0).2.1 (pathParts_api_note _ _) rfl
  have hwr1 := WriteNote_reliable L.os look L.codec ws.NotePad st0 id note1 js1 p hrel hp hm1
    (hfile ▸ hmk) (hfile ▸ hnd)
  rw [hfile] at hwr1
  have hwe1 : ws.NotePad.WriteNote L.os L.codec st0 (NewNoteID e1.noteBytes) note1 =
      ((ws.NotePad.WriteNote L.os L.codec st0 id note1).1, none) := by
    rw [hid]; exact Prod.ext rfl hwr1.1
  have hcr := create_ok L ws e1 ⟨"POST".toList, "/api/note".toList, body1⟩ st0 _ note1 hd1 hwe1
  have hloc := create_location L ws e1 ⟨"POST".toList, "/api/note".toList, body1⟩ st0 _ note1
    hd1 hwe1
  rw [hid] at hloc
  rw [hc] at hw1 hst1
  rw [hcr.2.1] at hst1
  -- read
  obtain ⟨s2, hs2, hw2, hst2⟩ :=
    ServeHTTP_api_note_id L ws order fuel e2 s1.store "GET".toList [] id hv
  have hg := (handleAPICalls_table L ws e2 ⟨"GET".toList, "/api/note/".toList ++ id, []⟩
    ResponseWriter.fresh s1.store).1 id (pathParts_api_note_id _ _ id hv) rfl
  have hopen : ws.NotePad.OpenNoteRaw L.os s1.store id = .ok ⟨L.codec.Gzip js1, none⟩ := by
    rw [hst1]
    simp only [NotePad.OpenNoteRaw, hp, hfile]
    exact hrel.open_file _ _ _ hwr1.2.1
  rw [hg] at hw2 hst2
  rw [(get_ops L ws e2 _ s1.store id).2] at hst2
  -- update: the directory is there, so the second `MkdirAll` changes nothing
  have hdir2 : look s2.store (filepathDir file) = some .dir := by
    rw [hst2, hst1]; exact hwr1.2.2
  have hfile2 : look s2.store file = some (.file (L.codec.Gzip js1)) := by
    rw [hst2, hst1]; exact hwr1.2.1
  have hmk2 : look (L.os.MkdirAll s2.store (filepathDir file)) (filepathDir file) = some .dir := by
    rw [hrel.mkdirAll _ _ _ hdir2]; exact hdir2
  have hnd2 : look (L.os.MkdirAll s2.store (filepathDir file)) file ≠ some .dir := by
    rw [hrel.mkdirAll _ _ _ hdir2, hfile2]
    exact fun e => by cases e
  obtain ⟨s3, hs3, hw3, hst3⟩ :=
    ServeHTTP_api_note_id L ws order fuel e3 s2.store "POST".toList body2 id hv
  have hu := (handleAPICalls_table L ws e3 ⟨"POST".toList, "/api/note/".toList ++ id, body2⟩
    ResponseWriter.fresh s2.store).2.2.1 id (pathParts_api_note_id _ _ id hv) (Or.inl rfl)
  have hwr2 := WriteNote_reliable L.os look L.codec ws.NotePad s2.store id note2 js2 p hrel hp
    hm2 (hfile ▸ hmk2) (hfile ▸ hnd2)
  rw [hfile] at hwr2
  have hup := update_ok L ws e3 ⟨"POST".toList, "/api/note/".toList ++ id, body2⟩ s2.store _ id
    note2 hd2 (Prod.ext rfl hwr2.1)
  rw [hu] at hw3 hst3
  rw [hup.2.1] at hst3
  -- delete
  obtain ⟨s4, hs4, hw4, hst4⟩ :=
    ServeHTTP_api_note_id L ws order fuel e4 s3.store "DELETE".toList [] id hv
  have hdl := (handleAPICalls_table L ws e4 ⟨"DELETE".toList, "/api/note/".toList ++ id, []⟩
    ResponseWriter.fresh s3.store).2.2.2.1 id (pathParts_api_note_id _ _ id hv) rfl
  have hfile3 : look s3.store file = some (.file (L.codec.Gzip js2)) := by
    rw [hst3]; exact hwr2.2.1
  have hex : ws.NotePad.NoteExists L.os s3.store id = true := by
    simp [NotePad.NoteExists, hp, hfile, hrel.stat_some _ _ _ hfile3]
  have hrm := hrel.remove s3.store file _ hfile3
  have hdn : ws.NotePad.DeleteNote L.os s3.store id =
      ((L.os.Remove s3.store file).1, none) := by
    simp only [NotePad.DeleteNote, hp, hfile]
    exact Prod.ext rfl hrm.1
  have hdo := delete_ok L ws e4 ResponseWriter.fresh s3.store _ id hex hdn
  rw [hdl, hdo] at hw4 hst4
  -- read again
  obtain ⟨s5, hs5, hw5, -⟩ :=
    ServeHTTP_api_note_id L ws order fuel e5 s4.store "GET".toList [] id hv
  have hg5 := (handleAPICalls_table L ws e5 ⟨"GET".toList, "/api/note/".toList ++ id, []⟩
    ResponseWriter.fresh s4.store).1 id (pathParts_api_note_id _ _ id hv) rfl
  obtain ⟨e, he⟩ := hrel.open_none _ _ hrm.2
  have hopen5 : ws.NotePad.OpenNoteRaw L.os s4.store id = .error e := by
    rw [hst4]
    simp only [NotePad.OpenNoteRaw, hp, hfile]
    exact he
  rw [hg5, get_missing L ws e5 _ s4.store id e hopen5] at hw5
  refine ⟨s1, s2, s3, s4, s5, hs1, ?_, ?_, hs2, ?_, hs3, ?_, hs4, ?_, hs5, ?_⟩
  · rw [hw1]; exact hcr.1
  · rw [hw1]; exact hloc
  · rw [hw2]; exact (get_found L ws e2 s1.store id _ hopen).1
  · rw [hw3]; exact hup.1
  · rw [hw4]; rfl
  · rw [hw5]; exact HTTPError_fresh_status e5 146 (some e) _ 404

/-- The lifecycle on the disk with directories, starting from an empty disk: the create
makes the directories of the store. -/
theorem note_lifecycle_witness :
    ∃ s1 s2 s3 s4 s5 : Served Disk,
      ServeHTTP diskLib demoServer id 0 demoEntropy ⟨"POST".toList, "/api/note".toList, "\x7b\x7d".toList⟩
        ResponseWriter.fresh [] = some s1 ∧
      s1.w.status = 201 ∧
      s1.w.sentHeader.Get "location".toList =
        some ("/api/note/".toList ++ NewNoteID demoEntropy.noteBytes) ∧
      ServeHTTP diskLib demoServer id 0 demoEntropy
        ⟨"GET".toList, "/api/note/".toList ++ NewNoteID demoEntropy.noteBytes, []⟩
        ResponseWriter.fresh s1.store = some s2 ∧
      s2.w.status = 200 ∧
      ServeHTTP diskLib demoServer id 0 demoEntropy
        ⟨"POST".toList, "/api/note/".toList ++ NewNoteID demoEntropy.noteBytes, "\x7b \x7d".toList⟩
        ResponseWriter.fresh s2.store = some s3 ∧
      s3.w.status = 200 ∧
      ServeHTTP diskLib demoServer id 0 demoEntropy
        ⟨"DELETE".toList, "/api/note/".toList ++ NewNoteID demoEntropy.noteBytes, []⟩
        ResponseWriter.fresh s3.store = some s4 ∧
      s4.w.status = 204 ∧
      ServeHTTP diskLib demoServer id 0 demoEntropy
        ⟨"GET".toList, "/api/note/".toList ++ NewNoteID demoEntropy.noteBytes, []⟩
        ResponseWriter.fresh s4.store = some s5 ∧
      s5.w.status = 404 :=
  note_lifecycle diskLib Disk.look demoServer id 0 demoEntropy demoEntropy demoEntropy
    demoEntropy demoEntropy "\x7b\x7d".toList "\x7b \x7d".toList "\x7b\x7d\n".toList "\x7b \x7d\n".toList
    ("A/A/".toList ++ demoID) "\x7b\x7d".toList "\x7b \x7d".toList [] diskOS_reliable (by decide)
    rfl (by decide) (by decide) rfl rfl rfl rfl

/-- C9 as stated fails for a store that already holds a note under the id the request
mints: the id in the `location` header is then not a fresh one. On `heldDisk`, which holds
a note under `demoID`, `POST /api/note` with the random bytes of `demoEntropy` answers 201,
its `location` header names `demoID`, and the note that was there is overwritten. -/
theorem create_reuses_held_id :
    NewNoteID demoEntropy.noteBytes = demoID ∧
    demoServer.NotePad.NoteExists diskLib.os heldDisk demoID = true ∧
    (demoServer.NotePad.OpenNoteRaw diskLib.os heldDisk demoID).toOption =
      some ⟨"gz:earlier note\n".toList, none⟩ ∧
    (ServeHTTP diskLib demoServer id 0 demoEntropy
      ⟨"POST".toList, "/api/note".toList, "\x7b\x7d".toList⟩ ResponseWriter.fresh heldDisk).map
        (fun s => (s.w.status, s.w.sentHeader.Get "location".toList,
          (demoServer.NotePad.OpenNoteRaw diskLib.os s.store demoID).toOption)) =
      some (201, some ("/api/note/".toList ++ demoID),
        some ⟨"gz:\x7b\x7d\n".toList, none⟩) := by
  decide

/-! ### Template inclusion: the walk as a pass over references -/

/-- Sequencing of walks: run `f` on the state a walk left when it ran to its end. -/
theorem walkRefs_append (E : Engine) (fs : FileSystem) (all : TState → Result) (s : TState)
    (l₁ l₂ : List GoString) :
    walkRefs E fs all s (l₁ ++ l₂) =
      match walkRefs E fs all s l₁ with
      | ⟨.next, s1⟩ => walkRefs E fs all s1 l₂
      | r => r := by
  induction l₁ generalizing s with
  | nil => rfl
  | cons n ns ih =>
    simp only [List.cons_append, walkRefs]
    rcases h : includeName E fs all s n with ⟨flow, s1⟩
    cases flow with
    | next => exact ih s1
    | fail e => rfl
    | fuel => rfl

mutual
theorem TmplIncludeNode_eq_walkRefs (E : Engine) (fs : FileSystem) (all : TState → Result)
    (s : TState) : (n : Node) → TmplIncludeNode E fs all s n = walkRefs E fs all s n.refs
  | .template name => by
    rcases h : includeName E fs all s name with ⟨flow, s1⟩
    have h' : TmplIncludeNode E fs all s (.template name) = ⟨flow, s1⟩ := h
    rw [h']
    simp only [Node.refs, walkRefs, h]
    cases flow <;> rfl
  | .list nodes => by
    rw [TmplIncludeNode, Node.refs]
    exact TmplIncludeNodes_eq_walkRefs E fs all s nodes
  | .ifNode l e => by
    rw [TmplIncludeNode, Node.refs, walkRefs_append, TmplIncludeList_eq_walkRefs E fs all s l]
    rcases walkRefs E fs all s (refsOfList l) with ⟨flow, s1⟩
    cases flow with
    | next => exact TmplIncludeList_eq_walkRefs E fs all s1 e
    | fail e => rfl
    | fuel => rfl
  | .range l e => by
    rw [TmplIncludeNode, Node.refs, walkRefs_append, TmplIncludeList_eq_walkRefs E fs all s l]
    rcases walkRefs E fs all s (refsOfList l) with ⟨flow, s1⟩
    cases flow with
    | next => exact TmplIncludeList_eq_walkRefs E fs all s1 e
    | fail e => rfl
    | fuel => rfl
  | .withNode l e => by
    rw [TmplIncludeNode, Node.refs, walkRefs_append, TmplIncludeList_eq_walkRefs E fs all s l]
    rcases walkRefs E fs all s (refsOfList l) with ⟨flow, s1⟩
    cases flow with
    | next => exact TmplIncludeList_eq_walkRefs E fs all s1 e
    | fail e => rfl
    | fuel => rfl
  | .other _ => by
    rw [TmplIncludeNode, Node.refs]
    rfl
theorem TmplIncludeNodes_eq_walkRefs (E : Engine) (fs : FileSystem) (all : TState → Result)
    (s : TState) : (ns : List Node) →
      TmplIncludeNodes E fs all s ns = walkRefs E fs all s (refsOfNodes ns)
  | [] => by
    rw [TmplIncludeNodes, refsOfNodes]
    rfl
  | n :: ns => by
    rw [TmplIncludeNodes, refsOfNodes, walkRefs_append, TmplIncludeNode_eq_walkRefs E fs all s n]
    rcases walkRefs E fs all s n.refs with ⟨flow, s1⟩
    cases flow with
    | next => exact TmplIncludeNodes_eq_walkRefs E fs all s1 ns
    | fail e => rfl
    | fuel => rfl
theorem TmplIncludeList_eq_walkRefs (E : Engine) (fs : FileSystem) (all : TState → Result)
    (s : TState) : (l : Option (List Node)) →
      TmplIncludeList E fs all s l = walkRefs E fs all s (refsOfList l)
  | none => by
    rw [TmplIncludeList, refsOfList]
    rfl
  | some ns => by
    rw [TmplIncludeList, refsOfList]
    exact TmplIncludeNodes_eq_walkRefs E fs all s ns
end

theorem Node.Mentions.template_inv {m name : GoString}
    (h : (Node.template m).Mentions name) : name = m := by
  cases h; rfl

theorem Node.Mentions.list_inv {nodes : List Node} {name : GoString}
    (h : (Node.list nodes).Mentions name) : NodesMention nodes name := by
  cases h; assumption

theorem Node.Mentions.ifNode_inv {l e : Option (List Node)} {name : GoString}
    (h : (Node.ifNode l e).Mentions name) :
    (∃ l', l = some l' ∧ NodesMention l' name) ∨ (∃ e', e = some e' ∧ NodesMention e' name) := by
  cases h with
  | ifList h => exact Or.inl ⟨_, rfl, h⟩
  | ifElse h => exact Or.inr ⟨_, rfl, h⟩

theorem Node.Mentions.range_inv {l e : Option (List Node)} {name : GoString}
    (h : (Node.range l e).Mentions name) :
    (∃ l', l = some l' ∧ NodesMention l' name) ∨ (∃ e', e = some e' ∧ NodesMention e' name) := by
  cases h with
  | rangeList h => exact Or.inl ⟨_, rfl, h⟩
  | rangeElse h => exact Or.inr ⟨_, rfl, h⟩

theorem Node.Mentions.withNode_inv {l e : Option (List Node)} {name : GoString}
    (h : (Node.withNode l e).Mentions name) :
    (∃ l', l = some l' ∧ NodesMention l' name) ∨ (∃ e', e = some e' ∧ NodesMention e' name) := by
  cases h with
  | withList h => exact Or.inl ⟨_, rfl, h⟩
  | withElse h => exact Or.inr ⟨_, rfl, h⟩

theorem Node.Mentions.other_inv {b : Bool} {name : GoString}
    (h : (Node.other b).Mentions name) : False := by
  cases h

theorem NodesMention.cons_inv {n : Node} {ns : List Node} {name : GoString}
    (h : NodesMention (n :: ns) name) : n.Mentions name ∨ NodesMention ns name := by
  cases h with
  | head h => exact Or.inl h
  | tail h => exact Or.inr h

theorem NodesMention.nil_inv {name : GoString} (h : NodesMention [] name) : False := by
  cases h

mutual
theorem Node.mentions_of_mem_refs (name : GoString) :
    (n : Node) → name ∈ n.refs → n.Mentions name
  | .template m, h => by
    rw [Node.refs, List.mem_singleton] at h
    rw [h]; exact .template _
  | .list nodes, h => by
    rw [Node.refs] at h
    exact .list (mentions_of_mem_refsOfNodes name nodes h)
  | .ifNode none none, h => by simp [Node.refs, refsOfList] at h
  | .ifNode (some l) none, h => by
    simp only [Node.refs, refsOfList, List.append_nil] at h
    exact .ifList (mentions_of_mem_refsOfNodes name l h)
  | .ifNode none (some e), h => by
    simp only [Node.refs, refsOfList, List.nil_append] at h
    exact .ifElse (mentions_of_mem_refsOfNodes name e h)
  | .ifNode (some l) (some e), h => by
    simp only [Node.refs, refsOfList, List.mem_append] at h
    rcases h with h | h
    · exact .ifList (mentions_of_mem_refsOfNodes name l h)
    · exact .ifElse (mentions_of_mem_refsOfNodes name e h)
  | .range none none, h => by simp [Node.refs, refsOfList] at h
  | .range (some l) none, h => by
    simp only [Node.refs, refsOfList, List.append_nil] at h
    exact .rangeList (mentions_of_mem_refsOfNodes name l h)
  | .range none (some e), h => by
    simp only [Node.refs, refsOfList, List.nil_append] at h
    exact .rangeElse (mentions_of_mem_refsOfNodes name e h)
  | .range (some l) (some e), h => by
    simp only [Node.refs, refsOfList, List.mem_append] at h
    rcases h with h | h
    · exact .rangeList (mentions_of_mem_refsOfNodes name l h)
    · exact .rangeElse (mentions_of_mem_refsOfNodes name e h)
  | .withNode none none, h => by simp [Node.refs, refsOfList] at h
  | .withNode (some l) none, h => by
    simp only [Node.refs, refsOfList, List.append_nil] at h
    exact .withList (mentions_of_mem_refsOfNodes name l h)
  | .withNode none (some e), h => by
    simp only [Node.refs, refsOfList, List.nil_append] at h
    exact .withElse (mentions_of_mem_refsOfNodes name e h)
  | .withNode (some l) (some e), h => by
    simp only [Node.refs, refsOfList, List.mem_append] at h
    rcases h with h | h
    · exact .withList (mentions_of_mem_refsOfNodes name l h)
    · exact .withElse (mentions_of_mem_refsOfNodes name e h)
  | .other _, h => by simp [Node.refs] at h
theorem mentions_of_mem_refsOfNodes (name : GoString) :
    (ns : List Node) → name ∈ refsOfNodes ns → NodesMention ns name
  | [], h => by simp [refsOfNodes] at h
  | n :: ns, h => by
    rw [refsOfNodes, List.mem_append] at h
    rcases h with h | h
    · exact .head (Node.mentions_of_mem_refs name n h)
    · exact .tail (mentions_of_mem_refsOfNodes name ns h)
end

mutual
theorem Node.mem_refs_of_mentions (name : GoString) :
    (n : Node) → n.Mentions name → name ∈ n.refs
  | .template m, h => by
    rw [Node.refs, List.mem_singleton]
    exact h.template_inv
  | .list nodes, h => by
    rw [Node.refs]
    exact mem_refsOfNodes_of_mentions name nodes h.list_inv
  | .ifNode none none, h => by
    rcases h.ifNode_inv with ⟨_, h1, _⟩ | ⟨_, h1, _⟩ <;> exact Option.noConfusion h1
  | .ifNode (some l) none, h => by
    simp only [Node.refs, refsOfList, List.append_nil]
    rcases h.ifNode_inv with ⟨l', h1, h2⟩ | ⟨_, h1, _⟩
    · cases h1; exact mem_refsOfNodes_of_mentions name l h2
    · exact Option.noConfusion h1
  | .ifNode none (some e), h => by
    simp only [Node.refs, refsOfList, List.nil_append]
    rcases h.ifNode_inv with ⟨_, h1, _⟩ | ⟨e', h1, h2⟩
    · exact Option.noConfusion h1
    · cases h1; exact mem_refsOfNodes_of_mentions name e h2
  | .ifNode (some l) (some e), h => by
    simp only [Node.refs, refsOfList, List.mem_append]
    rcases h.ifNode_inv with ⟨l', h1, h2⟩ | ⟨e', h1, h2⟩
    · cases h1; exact Or.inl (mem_refsOfNodes_of_mentions name l h2)
    · cases h1; exact Or.inr (mem_refsOfNodes_of_mentions name e h2)
  | .range none none, h => by
    rcases h.range_inv with ⟨_, h1, _⟩ | ⟨_, h1, _⟩ <;> exact Option.noConfusion h1
  | .range (some l) none, h => by
    simp only [Node.refs, refsOfList, List.append_nil]
    rcases h.range_inv with ⟨l', h1, h2⟩ | ⟨_, h1, _⟩
    · cases h1; exact mem_refsOfNodes_of_mentions name l h2
    · exact Option.noConfusion h1
  | .range none (some e), h => by
    simp only [Node.refs, refsOfList, List.nil_append]
    rcases h.range_inv with ⟨_, h1, _⟩ | ⟨e', h1, h2⟩
    · exact Option.noConfusion h1
    · cases h1; exact mem_refsOfNodes_of_mentions name e h2
  | .range (some l) (some e), h => by
    simp only [Node.refs, refsOfList, List.mem_append]
    rcases h.range_inv with ⟨l', h1, h2⟩ | ⟨e', h1, h2⟩
    · cases h1; exact Or.inl (mem_refsOfNodes_of_mentions name l h2)
    · cases h1; exact Or.inr (mem_refsOfNodes_of_mentions name e h2)
  | .withNode none none, h => by
    rcases h.withNode_inv with ⟨_, h1, _⟩ | ⟨_, h1, _⟩ <;> exact Option.noConfusion h1
  | .withNode (some l) none, h => by
    simp only [Node.refs, refsOfList, List.append_nil]
    rcases h.withNode_inv with ⟨l', h1, h2⟩ | ⟨_, h1, _⟩
    · cases h1; exact mem_refsOfNodes_of_mentions name l h2
    · exact Option.noConfusion h1
  | .withNode none (some e), h => by
    simp only [Node.refs, refsOfList, List.nil_append]
    rcases h.withNode_inv with ⟨_, h1, _⟩ | ⟨e', h1, h2⟩
    · exact Option.noConfusion h1
    · cases h1; exact mem_refsOfNodes_of_mentions name e h2
  | .withNode (some l) (some e), h => by
    simp only [Node.refs, refsOfList, List.mem_append]
    rcases h.withNode_inv with ⟨l', h1, h2⟩ | ⟨e', h1, h2⟩
    · cases h1; exact Or.inl (mem_refsOfNodes_of_mentions name l h2)
    · cases h1; exact Or.inr (mem_refsOfNodes_of_mentions name e h2)
  | .other _, h => h.other_inv.elim
theorem mem_refsOfNodes_of_mentions (name : GoString) :
    (ns : List Node) → NodesMention ns name → name ∈ refsOfNodes ns
  | [], h => h.nil_inv.elim
  | n :: ns, h => by
    rw [refsOfNodes, List.mem_append]
    rcases h.cons_inv with h | h
    · exact Or.inl (Node.mem_refs_of_mentions name n h)
    · exact Or.inr (mem_refsOfNodes_of_mentions name ns h)
end

/-- The references the walk meets in a sequence of nodes are exactly the names the
sequence mentions. -/
theorem mem_refsOfNodes_iff (name : GoString) (ns : List Node) :
    name ∈ refsOfNodes ns ↔ NodesMention ns name :=
  ⟨mentions_of_mem_refsOfNodes name ns, mem_refsOfNodes_of_mentions name ns⟩

/-! ### The template set -/

theorem Registry.names_setTree (reg : Registry) (name : GoString) (t : Option (List Node)) :
    (reg.setTree name t).names = reg.names := by
  unfold Registry.setTree Registry.names
  rw [List.map_map]
  apply List.map_congr_left
  intro e _
  by_cases h : e.1 = name <;> simp [h]

theorem Registry.mem_names_New (reg : Registry) (name n : GoString) :
    n ∈ (reg.New name).names ↔ n ∈ reg.names ∨ n = name := by
  unfold Registry.New
  by_cases h : reg.names.contains name = true
  · rw [if_pos h, Registry.names_setTree]
    constructor
    · exact Or.inl
    · rintro (h' | rfl)
      · exact h'
      · simpa using h
  · rw [if_neg h]
    simp [Registry.names]

theorem Registry.lookup_eq_none_iff (reg : Registry) (name : GoString) :
    reg.lookup name = none ↔ name ∉ reg.names := by
  unfold Registry.lookup Registry.names
  rw [Option.map_eq_none', List.find?_eq_none]
  simp only [beq_iff_eq, List.mem_map, not_exists, not_and]

theorem Registry.mem_names_define (reg : Registry) (name n : GoString) (tree : List Node) :
    n ∈ (reg.define name tree).names ↔ n ∈ reg.names ∨ n = name := by
  unfold Registry.define
  have hin : ∀ t, reg.lookup name = some t → name ∈ reg.names := by
    intro t ht
    by_contra hn
    rw [(Registry.lookup_eq_none_iff reg name).2 hn] at ht
    exact Option.noConfusion ht
  have hsame : ∀ t, reg.lookup name = some t → (n ∈ reg.names ↔ n ∈ reg.names ∨ n = name) := by
    intro t ht
    constructor
    · exact Or.inl
    · rintro (h | rfl)
      · exact h
      · exact hin t ht
  cases h : reg.lookup name with
  | none => simp [Registry.names]
  | some t =>
    cases t with
    | none =>
      simp only []
      rw [Registry.names_setTree]
      exact hsame _ h
    | some old =>
      simp only []
      split
      · exact hsame _ h
      · rw [Registry.names_setTree]
        exact hsame _ h

theorem Registry.names_subset_foldl_define (defs : List (GoString × List Node)) (reg : Registry) :
    ∀ n, n ∈ reg.names → n ∈ (defs.foldl (fun r d => r.define d.1 d.2) reg).names := by
  induction defs generalizing reg with
  | nil => exact fun n h => h
  | cons d ds ih =>
    intro n h
    exact ih _ n ((Registry.mem_names_define reg d.1 n d.2).2 (Or.inl h))

theorem Registry.names_subset_Parse (reg : Registry) (name : GoString) (p : Parsed) :
    (∀ n, n ∈ reg.names → n ∈ (reg.Parse name p).names) ∧ name ∈ (reg.Parse name p).names := by
  unfold Registry.Parse
  constructor
  · intro n h
    exact Registry.names_subset_foldl_define _ _ n
      ((Registry.mem_names_define reg name n p.body).2 (Or.inl h))
  · exact Registry.names_subset_foldl_define _ _ name
      ((Registry.mem_names_define reg name name p.body).2 (Or.inr rfl))

/-! ### Template inclusion: induction over a run -/

theorem includeName_registered (E : Engine) (fs : FileSystem) (all : TState → Result)
    (s : TState) (name : GoString) (h : name ∈ s.reg.names) :
    includeName E fs all s name = ⟨.next, s⟩ := by
  simp [includeName, TmplIncludeNode, h]

/-- What including a name that is not registered does: the name is registered and logged,
then the source is opened, read and parsed, and the run starts over. -/
theorem includeName_fresh (E : Engine) (fs : FileSystem) (all : TState → Result)
    (s : TState) (name : GoString) (h : name ∉ s.reg.names) :
    (∃ e, FetchError E fs name e ∧ includeName E fs all s name =
      ⟨.fail e, { reg := s.reg.New name, fetched := s.fetched ++ [name] }⟩) ∨
    (∃ f b p, fs name = .ok f ∧ f.data = .ok b ∧ E.Parse name b = .ok p ∧
      includeName E fs all s name =
        all { reg := (s.reg.New name).Parse name p, fetched := s.fetched ++ [name] }) := by
  have hex : ∀ {α : Type} (x : Except GoError α),
      (∃ e, x = .error e) ∨ (∃ a, x = .ok a) := by
    intro α x
    cases x with
    | error e => exact Or.inl ⟨e, rfl⟩
    | ok a => exact Or.inr ⟨a, rfl⟩
  rcases hex (fs name) with ⟨e, hf⟩ | ⟨f, hf⟩
  · exact Or.inl ⟨e, Or.inl hf, by simp [includeName, TmplIncludeNode, h, hf]⟩
  rcases hex f.data with ⟨e, hd⟩ | ⟨b, hd⟩
  · exact Or.inl ⟨e, Or.inr (Or.inl ⟨f, hf, hd⟩),
      by simp [includeName, TmplIncludeNode, h, hf, hd]⟩
  rcases hex (E.Parse name b) with ⟨e, hp⟩ | ⟨p, hp⟩
  · exact Or.inl ⟨e, Or.inr (Or.inr ⟨f, b, hf, hd, hp⟩),
      by simp [includeName, TmplIncludeNode, h, hf, hd, hp]⟩
  · exact Or.inr ⟨f, b, p, hf, hd, hp, by simp [includeName, TmplIncludeNode, h, hf, hd, hp]⟩

/-- Induction over a walk: a relation between a state and the result of running from it
that holds for doing nothing, composes along steps that ran on, and holds for each
inclusion, holds for the walk. -/
theorem walkRefs_rel (E : Engine) (fs : FileSystem) (all : TState → Result)
    (P : TState → Result → Prop) (l : List GoString)
    (refl : ∀ s, P s ⟨.next, s⟩)
    (trans : ∀ s s1 r, P s ⟨.next, s1⟩ → P s1 r → P s r)
    (step : ∀ s name, name ∈ l → P s (includeName E fs all s name)) :
    ∀ s, P s (walkRefs E fs all s l) := by
  induction l with
  | nil => exact fun s => refl s
  | cons n ns ih =>
    intro s
    have hs := step s n (List.mem_cons_self _ _)
    have ih' := ih (fun s name h => step s name (List.mem_cons_of_mem _ h))
    rw [walkRefs]
    rcases h : includeName E fs all s n with ⟨flow, s1⟩
    rw [h] at hs
    cases flow with
    | next => exact trans s s1 _ hs (ih' s1)
    | fail e => exact hs
    | fuel => exact hs

/-- Induction over the loop of `TmplIncludeAll`. -/
theorem loop_rel (visit : TState → List Node → Result) (P : TState → Result → Prop)
    (l : List GoString)
    (refl : ∀ s, P s ⟨.next, s⟩)
    (trans : ∀ s s1 r, P s ⟨.next, s1⟩ → P s1 r → P s r)
    (step : ∀ s name root, name ∈ l → s.reg.lookup name = some (some root) →
      P s (visit s root)) :
    ∀ s, P s (TmplIncludeAll.loop visit l s) := by
  induction l with
  | nil => exact fun s => refl s
  | cons n ns ih =>
    intro s
    have ih' := ih (fun s name root h => step s name root (List.mem_cons_of_mem _ h))
    rw [TmplIncludeAll.loop]
    cases hl : s.reg.lookup n with
    | none => exact ih' s
    | some t =>
      cases t with
      | none => exact ih' s
      | some root =>
        have hs := step s n root (List.mem_cons_self _ _) hl
        simp only []
        rcases h : visit s root with ⟨flow, s1⟩
        rw [h] at hs
        cases flow with
        | next => exact trans s s1 _ hs (ih' s1)
        | fail e => exact hs
        | fuel => exact hs

theorem TmplIncludeAll_succ (E : Engine) (fs : FileSystem)
    (order : List GoString → List GoString) (fuel : Nat) (s : TState) :
    TmplIncludeAll E fs order (fuel + 1) s =
      TmplIncludeAll.loop
        (fun s1 root => walkRefs E fs (TmplIncludeAll E fs order fuel) s1 (refsOfNodes root))
        (order s.reg.names) s := by
  rw [TmplIncludeAll]
  congr 1
  funext s1 root
  rw [TmplIncludeNode_eq_walkRefs]
  rfl

/-- Induction over a whole run of `TmplIncludeAll`: a relation that holds for doing
nothing, for running out of fuel and for a failed fetch, that composes, and that carries
over from the nested run to the inclusion that started it, holds for the run. -/
theorem TmplIncludeAll_rel (E : Engine) (fs : FileSystem)
    (order : List GoString → List GoString) (P : TState → Result → Prop)
    (refl : ∀ s, P s ⟨.next, s⟩)
    (trans : ∀ s s1 r, P s ⟨.next, s1⟩ → P s1 r → P s r)
    (out : ∀ s, P s ⟨.fuel, s⟩)
    (failed : ∀ s name e, name ∉ s.reg.names → FetchError E fs name e →
      P s ⟨.fail e, { reg := s.reg.New name, fetched := s.fetched ++ [name] }⟩)
    (nested : ∀ s name f b p r, name ∉ s.reg.names → fs name = .ok f → f.data = .ok b →
      E.Parse name b = .ok p →
      P { reg := (s.reg.New name).Parse name p, fetched := s.fetched ++ [name] } r → P s r) :
    ∀ fuel s, P s (TmplIncludeAll E fs order fuel s) := by
  intro fuel
  induction fuel with
  | zero => exact fun s => out s
  | succ k ih =>
    intro s
    rw [TmplIncludeAll_succ]
    apply loop_rel _ P _ refl trans
    intro s1 name root _ _
    apply walkRefs_rel E fs _ P _ refl trans
    intro s2 m _
    by_cases hm : m ∈ s2.reg.names
    · rw [includeName_registered E fs _ s2 m hm]
      exact refl s2
    · rcases includeName_fresh E fs (TmplIncludeAll E fs order k) s2 m hm with
        ⟨e, he, h⟩ | ⟨f, b, p, hf, hd, hp, h⟩
      · rw [h]; exact failed s2 m e hm he
      · rw [h]; exact nested s2 m f b p _ hm hf hd hp (ih _)

/-! ### Termination and the fetch log -/

theorem filter_length_le_of_imp {α : Type} (p q : α → Bool) (l : List α)
    (h : ∀ a ∈ l, p a = true → q a = true) : (l.filter p).length ≤ (l.filter q).length := by
  induction l with
  | nil => simp
  | cons a t ih =>
    have iht := ih (fun x hx => h x (List.mem_cons_of_mem _ hx))
    have ha := h a (List.mem_cons_self _ _)
    by_cases hp : p a = true
    · simp [List.filter, hp, ha hp, iht]
    · by_cases hq : q a = true
      · simp [List.filter, hp, hq]; omega
      · simp [List.filter, hp, hq, iht]

theorem filter_length_lt_of_imp {α : Type} (p q : α → Bool) (l : List α)
    (h : ∀ a ∈ l, p a = true → q a = true) (x : α) (hx : x ∈ l) (hqx : q x = true)
    (hpx : p x = false) : (l.filter p).length < (l.filter q).length := by
  induction l with
  | nil => simp at hx
  | cons a t ih =>
    have hle := filter_length_le_of_imp p q t (fun y hy => h y (List.mem_cons_of_mem _ hy))
    have ha := h a (List.mem_cons_self _ _)
    rcases List.mem_cons.1 hx with rfl | hxt
    · simp [List.filter, hpx, hqx]; omega
    · have iht := ih (fun y hy => h y (List.mem_cons_of_mem _ hy)) hxt
      by_cases hp : p a = true
      · simp [List.filter, hp, ha hp, iht]
      · by_cases hq : q a = true
        · simp [List.filter, hp, hq]; omega
        · simp [List.filter, hp, hq, iht]

theorem pending_le (offered : List GoString) (s s1 : TState)
    (h : ∀ n ∈ s.reg.names, n ∈ s1.reg.names) : pending offered s1 ≤ pending offered s := by
  apply filter_length_le_of_imp
  intro a _ ha
  simp only [Bool.not_eq_true', List.contains_eq_any_beq, List.any_eq_false, beq_iff_eq] at ha ⊢
  intro x hx hax
  have hmem : x ∈ s1.reg.names := h x hx
  exact ha x hmem hax

theorem pending_lt (offered : List GoString) (s s1 : TState) (name : GoString)
    (h : ∀ n ∈ s.reg.names, n ∈ s1.reg.names) (ho : name ∈ offered)
    (hn : name ∉ s.reg.names) (hn1 : name ∈ s1.reg.names) :
    pending offered s1 < pending offered s := by
  apply filter_length_lt_of_imp _ _ offered _ name ho
  · simpa using hn
  · simpa using hn1
  · intro a _ ha
    simp only [Bool.not_eq_true', List.contains_eq_any_beq, List.any_eq_false, beq_iff_eq]
      at ha ⊢
    intro x hx hax
    exact ha x (h x hx) hax

/-- Names are never removed from the set during a run. -/
theorem TmplIncludeAll_names_mono (E : Engine) (fs : FileSystem)
    (order : List GoString → List GoString) (fuel : Nat) (s : TState) :
    ∀ n ∈ s.reg.names, n ∈ (TmplIncludeAll E fs order fuel s).st.reg.names := by
  apply TmplIncludeAll_rel E fs order (fun s r => ∀ n ∈ s.reg.names, n ∈ r.st.reg.names)
  · exact fun s n h => h
  · exact fun s s1 r h1 h2 n h => h2 n (h1 n h)
  · exact fun s n h => h
  · exact fun s name e _ _ n h => (Registry.mem_names_New _ _ _).2 (Or.inl h)
  · intro s name f b p r _ _ _ _ hr n h
    exact hr n ((Registry.names_subset_Parse _ name p).1 n
      ((Registry.mem_names_New _ _ _).2 (Or.inl h)))

theorem LogOk_include (s : TState) (name : GoString) (reg : Registry) (h : s.LogOk)
    (hn : name ∉ s.reg.names) (hreg : ∀ n, n ∈ s.reg.names ∨ n = name → n ∈ reg.names) :
    TState.LogOk { reg := reg, fetched := s.fetched ++ [name] } := by
  refine ⟨?_, ?_⟩
  · show (s.fetched ++ [name]).Nodup
    rw [List.nodup_append]
    refine ⟨h.1, List.nodup_singleton _, ?_⟩
    intro a ha hb
    rw [List.mem_singleton] at hb
    exact hn (hb ▸ h.2 a ha)
  · intro n hmem
    have hmem' : n ∈ s.fetched ++ [name] := hmem
    rw [List.mem_append, List.mem_singleton] at hmem'
    rcases hmem' with h1 | h1
    · exact hreg n (Or.inl (h.2 n h1))
    · exact hreg n (Or.inr h1)

/-- The fetch log stays in order for the whole run: no name is passed to `fs.Open` twice. -/
theorem TmplIncludeAll_LogOk (E : Engine) (fs : FileSystem)
    (order : List GoString → List GoString) (fuel : Nat) (s : TState) (h : s.LogOk) :
    (TmplIncludeAll E fs order fuel s).st.LogOk := by
  revert h
  apply TmplIncludeAll_rel E fs order (fun s r => s.LogOk → r.st.LogOk)
  · exact fun s h => h
  · exact fun s s1 r h1 h2 h => h2 (h1 h)
  · exact fun s h => h
  · intro s name e hn _ h
    exact LogOk_include s name _ h hn (fun n hn' => (Registry.mem_names_New _ _ _).2 hn')
  · intro s name f b p r hn _ _ _ hr h
    apply hr
    exact LogOk_include s name _ h hn (fun n hn' =>
      (Registry.names_subset_Parse _ name p).1 n ((Registry.mem_names_New _ _ _).2 hn'))

/-- A run does not run out of fuel when it has more fuel than there are offered names
still to register. -/
theorem TmplIncludeAll_fuel (E : Engine) (fs : FileSystem)
    (order : List GoString → List GoString) (offered : List GoString)
    (hfin : OffersOnly fs offered) :
    ∀ fuel s, (∀ n ∈ s.reg.names, n ∈ (TmplIncludeAll E fs order fuel s).st.reg.names) ∧
      (pending offered s < fuel → (TmplIncludeAll E fs order fuel s).flow ≠ .fuel) := by
  intro fuel
  induction fuel with
  | zero => exact fun s => ⟨fun n h => h, fun h => absurd h (Nat.not_lt_zero _)⟩
  | succ k ih =>
    intro s
    have refl : ∀ s : TState, (∀ n ∈ s.reg.names, n ∈ s.reg.names) ∧
        (pending offered s < k + 1 → Flow.next ≠ Flow.fuel) :=
      fun s => ⟨fun n h => h, fun _ => by simp⟩
    have trans : ∀ (s s1 : TState) (r : Result),
        ((∀ n ∈ s.reg.names, n ∈ s1.reg.names) ∧
          (pending offered s < k + 1 → Flow.next ≠ Flow.fuel)) →
        ((∀ n ∈ s1.reg.names, n ∈ r.st.reg.names) ∧
          (pending offered s1 < k + 1 → r.flow ≠ Flow.fuel)) →
        ((∀ n ∈ s.reg.names, n ∈ r.st.reg.names) ∧
          (pending offered s < k + 1 → r.flow ≠ Flow.fuel)) := by
      intro s s1 r h1 h2
      exact ⟨fun n h => h2.1 n (h1.1 n h),
        fun h => h2.2 (Nat.lt_of_le_of_lt (pending_le offered s s1 h1.1) h)⟩
    rw [TmplIncludeAll_succ]
    apply loop_rel _ (fun s r => (∀ n ∈ s.reg.names, n ∈ r.st.reg.names) ∧
      (pending offered s < k + 1 → r.flow ≠ .fuel)) _ refl trans
    intro s1 name root _ _
    apply walkRefs_rel E fs _ (fun s r => (∀ n ∈ s.reg.names, n ∈ r.st.reg.names) ∧
      (pending offered s < k + 1 → r.flow ≠ .fuel)) _ refl trans
    intro s2 m _
    by_cases hm : m ∈ s2.reg.names
    · rw [includeName_registered E fs _ s2 m hm]
      exact refl s2
    · rcases includeName_fresh E fs (TmplIncludeAll E fs order k) s2 m hm with
        ⟨e, he, h⟩ | ⟨f, b, p, hf, hd, hp, h⟩
      · rw [h]
        exact ⟨fun n hn => (Registry.mem_names_New _ _ _).2 (Or.inl hn), fun _ => by simp⟩
      · rw [h]
        have hsub : ∀ n, n ∈ s2.reg.names ∨ n = m → n ∈ ((s2.reg.New m).Parse m p).names :=
          fun n hn => (Registry.names_subset_Parse _ m p).1 n
            ((Registry.mem_names_New _ _ _).2 hn)
        have hk := ih { reg := (s2.reg.New m).Parse m p, fetched := s2.fetched ++ [m] }
        refine ⟨fun n hn => hk.1 n (hsub n (Or.inl hn)), fun hlt => hk.2 ?_⟩
        have := pending_lt offered s2
          { reg := (s2.reg.New m).Parse m p, fetched := s2.fetched ++ [m] } m
          (fun n hn => hsub n (Or.inl hn)) (hfin m f hf) hm (hsub m (Or.inr rfl))
        omega

/-! ### More fuel does not change a run that ended -/

theorem FetchError_not_ok (E : Engine) (fs : FileSystem) (name : GoString) (e : GoError)
    (f : File) (b : GoString) (p : Parsed) (he : FetchError E fs name e)
    (hf : fs name = .ok f) (hd : f.data = .ok b) (hp : E.Parse name b = .ok p) : False := by
  rcases he with he | ⟨f', hf', he⟩ | ⟨f', b', hf', hd', he⟩
  · rw [hf] at he; exact Except.noConfusion he
  · rw [hf] at hf'; cases hf'
    rw [hd] at he; exact Except.noConfusion he
  · rw [hf] at hf'; cases hf'
    rw [hd] at hd'; cases hd'
    rw [hp] at he; exact Except.noConfusion he

theorem FetchError_unique (E : Engine) (fs : FileSystem) (name : GoString) (e e' : GoError)
    (he : FetchError E fs name e) (he' : FetchError E fs name e') : e = e' := by
  rcases he with he | ⟨f, hf, he⟩ | ⟨f, b, hf, hd, he⟩
  · rcases he' with he' | ⟨f', hf', he'⟩ | ⟨f', b', hf', hd', he'⟩
    · rw [he] at he'; cases he'; rfl
    · rw [he] at hf'; exact Except.noConfusion hf'
    · rw [he] at hf'; exact Except.noConfusion hf'
  · rcases he' with he' | ⟨f', hf', he'⟩ | ⟨f', b', hf', hd', he'⟩
    · rw [hf] at he'; exact Except.noConfusion he'
    · rw [hf] at hf'; cases hf'
      rw [he] at he'; cases he'; rfl
    · rw [hf] at hf'; cases hf'
      rw [he] at hd'; exact Except.noConfusion hd'
  · rcases he' with he' | ⟨f', hf', he'⟩ | ⟨f', b', hf', hd', he'⟩
    · rw [hf] at he'; exact Except.noConfusion he'
    · rw [hf] at hf'; cases hf'
      rw [hd] at he'; exact Except.noConfusion he'
    · rw [hf] at hf'; cases hf'
      rw [hd] at hd'; cases hd'
      rw [he] at he'; cases he'; rfl

theorem includeName_congr (E : Engine) (fs : FileSystem) (all all' : TState → Result)
    (hall : ∀ s, (all s).flow ≠ .fuel → all' s = all s) (s : TState) (name : GoString)
    (h : (includeName E fs all s name).flow ≠ .fuel) :
    includeName E fs all' s name = includeName E fs all s name := by
  by_cases hm : name ∈ s.reg.names
  · rw [includeName_registered E fs all s name hm, includeName_registered E fs all' s name hm]
  · rcases includeName_fresh E fs all s name hm with ⟨e, he, h1⟩ | ⟨f, b, p, hf, hd, hp, h1⟩
    · rcases includeName_fresh E fs all' s name hm with
        ⟨e', he', h2⟩ | ⟨f, b, p, hf, hd, hp, _⟩
      · rw [h1, h2, FetchError_unique E fs name e e' he he']
      · exact (FetchError_not_ok E fs name e f b p he hf hd hp).elim
    · rcases includeName_fresh E fs all' s name hm with
        ⟨e', he', _⟩ | ⟨f', b', p', hf', hd', hp', h2⟩
      · exact (FetchError_not_ok E fs name e' f b p he' hf hd hp).elim
      · rw [hf] at hf'; cases hf'
        rw [hd] at hd'; cases hd'
        rw [hp] at hp'; cases hp'
        rw [h1, h2]
        rw [h1] at h
        exact hall _ h

theorem walkRefs_congr (E : Engine) (fs : FileSystem) (all all' : TState → Result)
    (hall : ∀ s, (all s).flow ≠ .fuel → all' s = all s) (l : List GoString) :
    ∀ s, (walkRefs E fs all s l).flow ≠ .fuel →
      walkRefs E fs all' s l = walkRefs E fs all s l := by
  induction l with
  | nil => exact fun s _ => rfl
  | cons n ns ih =>
    intro s h
    rw [walkRefs] at h ⊢
    rw [walkRefs]
    rcases hi : includeName E fs all s n with ⟨flow, s1⟩
    rw [hi] at h
    have hc := includeName_congr E fs all all' hall s n
    rw [hi] at hc
    cases flow with
    | next =>
      rw [hc (by simp)]
      exact ih s1 h
    | fail e => rw [hc (by simp)]
    | fuel => exact absurd rfl h

theorem loop_congr (visit visit' : TState → List Node → Result)
    (hv : ∀ s root, (visit s root).flow ≠ .fuel → visit' s root = visit s root)
    (l : List GoString) :
    ∀ s, (TmplIncludeAll.loop visit l s).flow ≠ .fuel →
      TmplIncludeAll.loop visit' l s = TmplIncludeAll.loop visit l s := by
  induction l with
  | nil => exact fun s _ => rfl
  | cons n ns ih =>
    intro s h
    rw [TmplIncludeAll.loop] at h ⊢
    rw [TmplIncludeAll.loop]
    cases hl : s.reg.lookup n with
    | none =>
      rw [hl] at h
      exact ih s h
    | some t =>
      rw [hl] at h
      cases t with
      | none => exact ih s h
      | some root =>
        simp only [] at h ⊢
        rcases hi : visit s root with ⟨flow, s1⟩
        rw [hi] at h
        have hc := hv s root
        rw [hi] at hc
        cases flow with
        | next =>
          rw [hc (by simp)]
          exact ih s1 h
        | fail e => rw [hc (by simp)]
        | fuel => exact absurd rfl h

/-- A run that ended (with success or with an error) ends the same way on more fuel. -/
theorem TmplIncludeAll_more_fuel (E : Engine) (fs : FileSystem)
    (order : List GoString → List GoString) (k : Nat) :
    ∀ s, (TmplIncludeAll E fs order k s).flow ≠ .fuel →
      ∀ j, k ≤ j → TmplIncludeAll E fs order j s = TmplIncludeAll E fs order k s := by
  have one : ∀ k s, (TmplIncludeAll E fs order k s).flow ≠ .fuel →
      TmplIncludeAll E fs order (k + 1) s = TmplIncludeAll E fs order k s := by
    intro k
    induction k with
    | zero => exact fun s h => absurd rfl h
    | succ k ih =>
      intro s h
      rw [TmplIncludeAll_succ] at h
      rw [TmplIncludeAll_succ E fs order (k + 1), TmplIncludeAll_succ E fs order k]
      exact loop_congr _ _ (fun s1 root h1 => walkRefs_congr E fs _ _ ih _ s1 h1) _ s h
  intro s h j hj
  induction j with
  | zero =>
    have : k = 0 := by omega
    rw [this]
  | succ j ihj =>
    by_cases hk : k = j + 1
    · rw [hk]
    · have hle : k ≤ j := by omega
      have hj' := ihj hle
      rw [← hj']
      apply one
      rw [hj']
      exact h

/-- C4: template resolution terminates on self-referential and mutually-referential
templates and resolves each name at most once. For every template set to start from
and every includes collaborator offering finitely many names, in whatever order the set
is listed: with enough fuel for the nested calls (one more than the number of offered
names not yet registered), `TmplIncludeAll` returns, with the same result on any larger
fuel; on every fuel no name is passed to `fs.Open` twice; and a template reference whose
name is already registered is a no-op. -/
theorem TmplIncludeAll_terminates (E : Engine) (fs : FileSystem)
    (order : List GoString → List GoString) (offered : List GoString) (reg : Registry)
    (hfin : OffersOnly fs offered) :
    (∀ fuel, offered.length < fuel →
      (TmplIncludeAll E fs order fuel ⟨reg, []⟩).flow ≠ .fuel ∧
      TmplIncludeAll E fs order fuel ⟨reg, []⟩ =
        TmplIncludeAll E fs order (offered.length + 1) ⟨reg, []⟩) ∧
    (∀ fuel, (TmplIncludeAll E fs order fuel ⟨reg, []⟩).st.fetched.Nodup) ∧
    (∀ (all : TState → Result) (s : TState) (name : GoString), name ∈ s.reg.names →
      TmplIncludeNode E fs all s (.template name) = ⟨.next, s⟩) := by
  have hpend : ∀ s : TState, pending offered s ≤ offered.length := fun s =>
    List.length_filter_le _ _
  have hfuel : (TmplIncludeAll E fs order (offered.length + 1) ⟨reg, []⟩).flow ≠ .fuel :=
    (TmplIncludeAll_fuel E fs order offered hfin (offered.length + 1) ⟨reg, []⟩).2
      (Nat.lt_succ_of_le (hpend _))
  refine ⟨?_, ?_, ?_⟩
  · intro fuel hlt
    have heq := TmplIncludeAll_more_fuel E fs order (offered.length + 1) ⟨reg, []⟩ hfuel fuel hlt
    exact ⟨heq ▸ hfuel, heq⟩
  · intro fuel
    exact (TmplIncludeAll_LogOk E fs order fuel ⟨reg, []⟩
      ⟨List.nodup_nil, fun n h => absurd h (List.not_mem_nil n)⟩).1
  · intro all s name h
    exact includeName_registered E fs all s name h

theorem dirFS_offersOnly (files : List (GoString × GoString)) :
    OffersOnly (dirFS files) (files.map Prod.fst) := by
  intro name f h
  unfold dirFS at h
  cases hl : files.lookup name with
  | none => rw [hl] at h; exact Except.noConfusion h
  | some d =>
    clear h
    induction files with
    | nil => simp [List.lookup] at hl
    | cons a t ih =>
      obtain ⟨k, v⟩ := a
      by_cases hk : name = k
      · simp [hk]
      · have : (name == k) = false := by simpa using hk
        simp only [List.lookup, this] at hl
        simp [ih hl]

/-- A page over includes that refer to themselves and to each other: `a` and `b` are fetched once each and the run ends. -/
theorem TmplIncludeAll_terminates_witness :
    OffersOnly cyclicIncludes ["a".toList, "b".toList] ∧
    (TmplIncludeAll demoEngine cyclicIncludes id 3 ⟨cyclicPage, []⟩).flow = .next ∧
    (TmplIncludeAll demoEngine cyclicIncludes id 3 ⟨cyclicPage, []⟩).st.fetched =
      ["a".toList, "b".toList] ∧
    (TmplIncludeAll demoEngine cyclicIncludes id 3 ⟨cyclicPage, []⟩).st.fetched.Nodup :=
  ⟨dirFS_offersOnly _, by decide, by decide,
    (TmplIncludeAll_terminates demoEngine cyclicIncludes id ["a".toList, "b".toList] cyclicPage
      (dirFS_offersOnly _)).2.1 3⟩

/-! ### Template inclusion without nested definitions: the set reached -/

theorem Registry.lookup_append_of_mem (reg r2 : Registry) (n : GoString) (h : n ∈ reg.names) :
    (reg ++ r2).lookup n = reg.lookup n := by
  unfold Registry.lookup
  rw [List.find?_append]
  have : (reg.find? (fun e => e.1 == n)).isSome = true := by
    rw [List.find?_isSome]
    obtain ⟨e, he, hn⟩ := List.mem_map.1 h
    exact ⟨e, he, by simp [hn]⟩
  cases hf : reg.find? (fun e => e.1 == n) with
  | none => rw [hf] at this; exact Bool.noConfusion this
  | some e => rfl

theorem Registry.lookup_append_fresh (reg : Registry) (m : GoString) (t : Option (List Node))
    (h : m ∉ reg.names) : (reg ++ [(m, t)]).lookup m = some t := by
  have hnone : reg.find? (fun e => e.1 == m) = none := by
    rw [List.find?_eq_none]
    intro e he heq
    exact h (List.mem_map.2 ⟨e, he, by simpa using heq⟩)
  unfold Registry.lookup
  rw [List.find?_append, hnone]
  simp

theorem Registry.Parse_fresh (reg : Registry) (m : GoString) (p : Parsed)
    (h : m ∉ reg.names) (hd : p.defs = []) :
    (reg.New m).Parse m p = reg ++ [(m, some p.body)] := by
  have hc : reg.names.contains m = false := by simpa using h
  have hnew : reg.New m = reg ++ [(m, none)] := by
    unfold Registry.New
    rw [hc]
    rfl
  unfold Registry.Parse
  rw [hd, List.foldl_nil, hnew]
  unfold Registry.define
  rw [Registry.lookup_append_fresh reg m none h]
  simp only [Registry.setTree, List.map_append, List.map_cons, List.map_nil, beq_self_eq_true,
    if_true]
  congr 1
  conv_rhs => rw [← List.map_id reg]
  apply List.map_congr_left
  intro e he
  have : ¬ e.1 = m := fun heq => h (List.mem_map.2 ⟨e, he, heq⟩)
  simp [this]

theorem fetchBody_of_ok (E : Engine) (fs : FileSystem) (name : GoString) (f : File)
    (b : GoString) (p : Parsed) (hf : fs name = .ok f) (hd : f.data = .ok b)
    (hp : E.Parse name b = .ok p) : fetchBody E fs name = some p.body := by
  simp [fetchBody, hf, hd, hp]

theorem fetchBody_of_error (E : Engine) (fs : FileSystem) (name : GoString) (e : GoError)
    (h : FetchError E fs name e) : fetchBody E fs name = none := by
  rcases h with h | ⟨f, hf, h⟩ | ⟨f, b, hf, hd, h⟩
  · simp [fetchBody, h]
  · simp [fetchBody, hf, h]
  · simp [fetchBody, hf, hd, h]

theorem treeOf_of_not_mem (E : Engine) (fs : FileSystem) (reg : Registry) (n : GoString)
    (h : n ∉ reg.names) : treeOf E fs reg n = fetchBody E fs n := by
  unfold treeOf
  rw [(Registry.lookup_eq_none_iff reg n).2 h]

theorem Tracks_start (E : Engine) (fs : FileSystem) (reg : Registry) (log : List GoString) :
    Tracks E fs reg ⟨reg, log⟩ := by
  refine ⟨fun n h => h, fun n h => .init h, ?_, fun n h hn => absurd h hn⟩
  intro n h
  show reg.lookup n = some (treeOf E fs reg n)
  unfold treeOf
  cases hl : reg.lookup n with
  | none => exact absurd h ((Registry.lookup_eq_none_iff reg n).1 hl)
  | some t => rfl

theorem ClosedAt.mono {E : Engine} {fs : FileSystem} {reg : Registry} {s s1 : TState}
    {n : GoString} (h : ClosedAt E fs reg s n) (hsub : ∀ m ∈ s.reg.names, m ∈ s1.reg.names) :
    ClosedAt E fs reg s1 n :=
  fun root hr m hm => hsub m (h root hr m hm)

theorem Follows.refl (E : Engine) (fs : FileSystem) (reg : Registry) (s : TState) :
    Follows E fs reg s ⟨.next, s⟩ :=
  ⟨fun _ h => h, fun ht => ⟨fun _ => ⟨ht, fun _ h hn => absurd h hn⟩,
    fun _ he => Flow.noConfusion he⟩⟩

theorem Follows.trans (E : Engine) (fs : FileSystem) (reg : Registry) (s s1 : TState)
    (r : Result) (h1 : Follows E fs reg s ⟨.next, s1⟩) (h2 : Follows E fs reg s1 r) :
    Follows E fs reg s r := by
  refine ⟨fun n h => h2.1 n (h1.1 n h), ?_⟩
  intro ht
  obtain ⟨ht1, hc1⟩ := (h1.2 ht).1 rfl
  obtain ⟨hnext, hfail⟩ := h2.2 ht1
  refine ⟨?_, hfail⟩
  intro hflow
  obtain ⟨ht2, hc2⟩ := hnext hflow
  refine ⟨ht2, ?_⟩
  intro n hn hns
  by_cases hn1 : n ∈ s1.reg.names
  · exact (hc1 n hn1 hns).mono h2.1
  · exact hc2 n hn hn1

/-- Including a reachable name follows the run, provided the nested run does. -/
theorem includeName_follows (E : Engine) (fs : FileSystem) (reg : Registry)
    (all : TState → Result) (hdefs : NoNestedDefinitions E fs)
    (hmono : ∀ s, ∀ n ∈ s.reg.names, n ∈ (all s).st.reg.names)
    (hall : ∀ s, Tracks E fs reg s →
      ((all s).flow = .next → Tracks E fs reg (all s).st ∧
        ∀ n ∈ (all s).st.reg.names, ClosedAt E fs reg (all s).st n) ∧
      (∀ e, (all s).flow = .fail e →
        ∃ n, Reach E fs reg n ∧ n ∉ reg.names ∧ FetchError E fs n e))
    (m : GoString) (hreach : Reach E fs reg m) (s : TState) :
    Follows E fs reg s (includeName E fs all s m) := by
  by_cases hm : m ∈ s.reg.names
  · rw [includeName_registered E fs all s m hm]
    exact Follows.refl E fs reg s
  · rcases includeName_fresh E fs all s m hm with ⟨e, he, h⟩ | ⟨f, b, p, hf, hd, hp, h⟩
    · rw [h]
      refine ⟨fun n hn => (Registry.mem_names_New _ _ _).2 (Or.inl hn), ?_⟩
      intro ht
      refine ⟨fun hflow => Flow.noConfusion hflow, ?_⟩
      intro e' he'
      cases he'
      exact ⟨m, hreach, fun h0 => hm (ht.1 m h0), he⟩
    · rw [h]
      have hp' := Registry.Parse_fresh s.reg m p hm (hdefs m f b p hf hd hp)
      rw [hp']
      have hsub : ∀ n ∈ s.reg.names, n ∈ (s.reg ++ [(m, some p.body)]).names := by
        intro n hn
        simp only [Registry.names, List.map_append, List.mem_append]
        exact Or.inl hn
      have hmem : ∀ n, n ∈ (s.reg ++ [(m, some p.body)]).names → n ∈ s.reg.names ∨ n = m := by
        intro n hn
        simpa [Registry.names] using hn
      refine ⟨fun n hn => hmono _ n (hsub n hn), ?_⟩
      intro ht
      have hm0 : m ∉ reg.names := fun h0 => hm (ht.1 m h0)
      have hbody := fetchBody_of_ok E fs m f b p hf hd hp
      have ht2 : Tracks E fs reg ⟨s.reg ++ [(m, some p.body)], s.fetched ++ [m]⟩ := by
        refine ⟨fun n hn => hsub n (ht.1 n hn), ?_, ?_, ?_⟩
        · intro n hn
          rcases hmem n hn with h1 | h1
          · exact ht.2.1 n h1
          · rw [h1]; exact hreach
        · intro n hn
          rcases hmem n hn with h1 | h1
          · show (s.reg ++ [(m, some p.body)]).lookup n = _
            rw [Registry.lookup_append_of_mem _ _ n h1]
            exact ht.2.2.1 n h1
          · rw [h1]
            show (s.reg ++ [(m, some p.body)]).lookup m = _
            rw [Registry.lookup_append_fresh _ _ _ hm, treeOf_of_not_mem E fs reg m hm0, hbody]
        · intro n hn hn0
          rcases hmem n hn with h1 | h1
          · exact ht.2.2.2 n h1 hn0
          · rw [h1, hbody]; rfl
      obtain ⟨hnext, hfail⟩ := hall _ ht2
      refine ⟨?_, hfail⟩
      intro hflow
      obtain ⟨ht3, hc3⟩ := hnext hflow
      exact ⟨ht3, fun n hn _ => hc3 n hn⟩

theorem includeName_names_mono (E : Engine) (fs : FileSystem) (all : TState → Result)
    (hmono : ∀ s, ∀ n ∈ s.reg.names, n ∈ (all s).st.reg.names) (s : TState) (m : GoString) :
    (∀ n ∈ s.reg.names, n ∈ (includeName E fs all s m).st.reg.names) ∧
    ((includeName E fs all s m).flow = .next → m ∈ (includeName E fs all s m).st.reg.names) := by
  by_cases hm : m ∈ s.reg.names
  · rw [includeName_registered E fs all s m hm]
    exact ⟨fun n h => h, fun _ => hm⟩
  · rcases includeName_fresh E fs all s m hm with ⟨e, _, h⟩ | ⟨f, b, p, _, _, _, h⟩
    · rw [h]
      exact ⟨fun n hn => (Registry.mem_names_New _ _ _).2 (Or.inl hn),
        fun hflow => Flow.noConfusion hflow⟩
    · rw [h]
      have hsub : ∀ n, n ∈ s.reg.names ∨ n = m → n ∈ ((s.reg.New m).Parse m p).names :=
        fun n hn => (Registry.names_subset_Parse _ m p).1 n
          ((Registry.mem_names_New _ _ _).2 hn)
      exact ⟨fun n hn => hmono _ n (hsub n (Or.inl hn)), fun _ => hmono _ m (hsub m (Or.inr rfl))⟩

/-- A walk that ran to its end leaves every reference it met registered. -/
theorem walkRefs_visited (E : Engine) (fs : FileSystem) (all : TState → Result)
    (hmono : ∀ s, ∀ n ∈ s.reg.names, n ∈ (all s).st.reg.names) (l : List GoString) :
    ∀ s, (∀ n ∈ s.reg.names, n ∈ (walkRefs E fs all s l).st.reg.names) ∧
      ((walkRefs E fs all s l).flow = .next →
        ∀ m ∈ l, m ∈ (walkRefs E fs all s l).st.reg.names) := by
  induction l with
  | nil => exact fun s => ⟨fun n h => h, fun _ m hm => absurd hm (List.not_mem_nil m)⟩
  | cons a t ih =>
    intro s
    have hi := includeName_names_mono E fs all hmono s a
    rw [walkRefs]
    rcases h : includeName E fs all s a with ⟨flow, s1⟩
    rw [h] at hi
    cases flow with
    | next =>
      simp only []
      have ih1 := ih s1
      refine ⟨fun n hn => ih1.1 n (hi.1 n hn), ?_⟩
      intro hflow m hm
      rcases List.mem_cons.1 hm with rfl | hm'
      · exact ih1.1 _ (hi.2 rfl)
      · exact ih1.2 hflow m hm'
    | fail e => exact ⟨hi.1, fun hflow => Flow.noConfusion hflow⟩
    | fuel => exact ⟨hi.1, fun hflow => Flow.noConfusion hflow⟩

/-- The tracked run: from a tracked state, a run that succeeds leaves a tracked state in
which every registered name is closed, and a run that fails fails on the fetch of a
reachable name. -/
theorem TmplIncludeAll_tracks (E : Engine) (fs : FileSystem) (reg : Registry)
    (order : List GoString → List GoString) (hdefs : NoNestedDefinitions E fs)
    (hcover : ∀ l n, n ∈ l → n ∈ order l) :
    ∀ fuel s, Tracks E fs reg s →
      ((TmplIncludeAll E fs order fuel s).flow = .next →
        Tracks E fs reg (TmplIncludeAll E fs order fuel s).st ∧
        ∀ n ∈ (TmplIncludeAll E fs order fuel s).st.reg.names,
          ClosedAt E fs reg (TmplIncludeAll E fs order fuel s).st n) ∧
      (∀ e, (TmplIncludeAll E fs order fuel s).flow = .fail e →
        ∃ n, Reach E fs reg n ∧ n ∉ reg.names ∧ FetchError E fs n e) := by
  intro fuel
  induction fuel with
  | zero =>
    intro s _
    exact ⟨fun h => Flow.noConfusion h, fun e h => Flow.noConfusion h⟩
  | succ k ih =>
    have hmono := TmplIncludeAll_names_mono E fs order k
    -- each visit of a template follows the run
    have hvisit : ∀ (s : TState) (name : GoString) (root : List Node),
        s.reg.lookup name = some (some root) →
        Follows E fs reg s
          (walkRefs E fs (TmplIncludeAll E fs order k) s (refsOfNodes root)) := by
      intro s name root hl
      refine ⟨(walkRefs_visited E fs _ hmono _ s).1, ?_⟩
      intro ht
      have hname : name ∈ s.reg.names := by
        by_contra hn
        rw [(Registry.lookup_eq_none_iff _ _).2 hn] at hl
        exact Option.noConfusion hl
      have htree : treeOf E fs reg name = some root := by
        have := ht.2.2.1 name hname
        rw [hl] at this
        exact (Option.some.inj this).symm
      have hreach : ∀ m ∈ refsOfNodes root, Reach E fs reg m := fun m hm =>
        .step (ht.2.1 name hname) htree ((mem_refsOfNodes_iff m root).1 hm)
      exact (walkRefs_rel E fs _ (Follows E fs reg) (refsOfNodes root)
        (Follows.refl E fs reg) (Follows.trans E fs reg)
        (fun s1 m hm => includeName_follows E fs reg _ hdefs hmono ih m (hreach m hm) s1) s).2 ht
    -- the loop follows the run, and closes every template it visits
    have hloop : ∀ (l : List GoString) (s : TState), Tracks E fs reg s →
        (TmplIncludeAll.loop (fun s1 root => walkRefs E fs (TmplIncludeAll E fs order k) s1
          (refsOfNodes root)) l s).flow = .next →
        ∀ name ∈ l, name ∈ s.reg.names →
          ClosedAt E fs reg (TmplIncludeAll.loop (fun s1 root =>
            walkRefs E fs (TmplIncludeAll E fs order k) s1 (refsOfNodes root)) l s).st name := by
      intro l
      induction l with
      | nil => exact fun s _ _ name hm => absurd hm (List.not_mem_nil name)
      | cons a t iht =>
        intro s ht hflow name hmem hreg
        have hrest := loop_rel (fun s1 root => walkRefs E fs (TmplIncludeAll E fs order k) s1
          (refsOfNodes root)) (Follows E fs reg) t (Follows.refl E fs reg)
          (Follows.trans E fs reg) (fun s1 nm root _ hl => hvisit s1 nm root hl)
        rw [TmplIncludeAll.loop] at hflow ⊢
        cases hl : s.reg.lookup a with
        | none =>
          rw [hl] at hflow
          simp only [] at hflow ⊢
          rcases List.mem_cons.1 hmem with rfl | hm'
          · exact absurd hreg ((Registry.lookup_eq_none_iff _ _).1 hl)
          · exact iht s ht hflow name hm' hreg
        | some tr =>
          rw [hl] at hflow
          cases tr with
          | none =>
            simp only [] at hflow ⊢
            rcases List.mem_cons.1 hmem with rfl | hm'
            · intro root hroot
              have := ht.2.2.1 name hreg
              rw [hl, hroot] at this
              exact Option.noConfusion (Option.some.inj this)
            · exact iht s ht hflow name hm' hreg
          | some root =>
            simp only [] at hflow ⊢
            have hv := hvisit s a root hl
            have hvis := walkRefs_visited E fs _ hmono (refsOfNodes root) s
            rcases hw : walkRefs E fs (TmplIncludeAll E fs order k) s (refsOfNodes root) with
              ⟨flow, s1⟩
            rw [hw] at hflow hv hvis
            cases flow with
            | next =>
              simp only [] at hflow ⊢
              obtain ⟨ht1, -⟩ := (hv.2 ht).1 rfl
              rcases List.mem_cons.1 hmem with rfl | hm'
              · intro root' hroot' m hm
                have htree := ht.2.2.1 name hreg
                rw [hl, hroot'] at htree
                have hrr : root = root' := Option.some.inj (Option.some.inj htree)
                rw [← hrr] at hm
                exact (hrest s1).1 m (hvis.2 rfl m hm)
              · exact iht s1 ht1 hflow name hm' (hv.1 name hreg)
            | fail e => exact Flow.noConfusion hflow
            | fuel => exact Flow.noConfusion hflow
    intro s ht
    have hfol := loop_rel (fun s1 root => walkRefs E fs (TmplIncludeAll E fs order k) s1
      (refsOfNodes root)) (Follows E fs reg) (order s.reg.names) (Follows.refl E fs reg)
      (Follows.trans E fs reg) (fun s1 nm root _ hl => hvisit s1 nm root hl) s
    rw [TmplIncludeAll_succ]
    obtain ⟨hnext, hfail⟩ := hfol.2 ht
    refine ⟨?_, hfail⟩
    intro hflow
    obtain ⟨ht1, hc1⟩ := hnext hflow
    refine ⟨ht1, ?_⟩
    intro n hn
    by_cases hns : n ∈ s.reg.names
    · exact hloop (order s.reg.names) s ht hflow n (hcover _ n hns) hns
    · exact hc1 n hn hns

/-- In a tracked state where every registered name is closed, every reachable name is
registered. -/
theorem Reach.registered {E : Engine} {fs : FileSystem} {reg : Registry} {s : TState}
    (ht : Tracks E fs reg s) (hc : ∀ n ∈ s.reg.names, ClosedAt E fs reg s n) {n : GoString}
    (h : Reach E fs reg n) : n ∈ s.reg.names := by
  induction h with
  | init h0 => exact ht.1 _ h0
  | step _ htree hmention ih => exact hc _ ih _ htree _ ((mem_refsOfNodes_iff _ _).2 hmention)

/-- How a run with enough fuel ends when no include carries nested definitions: it
succeeds with exactly the reachable names registered, all of them fetchable; or it fails
with the fetch error of a reachable name. -/
theorem TmplIncludeAll_outcome (E : Engine) (fs : FileSystem) (reg : Registry)
    (order : List GoString → List GoString) (offered : List GoString)
    (hfin : OffersOnly fs offered) (hdefs : NoNestedDefinitions E fs)
    (hcover : ∀ l n, n ∈ l → n ∈ order l) (fuel : Nat) (hf : offered.length < fuel) :
    ((TmplIncludeAll E fs order fuel ⟨reg, []⟩).flow = .next ∧
      (∀ n, n ∈ (TmplIncludeAll E fs order fuel ⟨reg, []⟩).st.reg.names ↔ Reach E fs reg n) ∧
      (∀ n, Reach E fs reg n → n ∉ reg.names → (fetchBody E fs n).isSome = true)) ∨
    (∃ e n, (TmplIncludeAll E fs order fuel ⟨reg, []⟩).flow = .fail e ∧
      Reach E fs reg n ∧ n ∉ reg.names ∧ FetchError E fs n e) := by
  have hpend : pending offered ⟨reg, []⟩ < fuel :=
    Nat.lt_of_le_of_lt (List.length_filter_le _ _) hf
  have hfuel := (TmplIncludeAll_fuel E fs order offered hfin fuel ⟨reg, []⟩).2 hpend
  obtain ⟨hnext, hfail⟩ := TmplIncludeAll_tracks E fs reg order hdefs hcover fuel ⟨reg, []⟩
    (Tracks_start E fs reg [])
  rcases hr : TmplIncludeAll E fs order fuel ⟨reg, []⟩ with ⟨flow, s1⟩
  rw [hr] at hnext hfail hfuel
  cases flow with
  | next =>
    obtain ⟨ht, hc⟩ := hnext rfl
    exact Or.inl ⟨rfl, fun n => ⟨fun h => ht.2.1 n h, fun h => Reach.registered ht hc h⟩,
      fun n h h0 => ht.2.2.2 n (Reach.registered ht hc h) h0⟩
  | fail e =>
    obtain ⟨n, h1, h2, h3⟩ := hfail e rfl
    exact Or.inr ⟨e, n, rfl, h1, h2, h3⟩
  | fuel => exact absurd rfl hfuel

/-- C5 (as the code has it): when the includes collaborator offers finitely many names
and no include source carries nested definitions (`define` blocks), template resolution
yields the same set of registered names in whatever order the registry's templates are
listed. Any two runs of `TmplIncludeAll` from the same template set either both fail or
both succeed with the same name set, and on success that set is exactly the names
initially registered plus every name reachable from them through template references
nested inside sequence, conditional, iteration and scoped-rebind nodes. -/
theorem resolution_order_independent (E : Engine) (fs : FileSystem) (reg : Registry)
    (order₁ order₂ : List GoString → List GoString) (offered : List GoString)
    (hfin : OffersOnly fs offered) (hdefs : NoNestedDefinitions E fs)
    (hperm₁ : ∀ l, (order₁ l).Perm l) (hperm₂ : ∀ l, (order₂ l).Perm l)
    (fuel₁ fuel₂ : Nat) (hf₁ : offered.length < fuel₁) (hf₂ : offered.length < fuel₂) :
    (∃ e₁ e₂, (TmplIncludeAll E fs order₁ fuel₁ ⟨reg, []⟩).flow = .fail e₁ ∧
      (TmplIncludeAll E fs order₂ fuel₂ ⟨reg, []⟩).flow = .fail e₂) ∨
    ((TmplIncludeAll E fs order₁ fuel₁ ⟨reg, []⟩).flow = .next ∧
      (TmplIncludeAll E fs order₂ fuel₂ ⟨reg, []⟩).flow = .next ∧
      (∀ n, n ∈ (TmplIncludeAll E fs order₁ fuel₁ ⟨reg, []⟩).st.reg.names ↔
        n ∈ (TmplIncludeAll E fs order₂ fuel₂ ⟨reg, []⟩).st.reg.names) ∧
      (∀ n, n ∈ (TmplIncludeAll E fs order₁ fuel₁ ⟨reg, []⟩).st.reg.names ↔
        Reach E fs reg n)) := by
  have h1 := TmplIncludeAll_outcome E fs reg order₁ offered hfin hdefs
    (fun l n h => ((hperm₁ l).mem_iff).2 h) fuel₁ hf₁
  have h2 := TmplIncludeAll_outcome E fs reg order₂ offered hfin hdefs
    (fun l n h => ((hperm₂ l).mem_iff).2 h) fuel₂ hf₂
  rcases h1 with ⟨hn1, hs1, hg1⟩ | ⟨e1, n1, hfl1, hr1, h01, he1⟩
  · rcases h2 with ⟨hn2, hs2, _⟩ | ⟨e2, n2, _, hr2, h02, he2⟩
    · exact Or.inr ⟨hn1, hn2, fun n => (hs1 n).trans (hs2 n).symm, hs1⟩
    · have := hg1 n2 hr2 h02
      rw [fetchBody_of_error E fs n2 e2 he2] at this
      exact Bool.noConfusion this
  · rcases h2 with ⟨_, _, hg2⟩ | ⟨e2, n2, hfl2, _, _, _⟩
    · have := hg2 n1 hr1 h01
      rw [fetchBody_of_error E fs n1 e1 he1] at this
      exact Bool.noConfusion this
    · exact Or.inl ⟨e1, e2, hfl1, hfl2⟩

theorem dirFS_noNested (files : List (GoString × GoString))
    (h : ∀ kv ∈ files, (demoParse kv.2).defs.length = 0) :
    NoNestedDefinitions demoEngine (dirFS files) := by
  intro name f b p hf hd hp
  have hmem : ∃ d, (name, d) ∈ files ∧ f.data = .ok d := by
    unfold dirFS at hf
    cases hl : files.lookup name with
    | none => rw [hl] at hf; exact Except.noConfusion hf
    | some d =>
      rw [hl] at hf
      refine ⟨d, ?_, ?_⟩
      · clear hf
        induction files with
        | nil => simp [List.lookup] at hl
        | cons a t ih =>
          obtain ⟨k, v⟩ := a
          by_cases hk : name = k
          · subst hk
            simp only [List.lookup, beq_self_eq_true] at hl
            cases hl
            exact List.mem_cons_self _ _
          · have hk' : (name == k) = false := by simpa using hk
            simp only [List.lookup, hk'] at hl
            exact List.mem_cons_of_mem _
              (ih (fun kv hkv => h kv (List.mem_cons_of_mem _ hkv)) hl)
      · cases hf; rfl
  obtain ⟨d, hdm, hdata⟩ := hmem
  rw [hd] at hdata
  cases hdata
  have hp' : p = demoParse b := by
    have : demoEngine.Parse name b = .ok (demoParse b) := rfl
    rw [this] at hp
    cases hp; rfl
  rw [hp']
  exact List.length_eq_zero.1 (h (name, b) hdm)

/-- Over the cyclic includes, listing templates oldest first or newest first registers the same names. -/
theorem resolution_order_independent_witness :
    (TmplIncludeAll demoEngine cyclicIncludes id 3 ⟨cyclicPage, []⟩).flow = .next ∧
    (TmplIncludeAll demoEngine cyclicIncludes List.reverse 3 ⟨cyclicPage, []⟩).flow = .next ∧
    (TmplIncludeAll demoEngine cyclicIncludes id 3 ⟨cyclicPage, []⟩).st.reg.names =
      ["__page__".toList, "a".toList, "b".toList] ∧
    ∀ n, n ∈ (TmplIncludeAll demoEngine cyclicIncludes id 3 ⟨cyclicPage, []⟩).st.reg.names ↔
      n ∈ (TmplIncludeAll demoEngine cyclicIncludes List.reverse 3
        ⟨cyclicPage, []⟩).st.reg.names := by
  have h := resolution_order_independent demoEngine cyclicIncludes cyclicPage id List.reverse
    ["a".toList, "b".toList] (dirFS_offersOnly _) (dirFS_noNested _ (by decide))
    (fun l => List.Perm.refl l) (fun l => List.reverse_perm l) 3 3 (by decide) (by decide)
  have hn : (TmplIncludeAll demoEngine cyclicIncludes id 3 ⟨cyclicPage, []⟩).flow = .next := by
    decide
  refine ⟨hn, by decide, by decide, ?_⟩
  rcases h with ⟨e₁, _, h₁, _⟩ | hs
  · rw [hn] at h₁
    exact Flow.noConfusion h₁
  · exact hs.2.2.1

/-- C5 as stated fails when an include carries a `define` block. The page defines `x`,
which includes `a`, and `y`, which includes `m`; the source of `a` defines `m`, and there
is no file `m`. Listing `x` before `y` the run succeeds; listing `y` before `x` it fails
on the lookup of `m`. -/
theorem define_block_makes_order_matter :
    twoBlockPage.names = ["__page__".toList, "x".toList, "y".toList] ∧
    (TmplIncludeAll demoEngine definingIncludes id 3 ⟨twoBlockPage, []⟩).flow = .next ∧
    (TmplIncludeAll demoEngine definingIncludes id 3 ⟨twoBlockPage, []⟩).st.reg.names =
      ["__page__".toList, "x".toList, "y".toList, "a".toList, "m".toList] ∧
    (TmplIncludeAll demoEngine definingIncludes List.reverse 3 ⟨twoBlockPage, []⟩).flow =
      .fail "file does not exist".toList ∧
    (TmplIncludeAll demoEngine definingIncludes List.reverse 3 ⟨twoBlockPage, []⟩).st.fetched =
      ["m".toList] := by
  decide

/-! ### A missing include -/

theorem view_include_fails (E : Engine) (ws : WebServer)
    (order : List GoString → List GoString) (fuel : Nat) (ent : Entropy) (w : ResponseWriter)
    (p : GoString) (ctx : Option GoString) (f : File) (info : FileInfo) (b : GoString)
    (parsed : Parsed) (e : GoError)
    (hv : ws.ViewsFS p = .ok f) (hs : f.Stat = .ok info) (hd : info.IsDir = false)
    (hb : f.data = .ok b) (hp : E.Parse "__page__".toList b = .ok parsed)
    (hr : (TmplIncludeAll E ws.IncludesFS order fuel
      ⟨(Registry.New [] "__page__".toList).Parse "__page__".toList parsed, []⟩).flow = .fail e) :
    ServeHTTP.view E ws order fuel ent w p ctx =
      .answered (HTTPError w ent 89 (some e) "internal error".toList 500).1
        [(HTTPError w ent 89 (some e) "internal error".toList 500).2] := by
  unfold ServeHTTP.view
  rw [hv]
  simp only [hs, hd, hb, hp]
  rcases hrun : TmplIncludeAll E ws.IncludesFS order fuel
    ⟨(Registry.New [] "__page__".toList).Parse "__page__".toList parsed, []⟩ with ⟨flow, t⟩
  rw [hrun] at hr
  cases hr
  rfl

/-- C6 (as the code has it): when the includes collaborator offers finitely many names
and no include source carries nested definitions, a template set from which a name is
reachable that is neither registered nor present in the includes collaborator fails
resolution: `TmplIncludeAll` returns an error, which is the open, read or parse error of
an include reachable from the set (the lookup error of a missing name when every file
present reads and parses); and `ServeHTTP`, for a view that parses to this set, then
writes no template output: the response is the 500 of `HTTPError` alone, and the error is
logged. -/
theorem missing_include_fails {σ ν : Type} (L : Lib σ ν) (ws : WebServer)
    (order : List GoString → List GoString) (offered : List GoString) (reg : Registry)
    (m : GoString) (hfin : OffersOnly ws.IncludesFS offered)
    (hdefs : NoNestedDefinitions L.engine ws.IncludesFS) (hperm : ∀ l, (order l).Perm l)
    (hreach : Reach L.engine ws.IncludesFS reg m) (hm0 : m ∉ reg.names)
    (hmiss : ∃ e, ws.IncludesFS m = .error e) (fuel : Nat) (hf : offered.length < fuel) :
    ∃ e n, (TmplIncludeAll L.engine ws.IncludesFS order fuel ⟨reg, []⟩).flow = .fail e ∧
      Reach L.engine ws.IncludesFS reg n ∧ n ∉ reg.names ∧
      FetchError L.engine ws.IncludesFS n e ∧
      ((∀ k, fetchBody L.engine ws.IncludesFS k = none → ∃ e', ws.IncludesFS k = .error e') →
        ws.IncludesFS n = .error e) ∧
      ∀ (ent : Entropy) (r : Request) (st : σ) (f : File) (info : FileInfo) (b : GoString)
        (parsed : Parsed),
        stringsHasPrefix (ServeHTTP.probe L ws r st).1 "/api/".toList = false →
        ws.ViewsFS (if (ServeHTTP.probe L ws r st).1 = "/".toList then "/index.html".toList
          else (ServeHTTP.probe L ws r st).1) = .ok f →
        f.Stat = .ok info → info.IsDir = false → f.data = .ok b →
        L.engine.Parse "__page__".toList b = .ok parsed →
        (Registry.New [] "__page__".toList).Parse "__page__".toList parsed = reg →
        ∃ s, ServeHTTP L ws order fuel ent r ResponseWriter.fresh st = some s ∧
          s.w.status = 500 ∧
          s.w.body = "Error serving request (id=\"".toList ++ errorID ent ++
            "\") internal error\n".toList ∧
          s.log = [{ id := errorID ent, line := 89, err := e }] := by
  have hout := TmplIncludeAll_outcome L.engine ws.IncludesFS reg order offered hfin hdefs
    (fun l n h => ((hperm l).mem_iff).2 h) fuel hf
  obtain ⟨e0, hmiss⟩ := hmiss
  rcases hout with ⟨_, _, hg⟩ | ⟨e, n, hflow, hr, h0, he⟩
  · have := hg m hreach hm0
    rw [fetchBody_of_error L.engine ws.IncludesFS m e0 (Or.inl hmiss)] at this
    exact Bool.noConfusion this
  · refine ⟨e, n, hflow, hr, h0, he, ?_, ?_⟩
    · intro hall
      obtain ⟨e', he'⟩ := hall n (fetchBody_of_error _ _ n e he)
      rw [FetchError_unique _ _ n e e' he (Or.inl he')]
      exact he'
    · intro ent r st f info b parsed hapi hv hs hd hb hp hreg
      unfold ServeHTTP
      rcases hprobe : ServeHTTP.probe L ws r st with ⟨p, ctx, ops⟩
      rw [hprobe] at hapi hv
      simp only [hapi, Bool.false_eq_true, if_false]
      rw [← hreg] at hflow
      rw [view_include_fails L.engine ws order fuel ent ResponseWriter.fresh _ ctx f info b
        parsed e hv hs hd hb hp hflow]
      exact ⟨_, rfl, HTTPError_fresh_status ent 89 (some e) _ 500,
        by rw [HTTPError_fresh_body]; simp, rfl⟩

/-- A page that includes `a` over an empty includes directory: resolution fails on the lookup and the server answers 500. -/
theorem missing_include_fails_witness :
    (TmplIncludeAll demoEngine brokenServer.IncludesFS id 1 ⟨brokenPage, []⟩).flow =
      .fail "file does not exist".toList ∧
    (ServeHTTP demoLib brokenServer id 1 demoEntropy ⟨"GET".toList, "/".toList, []⟩
      ResponseWriter.fresh []).map (fun s => s.w.status) = some 500 ∧
    ∃ e n, (TmplIncludeAll demoLib.engine brokenServer.IncludesFS id 1 ⟨brokenPage, []⟩).flow =
      .fail e ∧ n ∉ brokenPage.names :=
  ⟨by decide, by decide,
    (missing_include_fails demoLib brokenServer id [] brokenPage "a".toList
      (dirFS_offersOnly []) (dirFS_noNested [] (by decide)) (fun l => List.Perm.refl l)
      (@Reach.step demoLib.engine brokenServer.IncludesFS brokenPage "__page__".toList
        "a".toList (demoNodes "hello A".toList)
        (Reach.init (by decide)) rfl ((mem_refsOfNodes_iff _ _).1 (by decide)))
      (by decide) ⟨_, rfl⟩ 1 (by decide)).elim
      (fun e h => h.elim (fun n hn => ⟨e, n, hn.1, hn.2.2.1⟩))⟩

/-- C6 as stated fails when an include carries a `define` block. The page includes `a`
and then `m`; `m` is not registered and there is no file `m`, but the source of `a`
defines `m`. Resolution succeeds and `ServeHTTP` serves the page with status 200. -/
theorem define_block_supplies_missing_include :
    "m".toList ∈ refsOfNodes (demoParse "AM".toList).body ∧
    "m".toList ∉ ((Registry.New [] "__page__".toList).Parse "__page__".toList
      (demoParse "AM".toList)).names ∧
    (definingIncludes "m".toList).toOption.isNone = true ∧
    (TmplIncludeAll demoEngine definingIncludes id 2
      ⟨(Registry.New [] "__page__".toList).Parse "__page__".toList (demoParse "AM".toList),
        []⟩).flow = .next ∧
    (ServeHTTP demoLib definingServer id 2 demoEntropy ⟨"GET".toList, "/".toList, []⟩
      ResponseWriter.fresh []).map (fun s => (s.w.status, s.w.body, s.log)) =
        some (200, "__page__,a,m".toList, []) := by
  decide

/-! ### An includes collaborator with infinitely many names -/

theorem replicate_x_ne_m (i : Nat) : List.replicate (i + 1) 'x' ≠ "m".toList := by
  intro h
  have := congrArg List.head? h
  simp [List.replicate] at this

theorem replicate_x_inj {i j : Nat} (h : List.replicate i 'x' = List.replicate j 'x') : i = j := by
  have := congrArg List.length h
  simpa using this

theorem loop_cons_fuel (visit : TState → List Node → Result) (n : GoString)
    (rest : List GoString) (s : TState) (root : List Node)
    (hl : s.reg.lookup n = some (some root)) (hv : (visit s root).flow = .fuel) :
    (TmplIncludeAll.loop visit (n :: rest) s).flow = .fuel := by
  rw [TmplIncludeAll.loop, hl]
  simp only []
  rcases h : visit s root with ⟨flow, s1⟩
  rw [h] at hv
  cases hv
  rfl

theorem walkRefs_cons_fuel (E : Engine) (fs : FileSystem) (all : TState → Result)
    (s : TState) (n : GoString) (rest : List GoString)
    (hv : (includeName E fs all s n).flow = .fuel) :
    (walkRefs E fs all s (n :: rest)).flow = .fuel := by
  rw [walkRefs]
  rcases h : includeName E fs all s n with ⟨flow, s1⟩
  rw [h] at hv
  cases hv
  rfl

/-- Listing the newest template first, a run that has just included the `j`-th template
of the endless chain never ends: whatever the fuel, it runs out. -/
theorem endless_chain_runs_out (fuel : Nat) :
    ∀ (reg : Registry) (j : Nat) (log : List GoString),
      (∀ i, j < i + 1 → List.replicate (i + 1) 'x' ∉ reg.names) →
      (TmplIncludeAll chainEngine endlessIncludes List.reverse fuel
        ⟨reg ++ [(List.replicate (j + 1) 'x',
          some [Node.template (List.replicate (j + 2) 'x')])], log⟩).flow = .fuel := by
  induction fuel with
  | zero => exact fun _ _ _ _ => rfl
  | succ k ih =>
    intro reg j log hreg
    have hj : List.replicate (j + 1) 'x' ∉ reg.names := hreg j (Nat.lt_succ_self j)
    have hnames : (reg ++ [(List.replicate (j + 1) 'x',
        some [Node.template (List.replicate (j + 2) 'x')])]).names =
        reg.names ++ [List.replicate (j + 1) 'x'] := by
      simp [Registry.names]
    have hnew : List.replicate (j + 2) 'x' ∉ (reg ++ [(List.replicate (j + 1) 'x',
        some [Node.template (List.replicate (j + 2) 'x')])]).names := by
      rw [hnames, List.mem_append, List.mem_singleton]
      rintro (h | h)
      · exact hreg (j + 1) (by omega) h
      · have := replicate_x_inj h
        omega
    rw [TmplIncludeAll_succ]
    show (TmplIncludeAll.loop _ (List.reverse (Registry.names _)) _).flow = _
    rw [hnames, List.reverse_append, List.reverse_singleton, List.singleton_append]
    apply loop_cons_fuel _ _ _ _ _ (Registry.lookup_append_fresh reg _ _ hj)
    show (walkRefs _ _ _ _ [List.replicate (j + 2) 'x']).flow = _
    apply walkRefs_cons_fuel
    rcases includeName_fresh chainEngine endlessIncludes
        (TmplIncludeAll chainEngine endlessIncludes List.reverse k)
        ⟨reg ++ [(List.replicate (j + 1) 'x',
          some [Node.template (List.replicate (j + 2) 'x')])], log⟩
        (List.replicate (j + 2) 'x') hnew with ⟨e, he, _⟩ | ⟨f, b, p, hf, hd, hp, h⟩
    · exfalso
      refine FetchError_not_ok chainEngine endlessIncludes (List.replicate (j + 2) 'x') e
        ⟨.ok ⟨false, 0⟩, .ok (List.replicate (j + 2) 'x' ++ ['x'])⟩ _
        ⟨[Node.template (List.replicate (j + 2) 'x' ++ ['x'])], []⟩ he ?_ rfl rfl
      unfold endlessIncludes
      rw [if_neg (replicate_x_ne_m (j + 1))]
    · have hfile : endlessIncludes (List.replicate (j + 2) 'x') =
          .ok ⟨.ok ⟨false, 0⟩, .ok (List.replicate (j + 2) 'x' ++ ['x'])⟩ := by
        unfold endlessIncludes
        rw [if_neg (replicate_x_ne_m (j + 1))]
      rw [hfile] at hf
      cases hf
      cases hd
      have hparse : chainEngine.Parse (List.replicate (j + 2) 'x')
          (List.replicate (j + 2) 'x' ++ ['x']) =
          .ok ⟨[Node.template (List.replicate (j + 2) 'x' ++ ['x'])], []⟩ := rfl
      rw [hparse] at hp
      cases hp
      have hshape : List.replicate (j + 2) 'x' ++ ['x'] = List.replicate (j + 1 + 2) 'x' := by
        simp [List.replicate_succ']
      rw [Registry.Parse_fresh _ _ _ hnew rfl, hshape] at h
      have hk := ih (reg ++ [(List.replicate (j + 1) 'x',
        some [Node.template (List.replicate (j + 2) 'x')])]) (j + 1) (log ++ [List.replicate (j + 2) 'x'])
        (by
          intro i hi
          rw [hnames, List.mem_append, List.mem_singleton]
          rintro (h1 | h1)
          · exact hreg i (by omega) h1
          · have := replicate_x_inj h1
            omega)
      rw [h]
      exact hk

/-- Finiteness of the includes collaborator cannot be dropped. Over a collaborator that
offers infinitely many names, a page that includes `x` and then the missing `m` fails on
the lookup of `m` when templates are listed oldest first, and never returns, whatever the
fuel, when they are listed newest first. -/
theorem endless_includes_order_matters :
    (TmplIncludeAll chainEngine endlessIncludes id 2 ⟨endlessPage, []⟩).flow =
      .fail "file does not exist".toList ∧
    ∀ fuel, (TmplIncludeAll chainEngine endlessIncludes List.reverse fuel
      ⟨endlessPage, []⟩).flow = .fuel := by
  refine ⟨by decide, ?_⟩
  intro fuel
  cases fuel with
  | zero => rfl
  | succ k =>
    have hnew : "x".toList ∉ endlessPage.names := by decide
    rw [TmplIncludeAll_succ]
    show (TmplIncludeAll.loop _ ["__page__".toList] _).flow = _
    have hpage : (TState.mk endlessPage []).reg.lookup "__page__".toList =
        some (some [Node.template "x".toList, Node.template "m".toList]) := rfl
    apply loop_cons_fuel _ _ _ _ _ hpage
    show (walkRefs _ _ _ _ ["x".toList, "m".toList]).flow = _
    apply walkRefs_cons_fuel
    rcases includeName_fresh chainEngine endlessIncludes
        (TmplIncludeAll chainEngine endlessIncludes List.reverse k)
        ⟨endlessPage, []⟩ "x".toList hnew with ⟨e, he, _⟩ | ⟨f, b, p, hf, hd, hp, h⟩
    · exact (FetchError_not_ok chainEngine endlessIncludes "x".toList e
        ⟨.ok ⟨false, 0⟩, .ok "xx".toList⟩ _ ⟨[Node.template "xx".toList], []⟩ he rfl rfl
        rfl).elim
    · have hfile : endlessIncludes "x".toList = .ok ⟨.ok ⟨false, 0⟩, .ok "xx".toList⟩ := rfl
      rw [hfile] at hf
      cases hf
      cases hd
      have hparse : chainEngine.Parse "x".toList "xx".toList =
          .ok ⟨[Node.template "xx".toList], []⟩ := rfl
      rw [hparse] at hp
      cases hp
      rw [Registry.Parse_fresh _ _ _ hnew rfl] at h
      have hk := endless_chain_runs_out k endlessPage 0 ([] ++ ["x".toList])
        (by
          intro i _ hmem
          have : List.replicate (i + 1) 'x' = "__page__".toList := by
            simpa [endlessPage, Registry.names] using hmem
          have := congrArg List.head? this
          simp [List.replicate] at this)
      rw [h]
      exact hk

end WhatevrMe
